import Mathlib

/-!
# Circular doubly linked queue (`queue.c`): shallow embedding

The C code works on `struct list_head` nodes embedded in `element_t`
objects.  The embedding keeps the pointer structure:

* an address is a natural number, `0` is `NULL`;
* `container_of` / `list_entry` is the identity on addresses: an element is
  identified with the address of its embedded list node;
* the memory is a `Heap`: the `next` and `prev` fields of every node, the
  `value` field of every element (`none` is a `NULL` payload pointer, `some s`
  is a payload holding the character codes `s` before the terminator) and the
  allocation status of every element block;
* every C loop is a function recursing on a fuel counter, returning `none`
  when the fuel is exhausted; dereferencing a `NULL` payload in `strcmp`
  also yields `none`;
* the results of `malloc` are explicit arguments of the operations that
  allocate (`0`, respectively `false`, is a failed allocation).
-/

namespace LabQueue

/-! ## Memory -/

/-- Memory image: link fields, payloads and allocation status by address. -/
@[ext]
structure Heap where
  next : Nat → Nat
  prev : Nat → Nat
  value : Nat → Option (List Nat)
  live : Nat → Bool

/-- Store `a->next = v`. -/
def Heap.setNext (h : Heap) (a v : Nat) : Heap :=
  { h with next := fun x => if x = a then v else h.next x }

/-- Store `a->prev = v`. -/
def Heap.setPrev (h : Heap) (a v : Nat) : Heap :=
  { h with prev := fun x => if x = a then v else h.prev x }

/-- Store `a->value = v`. -/
def Heap.setValue (h : Heap) (a : Nat) (v : Option (List Nat)) : Heap :=
  { h with value := fun x => if x = a then v else h.value x }

/-- Mark the block at `a` as allocated (a successful `malloc` returned `a`). -/
def Heap.alloc (h : Heap) (a : Nat) : Heap :=
  { h with live := fun x => if x = a then true else h.live x }

/-- Mark the block at `a` as released (`free(a)`). -/
def Heap.free (h : Heap) (a : Nat) : Heap :=
  { h with live := fun x => if x = a then false else h.live x }

/-- A memory with nothing allocated. -/
def Heap.empty : Heap := ⟨fun _ => 0, fun _ => 0, fun _ => none, fun _ => false⟩

/-! ## `list.h` primitives and `strcmp` -/

/-- Modelled from the spec: `INIT_LIST_HEAD` of `list.h` (not under `src/`),
which puts a node in the self-referential, unlinked state. -/
def INIT_LIST_HEAD (h : Heap) (node : Nat) : Heap :=
  (h.setNext node node).setPrev node node

/-- Modelled from the spec: `list_add` of `list.h` (not under `src/`),
which splices `node` immediately after `head`. -/
def list_add (h : Heap) (node head : Nat) : Heap :=
  let next := h.next head
  let h := h.setPrev next node
  let h := h.setNext node next
  let h := h.setPrev node head
  h.setNext head node

/-- Modelled from the spec: `list_add_tail` of `list.h` (not under `src/`),
which splices `node` immediately before `head`. -/
def list_add_tail (h : Heap) (node head : Nat) : Heap :=
  let prev := h.prev head
  let h := h.setNext prev node
  let h := h.setNext node head
  let h := h.setPrev node prev
  h.setPrev head node

/-- Modelled from the spec: `list_del` of `list.h` (not under `src/`),
which unlinks `node` from its neighbours; the fields of `node` itself are
left as they were. -/
def list_del (h : Heap) (node : Nat) : Heap :=
  let next := h.next node
  let prev := h.prev node
  let h := h.setPrev next prev
  h.setNext prev next

/-- Modelled from the spec: `list_del_init` of `list.h` (not under `src/`),
which unlinks `node` and re-initialises it to the self-referential state. -/
def list_del_init (h : Heap) (node : Nat) : Heap :=
  INIT_LIST_HEAD (list_del h node) node

/-- Modelled from the spec: `list_empty` of `list.h` (not under `src/`):
the head's `next` is the head itself. -/
def list_empty (h : Heap) (head : Nat) : Bool :=
  decide (h.next head = head)

/-- Modelled from the spec: `list_is_singular` of `list.h` (not under
`src/`): the ring is not empty and the head's two links are the same node. -/
def list_is_singular (h : Heap) (head : Nat) : Bool :=
  !list_empty h head && decide (h.prev head = h.next head)

/-- The C library `strcmp` on payloads given by their character codes (as
`unsigned char`) before the terminator; only the sign of the result is
specified by the C standard, and the result is `-1`, `0` or `1`. -/
def strcmp : List Nat → List Nat → Int
  | [], [] => 0
  | [], _ :: _ => -1
  | _ :: _, [] => 1
  | a :: as, b :: bs =>
    if a < b then -1 else if b < a then 1 else strcmp as bs

/-- Call `strcmp(p->value, q->value)`: undefined (`none`) on a `NULL`
payload pointer. -/
def strcmpValue (h : Heap) (p q : Nat) : Option Int :=
  match h.value p, h.value q with
  | some s, some t => some (strcmp s t)
  | _, _ => none

/-! ## `queue.c` -/

/-- Function `q_new`; `q` is the result of `malloc`. -/
def q_new (h : Heap) (q : Nat) : Heap × Nat :=
  if q = 0 then (h, 0)
  else
    let h := h.alloc q
    let h := h.setValue q none
    let h := INIT_LIST_HEAD h q
    (h, q)

/-- Function `q_release_element`: `free(e->value); free(e);`. -/
def q_release_element (h : Heap) (e : Nat) : Heap :=
  h.free e

/-- Function `q_init_element`; `buf` tells whether the `malloc` of the
payload storage succeeded. -/
def q_init_element (h : Heap) (e : Nat) (s : List Nat) (buf : Bool) : Heap × Bool :=
  if !buf then (h.setValue e none, false)
  else
    let h := h.setValue e (some s)
    let h := INIT_LIST_HEAD h e
    (h, true)

/-- Function `q_new_element`; `ne` is the result of the `malloc` of the
element and `buf` tells whether the `malloc` of the payload succeeded. -/
def q_new_element (h : Heap) (s : List Nat) (ne : Nat) (buf : Bool) : Heap × Nat :=
  if ne = 0 then (h, 0)
  else
    let h := h.alloc ne
    match q_init_element h ne s buf with
    | (h, false) => (h.free ne, 0)
    | (h, true) => (h, ne)

/-- Function `q_insert_head`. -/
def q_insert_head (h : Heap) (head : Nat) (s : List Nat) (ne : Nat) (buf : Bool) :
    Heap × Bool :=
  if head = 0 then (h, false)
  else
    match q_new_element h s ne buf with
    | (h, ne) =>
      if ne = 0 then (h, false)
      else (list_add h ne head, true)

/-- Function `q_insert_tail`. -/
def q_insert_tail (h : Heap) (head : Nat) (s : List Nat) (ne : Nat) (buf : Bool) :
    Heap × Bool :=
  if head = 0 then (h, false)
  else
    match q_new_element h s ne buf with
    | (h, ne) =>
      if ne = 0 then (h, false)
      else (list_add_tail h ne head, true)

/-- The `while` loop of `q_delete_mid`.  The pointer `indir` to a `next`
field is represented by the node owning that field, so `*indir` is
`h.next indir`.  Returns the final `indir`. -/
def q_delete_mid_loop : Nat → Heap → Nat → Nat → Nat → Option Nat
  | 0, _, _, _, _ => none
  | fuel + 1, h, head, indir, fast =>
    if fast ≠ head ∧ h.next fast ≠ head then
      q_delete_mid_loop fuel h head (h.next indir) (h.next (h.next fast))
    else some indir

/-- Function `q_delete_mid` (the branch compiled under `#if 1`). -/
def q_delete_mid (fuel : Nat) (h : Heap) (head : Nat) : Option (Heap × Bool) :=
  if head = 0 then some (h, false)
  else
    match q_delete_mid_loop fuel h head head (h.next head) with
    | none => none
    | some indir =>
      let del := h.next indir
      let h := list_del_init h del
      let e := h.next del
      some (q_release_element h e, true)

/-- The inner `while` loop of `q_delete_dup`; returns the memory, the final
`node` and the final `dup_flag`. -/
def q_delete_dup_inner : Nat → Heap → Nat → Nat → Nat → Bool → Option (Heap × Nat × Bool)
  | 0, _, _, _, _, _ => none
  | fuel + 1, h, head, prev, node, dup_flag =>
    if node = head then some (h, node, dup_flag)
    else
      match strcmpValue h prev node with
      | none => none
      | some c =>
        if c = 0 then
          let h := list_del h node
          let h := q_release_element h node
          q_delete_dup_inner fuel h head prev (h.next prev) true
        else some (h, node, dup_flag)

/-- The outer `while` loop of `q_delete_dup`. -/
def q_delete_dup_loop : Nat → Heap → Nat → Nat → Nat → Bool → Option Heap
  | 0, _, _, _, _, _ => none
  | fuel + 1, h, head, prev, node, dup_flag =>
    if prev ≠ head ∧ node ≠ head then
      match q_delete_dup_inner fuel h head prev node dup_flag with
      | none => none
      | some (h, node, dup_flag) =>
        if dup_flag then
          let h := list_del h prev
          let h := q_release_element h prev
          q_delete_dup_loop fuel h head node (h.next node) false
        else
          q_delete_dup_loop fuel h head node (h.next node) dup_flag
    else some h

/-- Function `q_delete_dup`. -/
def q_delete_dup (fuel : Nat) (h : Heap) (head : Nat) : Option (Heap × Bool) :=
  if head = 0 ∨ list_empty h head = true ∨ list_is_singular h head = true then
    some (h, false)
  else
    match q_delete_dup_loop fuel h head (h.next head) (h.next (h.next head)) false with
    | none => none
    | some h => some (h, true)

/-- The `while` loop of `q_swap`. -/
def q_swap_loop : Nat → Heap → Nat → Nat → Option Heap
  | 0, _, _, _ => none
  | fuel + 1, h, head, it =>
    if it ≠ head ∧ h.next it ≠ head then
      let tmp := h.next it
      let h := list_del_init h it
      let h := list_add h it tmp
      q_swap_loop fuel h head (h.next it)
    else some h

/-- Function `q_swap`. -/
def q_swap (fuel : Nat) (h : Heap) (head : Nat) : Option Heap :=
  if head = 0 ∨ list_empty h head = true ∨ list_is_singular h head = true then some h
  else q_swap_loop fuel h head (h.next head)

/-- The `for` loop of `q_reverse`. -/
def q_reverse_loop : Nat → Heap → Nat → Nat → Option Heap
  | 0, _, _, _ => none
  | fuel + 1, h, head, it =>
    if it ≠ head then
      let tmp := h.next it
      let h := h.setNext it (h.prev it)
      let h := h.setPrev it tmp
      q_reverse_loop fuel h head (h.prev it)
    else some h

/-- Function `q_reverse`. -/
def q_reverse (fuel : Nat) (h : Heap) (head : Nat) : Option Heap :=
  if head = 0 ∨ list_empty h head = true then some h
  else
    match q_reverse_loop fuel h head (h.next head) with
    | none => none
    | some h =>
      let tmp := h.next head
      let h := h.setNext head (h.prev head)
      some (h.setPrev head tmp)

/-- Target of the pointer `ptr` of `__q_merge`: the local variable `head`
or the `next` field of a node. -/
inductive LinkRef where
  | headVar : LinkRef
  | nextOf : Nat → LinkRef
  deriving DecidableEq

/-- Store `*ptr = v` in `__q_merge`, on the memory and the local `head`. -/
def LinkRef.store (ptr : LinkRef) (h : Heap) (head v : Nat) : Heap × Nat :=
  match ptr with
  | .headVar => (h, v)
  | .nextOf a => (h.setNext a v, head)

/-- The `for` loop of `__q_merge` followed by the final store and the
`return`; yields the memory and the returned `head`. -/
def q_merge_loop : Nat → Heap → Nat → Nat → Nat → LinkRef → Option (Heap × Nat)
  | 0, _, _, _, _, _ => none
  | fuel + 1, h, left, right, head, ptr =>
    if left ≠ 0 ∧ right ≠ 0 then
      match strcmpValue h left right with
      | none => none
      | some c =>
        if c < 0 then
          -- node = &left
          match ptr.store h head left with
          | (h, head) => q_merge_loop fuel h (h.next left) right head (.nextOf left)
        else
          -- node = &right
          match ptr.store h head right with
          | (h, head) => q_merge_loop fuel h left (h.next right) head (.nextOf right)
    else some (ptr.store h head (left ||| right))

/-- Function `__q_merge`. -/
def __q_merge (fuel : Nat) (h : Heap) (left right : Nat) : Option (Heap × Nat) :=
  q_merge_loop fuel h left right 0 .headVar

/-- The slow/fast `while` loop of `q_merge_sort`; returns the final `slow`. -/
def q_merge_sort_split : Nat → Heap → Nat → Nat → Option Nat
  | 0, _, _, _ => none
  | fuel + 1, h, slow, fast =>
    if h.next fast ≠ 0 ∧ h.next (h.next fast) ≠ 0 then
      q_merge_sort_split fuel h (h.next slow) (h.next (h.next fast))
    else some slow

/-- Function `q_merge_sort`; the fuel bounds the recursion depth and the
iterations of each loop. -/
def q_merge_sort : Nat → Heap → Nat → Option (Heap × Nat)
  | 0, _, _ => none
  | fuel + 1, h, head =>
    if h.next head = 0 then some (h, head)
    else
      match q_merge_sort_split fuel h head head with
      | none => none
      | some slow =>
        let head2 := h.next slow
        let h := h.setNext slow 0
        match q_merge_sort fuel h head with
        | none => none
        | some (h, left) =>
          match q_merge_sort fuel h head2 with
          | none => none
          | some (h, right) => __q_merge fuel h left right

/-- The `while` loop of `q_sort` that rebuilds the `prev` links; returns the
memory and the final `it`. -/
def q_sort_relink : Nat → Heap → Nat → Option (Heap × Nat)
  | 0, _, _ => none
  | fuel + 1, h, it =>
    if h.next it ≠ 0 then
      let h := h.setPrev (h.next it) it
      q_sort_relink fuel h (h.next it)
    else some (h, it)

/-- Function `q_sort`. -/
def q_sort (fuel : Nat) (h : Heap) (head : Nat) : Option Heap :=
  if head = 0 ∨ list_empty h head = true ∨ list_is_singular h head = true then some h
  else
    let node := h.next head
    let h := h.setNext (h.prev head) 0
    let h := h.setNext head 0
    match q_merge_sort fuel h node with
    | none => none
    | some (h, node) =>
      let it := head
      let h := h.setNext it node
      match q_sort_relink fuel h it with
      | none => none
      | some (h, it) =>
        let h := h.setNext it head
        some (h.setPrev head it)

/-- The C library `strncpy(dst, src, n)` on a destination array given by its
bytes: exactly `n` bytes are written, the first characters of `src` and then
null padding; writing past the end of the array is undefined (`none`). -/
def strncpy (dst src : List Nat) (n : Nat) : Option (List Nat) :=
  if n ≤ dst.length then
    some (src.take n ++ List.replicate (n - src.length) 0 ++ dst.drop n)
  else none

/-- The copy into the caller's buffer at the end of `q_remove_head` and
`q_remove_tail`: `strncpy(sp, target->value, bufsize - 1)` followed by
`sp[bufsize - 1] = 0`, with `bufsize - 1` computed in `size_t` (64 bits).
The buffer `sp` is `none` for a `NULL` pointer and otherwise the array of its
bytes; a `NULL` buffer or payload and a write out of the array are undefined
(`none`). -/
def copy_to_buffer (h : Heap) (target : Nat) (sp : Option (List Nat)) (bufsize : Nat) :
    Option (List Nat) :=
  match sp, h.value target with
  | some buf, some s =>
    match strncpy buf s ((bufsize + (2 ^ 64 - 1)) % 2 ^ 64) with
    | none => none
    | some buf =>
      if (bufsize + (2 ^ 64 - 1)) % 2 ^ 64 < buf.length then
        some (buf.set ((bufsize + (2 ^ 64 - 1)) % 2 ^ 64) 0)
      else none
  | _, _ => none

/-- Function `q_remove_head`.  Returns the memory, the buffer and the
returned element (`0` for `NULL`). -/
def q_remove_head (h : Heap) (head : Nat) (sp : Option (List Nat)) (bufsize : Nat) :
    Option (Heap × Option (List Nat) × Nat) :=
  if head = 0 ∨ list_empty h head = true ∨ sp = none then some (h, sp, 0)
  else
    let target := h.next head
    let h := list_del_init h (h.next head)
    match copy_to_buffer h target sp bufsize with
    | none => none
    | some buf => some (h, some buf, target)

/-- Function `q_remove_tail`.  Returns the memory, the buffer and the
returned element (`0` for `NULL`). -/
def q_remove_tail (h : Heap) (head : Nat) (sp : Option (List Nat)) (bufsize : Nat) :
    Option (Heap × Option (List Nat) × Nat) :=
  if head = 0 ∨ list_empty h head = true ∨ sp = none then some (h, sp, 0)
  else
    let target := h.prev head
    let h := list_del_init h (h.prev head)
    match copy_to_buffer h target sp bufsize with
    | none => none
    | some buf => some (h, some buf, target)

/-- The conversion of a `size_t` value to `int` made by `return len` in
`q_size`: the low 32 bits of the value, read in two's complement (C leaves the
result for a value above `INT_MAX` to the implementation; this is what gcc and
clang define). -/
def int_of_size_t (n : Nat) : Int :=
  if n % 2 ^ 32 < 2 ^ 31 then ((n % 2 ^ 32 : Nat) : Int)
  else ((n % 2 ^ 32 : Nat) : Int) - ((2 ^ 32 : Nat) : Int)

/-- The `list_for_each` loop of `q_size`; `++len` is computed in `size_t`. -/
def q_size_loop : Nat → Heap → Nat → Nat → Nat → Option Nat
  | 0, _, _, _, _ => none
  | fuel + 1, h, head, li, len =>
    if li ≠ head then q_size_loop fuel h head (h.next li) ((len + 1) % 2 ^ 64)
    else some len

/-- Function `q_size`.  The count `len` is a `size_t` and the function returns
it as an `int`. -/
def q_size (fuel : Nat) (h : Heap) (head : Nat) : Option Int :=
  if head = 0 then some 0
  else
    match q_size_loop fuel h head (h.next head) 0 with
    | none => none
    | some len => some (int_of_size_t len)

/-- The `for` loop of `q_shuffle`: `x` times `it = it->next`. -/
def q_shuffle_walk : Nat → Heap → Nat → Nat
  | 0, _, it => it
  | x + 1, h, it => q_shuffle_walk x h (h.next it)

/-- The `while (window)` loop of `q_shuffle`.  `window` is an `int`; `rnd k`
is the non-negative value returned by the `k`-th call of `rand()` after the
seeding, and `k` counts the calls made so far.  The remainder `rand() % window`
is the truncating one of C, which is non-negative here, so the `for` loop runs
that many times.  `--window` below `INT_MIN` is a signed overflow, which is
undefined: the loop then yields `none`. -/
def q_shuffle_loop : Nat → Heap → Nat → (Nat → Nat) → Nat → Int → Option Heap
  | 0, _, _, _, _, _ => none
  | fuel + 1, h, head, rnd, k, window =>
    if window = 0 then some h
    else
      let x := Int.tmod ((rnd k : Nat) : Int) window
      let it := q_shuffle_walk x.toNat h (h.next head)
      let h := list_del_init h it
      let h := list_add h it head
      if window - 1 < -2147483648 then none
      else q_shuffle_loop fuel h head rnd (k + 1) (window - 1)

/-- Function `q_shuffle`; `rnd` is the sequence of values that `rand()`
returns after `srand(time(NULL))`. -/
def q_shuffle (fuel : Nat) (h : Heap) (head : Nat) (rnd : Nat → Nat) : Option (Heap × Bool) :=
  if head = 0 ∨ list_empty h head = true ∨ list_is_singular h head = true then
    some (h, false)
  else
    match q_size fuel h head with
    | none => none
    | some window =>
      match q_shuffle_loop fuel h head rnd 0 window with
      | none => none
      | some h => some (h, true)

/-! ## Well-formed rings -/

/-- Following `f` from `p` visits exactly the nodes of `l`, in order, and
then arrives at `q`. -/
def Seg (f : Nat → Nat) : Nat → List Nat → Nat → Prop
  | p, [], q => p = q
  | p, x :: l, q => p = x ∧ Seg f (f x) l q

instance Seg.instDecidable (f : Nat → Nat) : (p : Nat) → (l : List Nat) → (q : Nat) →
    Decidable (Seg f p l q)
  | p, [], q => inferInstanceAs (Decidable (p = q))
  | p, x :: l, q =>
    have := Seg.instDecidable f (f x) l q
    inferInstanceAs (Decidable (p = x ∧ Seg f (f x) l q))

/-- Well-formed ring: `l` is the forward traversal of the ring anchored at
`head`, i.e. the nodes met by following `next` from `head->next` until the
head is reached again.  The nodes are distinct, non-null and allocated, and
`prev` undoes `next` on every node of the ring, the head included. -/
def Ring (h : Heap) (head : Nat) (l : List Nat) : Prop :=
  (head :: l).Nodup ∧ 0 ∉ head :: l ∧ (∀ x ∈ head :: l, h.live x = true) ∧
    Seg h.next head (head :: l) head ∧ ∀ x ∈ head :: l, h.prev (h.next x) = x

instance Ring.instDecidable (h : Heap) (head : Nat) (l : List Nat) :
    Decidable (Ring h head l) := by
  unfold Ring; infer_instance

/-- Every element of `l` carries a payload (a non-null `value` pointer). -/
def Payloads (h : Heap) (l : List Nat) : Prop :=
  ∀ x ∈ l, h.value x ≠ none

instance Payloads.instDecidable (h : Heap) (l : List Nat) : Decidable (Payloads h l) := by
  unfold Payloads; infer_instance

/-- The payload of an element as a string (empty for a `NULL` pointer). -/
def key (h : Heap) (x : Nat) : List Nat :=
  (h.value x).getD []

/-- The payloads met along the traversal `l`. -/
def payloads (h : Heap) (l : List Nat) : List (List Nat) :=
  l.map (key h)

/-- The pairwise exchange `[x0, x1, x2, x3, …] ↦ [x1, x0, x3, x2, …]`; a
final unpaired element stays in place. -/
def swapPairs : List Nat → List Nat
  | a :: b :: l => b :: a :: swapPairs l
  | l => l

/-- The memory obtained from `h` by exchanging the `next` and `prev` fields
of every node listed in `S`. -/
def swapLinks (S : List Nat) (h : Heap) : Heap :=
  { h with
    next := fun x => if x ∈ S then h.prev x else h.next x
    prev := fun x => if x ∈ S then h.next x else h.prev x }

/-- What the two nested loops of `q_delete_dup` leave of a run: `p` is the
first node of the current run of equal payloads, `dup` tells whether another
member of the run has been met, and the list is what follows. -/
def dedupAux (v : Nat → List Nat) : Nat → Bool → List Nat → List Nat
  | p, dup, [] => if dup then [] else [p]
  | p, dup, x :: l =>
    if v x = v p then dedupAux v p true l
    else (if dup then [] else [p]) ++ dedupAux v x false l

/-- What `q_delete_dup` leaves of a traversal: every run of two or more
adjacent equal payloads is dropped entirely. -/
def dedupRuns (v : Nat → List Nat) : List Nat → List Nat
  | [] => []
  | p :: l => dedupAux v p false l

/-- The traversal `l` is in non-decreasing `strcmp` order. -/
def SortedRing (h : Heap) (l : List Nat) : Prop :=
  l.Pairwise fun a b => strcmp (key h a) (key h b) ≤ 0

instance SortedRing.instDecidable (h : Heap) (l : List Nat) : Decidable (SortedRing h l) := by
  unfold SortedRing; infer_instance

/-- Read `*ptr` in `__q_merge`, from the memory and the local `head`. -/
def LinkRef.load (ptr : LinkRef) (h : Heap) (head : Nat) : Nat :=
  match ptr with
  | .headVar => head
  | .nextOf a => h.next a

/-- The order in which `__q_merge` splices the nodes of two chains: the
front of the left chain goes first only when its payload is strictly
smaller than the payload at the front of the right chain. -/
def mergeSpec (v : Nat → List Nat) : List Nat → List Nat → List Nat
  | [], r => r
  | a :: l, [] => a :: l
  | a :: l, b :: r =>
    if strcmp (v a) (v b) < 0 then a :: mergeSpec v l (b :: r)
    else b :: mergeSpec v (a :: l) r
termination_by l r => l.length + r.length

/-- What `q_shuffle` does to a traversal: `window` times, the element at
index `rnd k % window` (counted from the front of the ring) is moved to the
front, and the window shrinks by one. -/
def shuffleSpec (rnd : Nat → Nat) : Nat → Nat → List Nat → List Nat
  | 0, _, l => l
  | window + 1, k, l =>
    match l[rnd k % (window + 1)]? with
    | some it => shuffleSpec rnd window (k + 1) (it :: l.eraseIdx (rnd k % (window + 1)))
    | none => l

/-- The invariant of a queue in use: a well-formed ring whose elements all
carry a payload. -/
def RingInv (h : Heap) (head : Nat) (l : List Nat) : Prop :=
  Ring h head l ∧ Payloads h l

/-- One call of an operation that rearranges, extends or shrinks the ring,
together with the inputs that come from outside: the string and the results
of `malloc` for an insertion, the buffer and its size for a removal, the
values of `rand()` for a shuffle. -/
inductive Op where
  | insertHead (s : List Nat) (ne : Nat) (buf : Bool)
  | insertTail (s : List Nat) (ne : Nat) (buf : Bool)
  | removeHead (sp : Option (List Nat)) (bufsize : Nat)
  | removeTail (sp : Option (List Nat)) (bufsize : Nat)
  | deleteMid
  | deleteDup
  | swap
  | reverse
  | shuffle (rnd : Nat → Nat)

/-- The memory after one call on the queue anchored at `head`. -/
def Op.run (fuel head : Nat) : Op → Heap → Option Heap
  | .insertHead s ne buf, h => some (q_insert_head h head s ne buf).1
  | .insertTail s ne buf, h => some (q_insert_tail h head s ne buf).1
  | .removeHead sp bufsize, h => (q_remove_head h head sp bufsize).map fun p => p.1
  | .removeTail sp bufsize, h => (q_remove_tail h head sp bufsize).map fun p => p.1
  | .deleteMid, h => (q_delete_mid fuel h head).map fun p => p.1
  | .deleteDup, h => (q_delete_dup fuel h head).map fun p => p.1
  | .swap, h => q_swap fuel h head
  | .reverse, h => q_reverse fuel h head
  | .shuffle rnd, h => (q_shuffle fuel h head rnd).map fun p => p.1

/-- The memory after a sequence of calls, `none` as soon as one of them is
undefined. -/
def runOps (fuel head : Nat) : List Op → Heap → Option Heap
  | [], h => some h
  | op :: ops, h =>
    match op.run fuel head h with
    | none => none
    | some h => runOps fuel head ops h

/-- A call within the contract of its operation: `malloc` returns `NULL` or a
block that is not in use, a non-null buffer has at least `bufsize ≥ 1` bytes,
`q_delete_mid` is not called on an empty ring, and the size of a ring to
shuffle fits in an `int`. -/
def Op.admissible (head : Nat) : Op → Heap → Prop
  | .insertHead _ ne _, h => ne = 0 ∨ h.live ne = false
  | .insertTail _ ne _, h => ne = 0 ∨ h.live ne = false
  | .removeHead sp bufsize, _ =>
    ∀ buf, sp = some buf → 1 ≤ bufsize ∧ bufsize ≤ buf.length ∧ bufsize < 2 ^ 64
  | .removeTail sp bufsize, _ =>
    ∀ buf, sp = some buf → 1 ≤ bufsize ∧ bufsize ≤ buf.length ∧ bufsize < 2 ^ 64
  | .deleteMid, h => list_empty h head = false
  | .shuffle _, h => ∀ l, Ring h head l → l.length < 2 ^ 31
  | _, _ => True

/-- A sequence of calls each of which is within its contract, and given
enough fuel, in the memory it is made in. -/
def Admissible (fuel head : Nat) : List Op → Heap → Prop
  | [], _ => True
  | op :: ops, h =>
    op.admissible head h ∧ (∀ l, Ring h head l → l.length + 1 ≤ fuel) ∧
      ∀ h', op.run fuel head h = some h' → Admissible fuel head ops h'

/-- Builds a ring from a sequence of payloads with `q_new` and
`q_insert_tail`: the head is at address `1` and the `i`-th element at
address `i + 2`. -/
def ringOf (vals : List (List Nat)) : Heap :=
  (vals.foldl (fun (p : Heap × Nat) s => ((q_insert_tail p.1 1 s p.2 true).1, p.2 + 1))
    ((q_new Heap.empty 1).1, 2)).1

/-! ## Paths -/

@[simp] theorem seg_nil {f : Nat → Nat} {p q : Nat} : Seg f p [] q ↔ p = q := Iff.rfl

@[simp] theorem seg_cons {f : Nat → Nat} {l : List Nat} {p x q : Nat} :
    Seg f p (x :: l) q ↔ p = x ∧ Seg f (f x) l q := Iff.rfl

theorem seg_append {f : Nat → Nat} {l₁ l₂ : List Nat} {p q : Nat} :
    Seg f p (l₁ ++ l₂) q ↔ ∃ m, Seg f p l₁ m ∧ Seg f m l₂ q := by
  induction l₁ generalizing p with
  | nil => simp
  | cons x l₁ ih =>
    simp only [List.cons_append, seg_cons, ih]
    constructor
    · rintro ⟨hp, m, h1, h2⟩
      exact ⟨m, ⟨hp, h1⟩, h2⟩
    · rintro ⟨m, ⟨hp, h1⟩, h2⟩
      exact ⟨hp, m, h1, h2⟩

theorem seg_snoc {f : Nat → Nat} {l : List Nat} {p x q : Nat} :
    Seg f p (l ++ [x]) q ↔ Seg f p l x ∧ f x = q := by
  rw [seg_append]
  constructor
  · rintro ⟨m, h1, h2, h3⟩
    subst h2
    exact ⟨h1, h3⟩
  · rintro ⟨h1, h2⟩
    exact ⟨x, h1, rfl, h2⟩

theorem seg_congr {f g : Nat → Nat} {l : List Nat} {p q : Nat}
    (hfg : ∀ x ∈ l, g x = f x) : Seg g p l q ↔ Seg f p l q := by
  induction l generalizing p with
  | nil => simp
  | cons x l ih =>
    simp only [seg_cons]
    rw [hfg x (List.mem_cons_self _ _), ih (fun y hy => hfg y (List.mem_cons_of_mem _ hy))]

/-- The successor of a node inside a path is the next node of the path. -/
theorem seg_next {f : Nat → Nat} {l₁ l₂ : List Nat} {p x q : Nat}
    (hs : Seg f p (l₁ ++ x :: l₂) q) : f x = l₂.headD q := by
  obtain ⟨m, _, h2⟩ := seg_append.1 hs
  cases l₂ with
  | nil => exact h2.2
  | cons y l₂ => exact h2.2.1

/-- Every node met after the first one is the image of a node of the path. -/
theorem seg_preimage {f : Nat → Nat} {l : List Nat} {p a q : Nat}
    (hs : Seg f p (a :: l) q) : ∀ x ∈ l ++ [q], ∃ y ∈ a :: l, f y = x := by
  induction l generalizing p a with
  | nil =>
    intro x hx
    simp at hx
    simp at hs
    exact ⟨a, by simp, by rw [hx, hs.2]⟩
  | cons b l ih =>
    intro x hx
    have h2 : Seg f (f a) (b :: l) q := hs.2
    rcases List.mem_cons.1 hx with rfl | hx
    · exact ⟨a, by simp, h2.1⟩
    · obtain ⟨y, hy, hxy⟩ := ih h2 x hx
      exact ⟨y, List.mem_cons_of_mem _ hy, hxy⟩

/-- The image of a node of a path is a later node of the path or its end. -/
theorem seg_image {f : Nat → Nat} {l : List Nat} {p q : Nat}
    (hs : Seg f p l q) : ∀ x ∈ l, f x ∈ l.tail ++ [q] := by
  induction l generalizing p with
  | nil => simp
  | cons a l ih =>
    intro x hx
    have h2 : Seg f (f a) l q := hs.2
    rcases List.mem_cons.1 hx with rfl | hx
    · cases l with
      | nil => simp at h2; simp [h2]
      | cons b l => simp [h2.1]
    · have := ih h2 x hx
      simp only [List.tail_cons]
      cases l with
      | nil => simp at hx
      | cons b l =>
        simp only [List.tail_cons] at this
        exact List.mem_cons_of_mem _ this

/-- Walking a path backwards with a left inverse of `f`. -/
theorem seg_reverse {f g : Nat → Nat} {l : List Nat} {p q : Nat}
    (hs : Seg f p (p :: l) q) (hinv : ∀ y ∈ p :: l, g (f y) = y) :
    Seg g q (q :: l.reverse) p := by
  induction l generalizing p with
  | nil =>
    simp at hs ⊢
    rw [← hs]; exact hinv p (by simp)
  | cons x l ih =>
    have h2 : Seg f (f p) (x :: l) q := hs.2
    have hx : f p = x := h2.1
    rw [hx] at h2
    have := ih h2 (fun y hy => hinv y (List.mem_cons_of_mem _ hy))
    rw [List.reverse_cons, ← List.cons_append, seg_snoc]
    refine ⟨this, ?_⟩
    rw [← hx]; exact hinv p (by simp)

/-! ## Rings -/

theorem Ring.nodup {h : Heap} {head : Nat} {l : List Nat} (r : Ring h head l) :
    (head :: l).Nodup := r.1

theorem Ring.head_ne_zero {h : Heap} {head : Nat} {l : List Nat} (r : Ring h head l) :
    head ≠ 0 := fun e => r.2.1 (by simp [e])

theorem Ring.ne_zero {h : Heap} {head : Nat} {l : List Nat} (r : Ring h head l)
    {x : Nat} (hx : x ∈ l) : x ≠ 0 := fun e => r.2.1 (by subst e; exact List.mem_cons_of_mem _ hx)

theorem Ring.ne_head {h : Heap} {head : Nat} {l : List Nat} (r : Ring h head l)
    {x : Nat} (hx : x ∈ l) : x ≠ head := by
  have := r.1
  rw [List.nodup_cons] at this
  intro e; subst e; exact this.1 hx

theorem Ring.seg {h : Heap} {head : Nat} {l : List Nat} (r : Ring h head l) :
    Seg h.next head (head :: l) head := r.2.2.2.1

theorem Ring.prev_next {h : Heap} {head : Nat} {l : List Nat} (r : Ring h head l)
    {x : Nat} (hx : x ∈ head :: l) : h.prev (h.next x) = x := r.2.2.2.2 x hx

theorem Ring.next_mem {h : Heap} {head : Nat} {l : List Nat} (r : Ring h head l)
    {x : Nat} (hx : x ∈ head :: l) : h.next x ∈ head :: l := by
  have := seg_image r.seg x hx
  simp only [List.tail_cons, List.mem_append, List.mem_singleton] at this
  rcases this with h1 | h1
  · exact List.mem_cons_of_mem _ h1
  · rw [h1]; simp

theorem Ring.next_inj {h : Heap} {head : Nat} {l : List Nat} (r : Ring h head l)
    {x y : Nat} (hx : x ∈ head :: l) (hy : y ∈ head :: l) (e : h.next x = h.next y) :
    x = y := by
  rw [← r.prev_next hx, ← r.prev_next hy, e]

/-- In a well-formed ring `next` also undoes `prev`. -/
theorem Ring.next_prev {h : Heap} {head : Nat} {l : List Nat} (r : Ring h head l)
    {x : Nat} (hx : x ∈ head :: l) : h.next (h.prev x) = x := by
  have hx' : x ∈ l ++ [head] := by
    rcases List.mem_cons.1 hx with rfl | h1
    · simp
    · simp [h1]
  obtain ⟨y, hy, rfl⟩ := seg_preimage r.seg x hx'
  rw [r.prev_next hy]

theorem Ring.prev_mem {h : Heap} {head : Nat} {l : List Nat} (r : Ring h head l)
    {x : Nat} (hx : x ∈ head :: l) : h.prev x ∈ head :: l := by
  have hx' : x ∈ l ++ [head] := by
    rcases List.mem_cons.1 hx with rfl | h1
    · simp
    · simp [h1]
  obtain ⟨y, hy, rfl⟩ := seg_preimage r.seg x hx'
  rw [r.prev_next hy]; exact hy

/-- The backward traversal of a well-formed ring is the reverse of the
forward traversal. -/
theorem Ring.prev_seg {h : Heap} {head : Nat} {l : List Nat} (r : Ring h head l) :
    Seg h.prev head (head :: l.reverse) head :=
  seg_reverse r.seg (fun _ hy => r.prev_next hy)

/-- Successor of an element inside the ring. -/
theorem Ring.next_eq {h : Heap} {head : Nat} {l₁ l₂ : List Nat} {x : Nat}
    (r : Ring h head (l₁ ++ x :: l₂)) : h.next x = l₂.headD head := by
  have := r.seg
  rw [← List.cons_append] at this
  exact seg_next this

theorem Ring.next_head {h : Heap} {head : Nat} {l : List Nat} (r : Ring h head l) :
    h.next head = l.headD head :=
  @seg_next h.next [] l head head head r.seg

/-- Predecessor of an element inside the ring. -/
theorem Ring.prev_eq {h : Heap} {head : Nat} {l₁ l₂ : List Nat} {x : Nat}
    (r : Ring h head (l₁ ++ x :: l₂)) : h.prev x = l₁.getLastD head := by
  have := r.prev_seg
  rw [List.reverse_append, List.reverse_cons, List.append_assoc, ← List.cons_append] at this
  have h1 := seg_next this
  rw [h1]
  induction l₁ using List.reverseRecOn <;> simp

theorem Ring.prev_head {h : Heap} {head : Nat} {l : List Nat} (r : Ring h head l) :
    h.prev head = l.getLastD head := by
  have h1 := @seg_next h.prev [] l.reverse head head head r.prev_seg
  rw [h1]
  induction l using List.reverseRecOn <;> simp

/-- A ring only depends on the fields of its own nodes. -/
theorem Ring.frame {h h' : Heap} {head : Nat} {l : List Nat} (r : Ring h head l)
    (hn : ∀ x ∈ head :: l, h'.next x = h.next x)
    (hp : ∀ x ∈ head :: l, h'.prev x = h.prev x)
    (hl : ∀ x ∈ head :: l, h'.live x = h.live x) : Ring h' head l := by
  refine ⟨r.1, r.2.1, fun x hx => by rw [hl x hx]; exact r.2.2.1 x hx, ?_, ?_⟩
  · exact (seg_congr hn).2 r.seg
  · intro x hx
    rw [hn x hx, hp _ (r.next_mem hx)]
    exact r.prev_next hx

/-! ## Field lemmas -/

@[simp] theorem setNext_next (h : Heap) (a v x : Nat) :
    (h.setNext a v).next x = if x = a then v else h.next x := rfl
@[simp] theorem setNext_prev (h : Heap) (a v : Nat) : (h.setNext a v).prev = h.prev := rfl
@[simp] theorem setNext_value (h : Heap) (a v : Nat) : (h.setNext a v).value = h.value := rfl
@[simp] theorem setNext_live (h : Heap) (a v : Nat) : (h.setNext a v).live = h.live := rfl
@[simp] theorem setPrev_prev (h : Heap) (a v x : Nat) :
    (h.setPrev a v).prev x = if x = a then v else h.prev x := rfl
@[simp] theorem setPrev_next (h : Heap) (a v : Nat) : (h.setPrev a v).next = h.next := rfl
@[simp] theorem setPrev_value (h : Heap) (a v : Nat) : (h.setPrev a v).value = h.value := rfl
@[simp] theorem setPrev_live (h : Heap) (a v : Nat) : (h.setPrev a v).live = h.live := rfl
@[simp] theorem setValue_value (h : Heap) (a x : Nat) (v : Option (List Nat)) :
    (h.setValue a v).value x = if x = a then v else h.value x := rfl
@[simp] theorem setValue_next (h : Heap) (a : Nat) (v : Option (List Nat)) :
    (h.setValue a v).next = h.next := rfl
@[simp] theorem setValue_prev (h : Heap) (a : Nat) (v : Option (List Nat)) :
    (h.setValue a v).prev = h.prev := rfl
@[simp] theorem setValue_live (h : Heap) (a : Nat) (v : Option (List Nat)) :
    (h.setValue a v).live = h.live := rfl
@[simp] theorem alloc_live (h : Heap) (a x : Nat) :
    (h.alloc a).live x = if x = a then true else h.live x := rfl
@[simp] theorem alloc_next (h : Heap) (a : Nat) : (h.alloc a).next = h.next := rfl
@[simp] theorem alloc_prev (h : Heap) (a : Nat) : (h.alloc a).prev = h.prev := rfl
@[simp] theorem alloc_value (h : Heap) (a : Nat) : (h.alloc a).value = h.value := rfl
@[simp] theorem free_live (h : Heap) (a x : Nat) :
    (h.free a).live x = if x = a then false else h.live x := rfl
@[simp] theorem free_next (h : Heap) (a : Nat) : (h.free a).next = h.next := rfl
@[simp] theorem free_prev (h : Heap) (a : Nat) : (h.free a).prev = h.prev := rfl
@[simp] theorem free_value (h : Heap) (a : Nat) : (h.free a).value = h.value := rfl

theorem list_add_next (h : Heap) (node a x : Nat) :
    (list_add h node a).next x =
      if x = a then node else if x = node then h.next a else h.next x := by
  simp [list_add]

theorem list_add_prev (h : Heap) (node a x : Nat) :
    (list_add h node a).prev x =
      if x = node then a else if x = h.next a then node else h.prev x := by
  simp [list_add]

@[simp] theorem list_add_value (h : Heap) (node a : Nat) :
    (list_add h node a).value = h.value := by simp [list_add]

@[simp] theorem list_add_live (h : Heap) (node a : Nat) :
    (list_add h node a).live = h.live := by simp [list_add]

theorem list_add_tail_next (h : Heap) (node a x : Nat) :
    (list_add_tail h node a).next x =
      if x = node then a else if x = h.prev a then node else h.next x := by
  simp [list_add_tail]

theorem list_add_tail_prev (h : Heap) (node a x : Nat) :
    (list_add_tail h node a).prev x =
      if x = a then node else if x = node then h.prev a else h.prev x := by
  simp [list_add_tail]

@[simp] theorem list_add_tail_value (h : Heap) (node a : Nat) :
    (list_add_tail h node a).value = h.value := by simp [list_add_tail]

@[simp] theorem list_add_tail_live (h : Heap) (node a : Nat) :
    (list_add_tail h node a).live = h.live := by simp [list_add_tail]

theorem list_del_next (h : Heap) (node x : Nat) :
    (list_del h node).next x = if x = h.prev node then h.next node else h.next x := by
  simp [list_del]

theorem list_del_prev (h : Heap) (node x : Nat) :
    (list_del h node).prev x = if x = h.next node then h.prev node else h.prev x := by
  simp [list_del]

@[simp] theorem list_del_value (h : Heap) (node : Nat) :
    (list_del h node).value = h.value := by simp [list_del]

@[simp] theorem list_del_live (h : Heap) (node : Nat) :
    (list_del h node).live = h.live := by simp [list_del]

theorem list_del_init_next (h : Heap) (node x : Nat) :
    (list_del_init h node).next x =
      if x = node then node else if x = h.prev node then h.next node else h.next x := by
  simp [list_del_init, INIT_LIST_HEAD, list_del_next]

theorem list_del_init_prev (h : Heap) (node x : Nat) :
    (list_del_init h node).prev x =
      if x = node then node else if x = h.next node then h.prev node else h.prev x := by
  simp [list_del_init, INIT_LIST_HEAD, list_del_prev]

@[simp] theorem list_del_init_value (h : Heap) (node : Nat) :
    (list_del_init h node).value = h.value := by simp [list_del_init, INIT_LIST_HEAD]

@[simp] theorem list_del_init_live (h : Heap) (node : Nat) :
    (list_del_init h node).live = h.live := by simp [list_del_init, INIT_LIST_HEAD]

/-! ## Effect of the `list.h` primitives on a ring -/

/-- Splicing a fresh node after any node `a` of the ring. -/
theorem Ring.list_add {h : Heap} {head node a : Nat} {l l' c₁ c₂ : List Nat}
    (r : Ring h head l) (hc : head :: l = c₁ ++ a :: c₂) (hn : node ∉ head :: l)
    (h0 : node ≠ 0) (hl : h.live node = true) (hc' : head :: l' = c₁ ++ a :: node :: c₂) :
    Ring (list_add h node a) head l' := by
  have hmem : ∀ x, x ∈ head :: l' ↔ x = node ∨ x ∈ head :: l := by
    intro x; rw [hc, hc']; simp only [List.mem_append, List.mem_cons]; tauto
  have ha : a ∈ head :: l := by rw [hc]; simp
  have hna : node ≠ a := fun e => hn (e ▸ ha)
  have hnd : (c₁ ++ a :: c₂).Nodup := by rw [← hc]; exact r.1
  have hseg : Seg h.next head (c₁ ++ a :: c₂) head := by rw [← hc]; exact r.seg
  obtain ⟨m, hs1, hs2⟩ := seg_append.1 hseg
  obtain ⟨rfl, hs2⟩ := hs2
  have hac₁ : ∀ x ∈ c₁, x ≠ m ∧ x ≠ node := by
    intro x hx
    refine ⟨?_, ?_⟩
    · rintro rfl
      exact (List.nodup_append.1 hnd).2.2 hx (List.mem_cons_self _ _) 
    · rintro rfl
      exact hn (by rw [hc]; simp [hx])
  have hac₂ : ∀ x ∈ c₂, x ≠ m ∧ x ≠ node := by
    intro x hx
    refine ⟨?_, ?_⟩
    · rintro rfl
      exact (List.nodup_cons.1 (List.nodup_append.1 hnd).2.1).1 hx
    · rintro rfl
      exact hn (by rw [hc]; simp [hx])
  refine ⟨?_, ?_, ?_, ?_, ?_⟩
  · rw [hc']
    have : (c₁ ++ m :: node :: c₂).Perm (node :: (c₁ ++ m :: c₂)) := by
      have := @List.perm_middle Nat node (c₁ ++ [m]) c₂
      simpa using this
    rw [this.nodup_iff, List.nodup_cons]
    exact ⟨by rw [← hc]; exact hn, hnd⟩
  · intro h1
    rcases (hmem 0).1 h1 with h2 | h2
    · exact h0 h2.symm
    · exact r.2.1 h2
  · intro x hx
    rw [list_add_live]
    rcases (hmem x).1 hx with h2 | h2
    · rw [h2]; exact hl
    · exact r.2.2.1 x h2
  · rw [hc']
    refine seg_append.2 ⟨m, (seg_congr ?_).2 hs1, rfl, ?_⟩
    · intro x hx
      rw [list_add_next, if_neg (hac₁ x hx).1, if_neg (hac₁ x hx).2]
    · rw [list_add_next, if_pos rfl]
      refine ⟨rfl, ?_⟩
      rw [list_add_next, if_neg hna, if_pos rfl]
      refine (seg_congr ?_).2 hs2
      intro x hx
      rw [list_add_next, if_neg (hac₂ x hx).1, if_neg (hac₂ x hx).2]
  · intro x hx
    rw [list_add_next, list_add_prev]
    by_cases hxa : x = m
    · rw [if_pos hxa, if_pos rfl, hxa]
    · rw [if_neg hxa]
      by_cases hxn : x = node
      · rw [if_pos hxn, if_neg, if_pos rfl, hxn]
        intro e
        exact hn (e ▸ r.next_mem ha)
      · rw [if_neg hxn]
        have hx' : x ∈ head :: l := by
          rcases (hmem x).1 hx with h2 | h2
          · exact absurd h2 hxn
          · exact h2
        rw [if_neg, if_neg]
        · exact r.prev_next hx'
        · intro e
          exact hxa (r.next_inj hx' ha e)
        · intro e
          exact hn (e ▸ r.next_mem hx')

/-- Splicing a fresh node before the head of the ring. -/
theorem Ring.list_add_tail {h : Heap} {head node : Nat} {l : List Nat}
    (r : Ring h head l) (hn : node ∉ head :: l) (h0 : node ≠ 0) (hl : h.live node = true) :
    Ring (list_add_tail h node head) head (l ++ [node]) := by
  have hhead : head ∈ head :: l := List.mem_cons_self _ _
  have hp : h.prev head ∈ head :: l := r.prev_mem hhead
  have hnp : h.next (h.prev head) = head := r.next_prev hhead
  have hmem : ∀ x, x ∈ head :: (l ++ [node]) ↔ x = node ∨ x ∈ head :: l := by
    intro x; simp only [List.mem_append, List.mem_cons, List.mem_singleton]; tauto
  have hne : node ≠ head := fun e => hn (e ▸ hhead)
  have hnp' : node ≠ h.prev head := fun e => hn (e ▸ hp)
  refine ⟨?_, ?_, ?_, ?_, ?_⟩
  · have : (head :: (l ++ [node])).Perm (node :: head :: l) := by
      rw [← List.cons_append]
      exact List.perm_append_singleton _ _
    rw [this.nodup_iff, List.nodup_cons]
    exact ⟨hn, r.1⟩
  · intro h1
    rcases (hmem 0).1 h1 with h2 | h2
    · exact h0 h2.symm
    · exact r.2.1 h2
  · intro x hx
    rw [list_add_tail_live]
    rcases (hmem x).1 hx with h2 | h2
    · rw [h2]; exact hl
    · exact r.2.2.1 x h2
  · rw [← List.cons_append, seg_snoc]
    refine ⟨?_, by rw [list_add_tail_next, if_pos rfl]⟩
    rcases List.eq_nil_or_concat' (head :: l) with h1 | ⟨c₀, p₀, hc⟩
    · simp at h1
    · have hseg := r.seg
      rw [hc] at hseg ⊢
      rw [seg_snoc] at hseg ⊢
      have hp₀ : p₀ ∈ head :: l := by rw [hc]; simp
      have hpp : h.prev head = p₀ := by rw [← hseg.2]; exact r.prev_next hp₀
      have hnd : (c₀ ++ [p₀]).Nodup := by rw [← hc]; exact r.1
      refine ⟨(seg_congr ?_).2 hseg.1, ?_⟩
      · intro x hx
        rw [list_add_tail_next, if_neg, if_neg]
        · rw [hpp]; rintro rfl
          exact (List.nodup_append.1 hnd).2.2 hx (by simp)
        · rintro rfl
          exact hn (by rw [hc]; simp [hx])
      · rw [list_add_tail_next, if_neg (by rintro rfl; exact hn hp₀), if_pos hpp.symm]
  · intro x hx
    rw [list_add_tail_next, list_add_tail_prev]
    by_cases hxn : x = node
    · rw [if_pos hxn, if_pos rfl, hxn]
    · rw [if_neg hxn]
      have hx' : x ∈ head :: l := by
        rcases (hmem x).1 hx with h2 | h2
        · exact absurd h2 hxn
        · exact h2
      by_cases hxp : x = h.prev head
      · rw [if_pos hxp, if_neg hne, if_pos rfl, hxp]
      · rw [if_neg hxp, if_neg, if_neg]
        · exact r.prev_next hx'
        · intro e
          exact hn (e ▸ r.next_mem hx')
        · intro e
          exact hxp (r.next_inj hx' hp (e.trans hnp.symm))

/-- Unlinking an element of the ring. -/
theorem Ring.list_del {h : Heap} {head x : Nat} {l₁ l₂ : List Nat}
    (r : Ring h head (l₁ ++ x :: l₂)) : Ring (list_del h x) head (l₁ ++ l₂) := by
  have hsub : ∀ y, y ∈ head :: (l₁ ++ l₂) → y ∈ head :: (l₁ ++ x :: l₂) := by
    intro y; simp only [List.mem_append, List.mem_cons]; tauto
  have hx : x ∈ head :: (l₁ ++ x :: l₂) := by simp
  have hnd : (head :: (l₁ ++ l₂)).Nodup ∧ x ∉ head :: (l₁ ++ l₂) := by
    have : (head :: (l₁ ++ x :: l₂)).Perm (x :: head :: (l₁ ++ l₂)) := by
      rw [← List.cons_append, ← List.cons_append]
      exact List.perm_middle
    have h1 := this.nodup_iff.1 r.1
    rw [List.nodup_cons] at h1
    exact ⟨h1.2, h1.1⟩
  have hp : h.prev x ∈ head :: (l₁ ++ x :: l₂) := r.prev_mem hx
  have hnp : h.next (h.prev x) = x := r.next_prev hx
  refine ⟨hnd.1, fun h0 => r.2.1 (hsub 0 h0), ?_, ?_, ?_⟩
  · intro y hy
    rw [list_del_live]
    exact r.2.2.1 y (hsub y hy)
  · rcases List.eq_nil_or_concat' (head :: l₁) with h1 | ⟨c₀, p₀, hc⟩
    · simp at h1
    · have hseg := r.seg
      rw [← List.cons_append, hc] at hseg ⊢
      rw [List.append_assoc] at hseg ⊢
      have hp₀ : p₀ ∈ head :: (l₁ ++ x :: l₂) := by
        rw [← List.cons_append, hc]; simp
      obtain ⟨m, hs1, hs2⟩ := seg_append.1 hseg
      obtain ⟨rfl, hs2⟩ := hs2
      have hs3 : Seg h.next (h.next m) (x :: l₂) head := hs2
      obtain ⟨hmx, hs3⟩ := hs3
      have hpe : h.prev x = m := by rw [← hmx]; exact r.prev_next hp₀
      have hnd' : (c₀ ++ [m] ++ l₂).Nodup := by
        rw [← hc, List.cons_append]; exact hnd.1
      rw [List.append_assoc] at hnd'
      refine seg_append.2 ⟨m, (seg_congr ?_).2 hs1, ?_⟩
      · intro y hy
        rw [list_del_next, if_neg]
        rw [hpe]; rintro rfl
        exact (List.nodup_append.1 hnd').2.2 hy (by simp)
      · simp only [List.singleton_append, seg_cons, true_and]
        rw [list_del_next, if_pos hpe.symm]
        refine (seg_congr ?_).2 hs3
        intro y hy
        rw [list_del_next, if_neg]
        rw [hpe]; rintro rfl
        have := (List.nodup_append.1 hnd').2.1
        simp at this
        exact this.1 hy
  · intro y hy
    rw [list_del_next, list_del_prev]
    by_cases hyp : y = h.prev x
    · rw [if_pos hyp, if_pos rfl, hyp]
    · rw [if_neg hyp, if_neg]
      · exact r.prev_next (hsub y hy)
      · intro e
        have := r.next_inj (hsub y hy) hx e
        exact hnd.2 (this ▸ hy)

/-- Unlinking and re-initialising an element of the ring. -/
theorem Ring.list_del_init {h : Heap} {head x : Nat} {l₁ l₂ : List Nat}
    (r : Ring h head (l₁ ++ x :: l₂)) : Ring (list_del_init h x) head (l₁ ++ l₂) := by
  have hx : x ∉ head :: (l₁ ++ l₂) := by
    have : (head :: (l₁ ++ x :: l₂)).Perm (x :: head :: (l₁ ++ l₂)) := by
      rw [← List.cons_append, ← List.cons_append]
      exact List.perm_middle
    exact (List.nodup_cons.1 (this.nodup_iff.1 r.1)).1
  refine r.list_del.frame ?_ ?_ ?_
  · intro y hy
    have : y ≠ x := fun e => hx (e ▸ hy)
    rw [list_del_init_next, if_neg this, list_del_next]
  · intro y hy
    have : y ≠ x := fun e => hx (e ▸ hy)
    rw [list_del_init_prev, if_neg this, list_del_prev]
  · intro y _
    rw [list_del_init_live, list_del_live]

/-- Releasing a block that is not a node of the ring. -/
theorem Ring.release {h : Heap} {head x : Nat} {l : List Nat}
    (r : Ring h head l) (hx : x ∉ head :: l) : Ring (q_release_element h x) head l := by
  refine r.frame (fun _ _ => rfl) (fun _ _ => rfl) ?_
  intro y hy
  have : y ≠ x := fun e => hx (e ▸ hy)
  simp [q_release_element, this]

theorem Ring.not_mem_of_not_live {h : Heap} {head x : Nat} {l : List Nat}
    (r : Ring h head l) (hx : h.live x = false) : x ∉ head :: l := by
  intro hm
  have := r.2.2.1 x hm
  rw [hx] at this
  exact Bool.false_ne_true this

theorem payloads_congr {h h' : Heap} {l : List Nat}
    (hv : ∀ x ∈ l, h'.value x = h.value x) : payloads h' l = payloads h l := by
  unfold payloads
  exact List.map_congr_left (fun x hx => by unfold key; rw [hv x hx])

/-! ## `q_insert_head` and `q_insert_tail` -/

/-- The memory just before the splice in `q_insert_head` / `q_insert_tail`
when both allocations succeed: the fresh block `ne` is allocated, holds the
payload `s` and is self-linked. -/
theorem q_new_element_ok (h : Heap) (s : List Nat) (ne : Nat) (hne : ne ≠ 0) :
    q_new_element h s ne true =
      (INIT_LIST_HEAD ((h.alloc ne).setValue ne (some s)) ne, ne) := by
  simp [q_new_element, q_init_element, hne]

/-- Effect of a successful `q_insert_head` on a well-formed ring. -/
theorem q_insert_head_ring (h : Heap) (head ne : Nat) (l : List Nat) (s : List Nat)
    (r : Ring h head l) (hne : ne ≠ 0) (hfresh : h.live ne = false) :
    (q_insert_head h head s ne true).2 = true ∧
      Ring (q_insert_head h head s ne true).1 head (ne :: l) ∧
      (∀ x, (q_insert_head h head s ne true).1.value x =
        if x = ne then some s else h.value x) ∧
      (∀ x, (q_insert_head h head s ne true).1.live x =
        if x = ne then true else h.live x) := by
  have hh : head ≠ 0 := r.head_ne_zero
  have hnm : ne ∉ head :: l := r.not_mem_of_not_live hfresh
  have r₁ : Ring (INIT_LIST_HEAD ((h.alloc ne).setValue ne (some s)) ne) head l := by
    refine r.frame ?_ ?_ ?_ <;>
    · intro y hy
      have : y ≠ ne := fun e => hnm (e ▸ hy)
      simp [INIT_LIST_HEAD, this]
  have e₁ : q_insert_head h head s ne true =
      (list_add (INIT_LIST_HEAD ((h.alloc ne).setValue ne (some s)) ne) ne head, true) := by
    simp [q_insert_head, q_new_element_ok h s ne hne, hh, hne]
  rw [e₁]
  refine ⟨rfl, ?_, ?_, ?_⟩
  · exact @Ring.list_add _ head ne head l (ne :: l) [] l r₁ rfl hnm hne
      (by simp [INIT_LIST_HEAD]) rfl
  · intro x; simp [INIT_LIST_HEAD]
  · intro x; simp [INIT_LIST_HEAD]

/-- Effect of a successful `q_insert_tail` on a well-formed ring. -/
theorem q_insert_tail_ring (h : Heap) (head ne : Nat) (l : List Nat) (s : List Nat)
    (r : Ring h head l) (hne : ne ≠ 0) (hfresh : h.live ne = false) :
    (q_insert_tail h head s ne true).2 = true ∧
      Ring (q_insert_tail h head s ne true).1 head (l ++ [ne]) ∧
      (∀ x, (q_insert_tail h head s ne true).1.value x =
        if x = ne then some s else h.value x) ∧
      (∀ x, (q_insert_tail h head s ne true).1.live x =
        if x = ne then true else h.live x) := by
  have hh : head ≠ 0 := r.head_ne_zero
  have hnm : ne ∉ head :: l := r.not_mem_of_not_live hfresh
  have r₁ : Ring (INIT_LIST_HEAD ((h.alloc ne).setValue ne (some s)) ne) head l := by
    refine r.frame ?_ ?_ ?_ <;>
    · intro y hy
      have : y ≠ ne := fun e => hnm (e ▸ hy)
      simp [INIT_LIST_HEAD, this]
  have e₁ : q_insert_tail h head s ne true =
      (list_add_tail (INIT_LIST_HEAD ((h.alloc ne).setValue ne (some s)) ne) ne head, true) := by
    simp [q_insert_tail, q_new_element_ok h s ne hne, hh, hne]
  rw [e₁]
  refine ⟨rfl, ?_, ?_, ?_⟩
  · exact r₁.list_add_tail hnm hne (by simp [INIT_LIST_HEAD])
  · intro x; simp [INIT_LIST_HEAD]
  · intro x; simp [INIT_LIST_HEAD]

/-- Payloads of a traversal when only the payload of a node outside of it
has been written. -/
theorem payloads_of_value_ite {h h' : Heap} {l : List Nat} {ne : Nat} {s : List Nat}
    (hv : ∀ x, h'.value x = if x = ne then some s else h.value x) (hn : ne ∉ l) :
    payloads h' l = payloads h l :=
  payloads_congr (fun x hx => by
    have hxn : x ≠ ne := fun e => hn (e ▸ hx)
    rw [hv x, if_neg hxn])

/-- C10: on a well-formed ring with traversal `l`, when both allocations
succeed (`ne` is a fresh non-null block and the payload buffer is obtained),
`q_insert_head` returns true and the traversal becomes the new element
followed by `l`, `q_insert_tail` returns true and the traversal becomes `l`
followed by the new element; the new element stores a payload equal to `s`
and the payloads of the existing elements are unchanged. -/
theorem q_insert_head_tail_spec (h : Heap) (head ne : Nat) (l : List Nat) (s : List Nat)
    (r : Ring h head l) (hne : ne ≠ 0) (hfresh : h.live ne = false) :
    ((q_insert_head h head s ne true).2 = true ∧
      Ring (q_insert_head h head s ne true).1 head (ne :: l) ∧
      (q_insert_head h head s ne true).1.value ne = some s ∧
      (∀ x, x ≠ ne → (q_insert_head h head s ne true).1.value x = h.value x) ∧
      payloads (q_insert_head h head s ne true).1 (ne :: l) = s :: payloads h l) ∧
    ((q_insert_tail h head s ne true).2 = true ∧
      Ring (q_insert_tail h head s ne true).1 head (l ++ [ne]) ∧
      (q_insert_tail h head s ne true).1.value ne = some s ∧
      (∀ x, x ≠ ne → (q_insert_tail h head s ne true).1.value x = h.value x) ∧
      payloads (q_insert_tail h head s ne true).1 (l ++ [ne]) = payloads h l ++ [s]) := by
  have hnl : ne ∉ l := fun hm =>
    r.not_mem_of_not_live hfresh (List.mem_cons_of_mem _ hm)
  obtain ⟨a1, a2, a3, _⟩ := q_insert_head_ring h head ne l s r hne hfresh
  obtain ⟨b1, b2, b3, _⟩ := q_insert_tail_ring h head ne l s r hne hfresh
  refine ⟨⟨a1, a2, by rw [a3, if_pos rfl], fun x hx => by rw [a3, if_neg hx], ?_⟩,
    ⟨b1, b2, by rw [b3, if_pos rfl], fun x hx => by rw [b3, if_neg hx], ?_⟩⟩
  · have hk : key (q_insert_head h head s ne true).1 ne = s := by
      unfold key; rw [a3, if_pos rfl]; rfl
    rw [show payloads (q_insert_head h head s ne true).1 (ne :: l) =
      key (q_insert_head h head s ne true).1 ne ::
        payloads (q_insert_head h head s ne true).1 l from rfl, hk,
      payloads_of_value_ite a3 hnl]
  · have hk : key (q_insert_tail h head s ne true).1 ne = s := by
      unfold key; rw [b3, if_pos rfl]; rfl
    rw [show payloads (q_insert_tail h head s ne true).1 (l ++ [ne]) =
      payloads (q_insert_tail h head s ne true).1 l ++
        [key (q_insert_tail h head s ne true).1 ne] from by simp [payloads], hk,
      payloads_of_value_ite b3 hnl]

theorem q_insert_head_tail_spec_witness :
    Ring (ringOf [[98], [99]]) 1 [2, 3] ∧ (4 : Nat) ≠ 0 ∧ (ringOf [[98], [99]]).live 4 = false ∧
    ((q_insert_head (ringOf [[98], [99]]) 1 [97] 4 true).2 = true ∧
      Ring (q_insert_head (ringOf [[98], [99]]) 1 [97] 4 true).1 1 [4, 2, 3]) :=
  ⟨by decide, by decide, by decide,
    (q_insert_head_tail_spec (ringOf [[98], [99]]) 1 4 [2, 3] [97] (by decide) (by decide)
      (by decide)).1.1,
    (q_insert_head_tail_spec (ringOf [[98], [99]]) 1 4 [2, 3] [97] (by decide) (by decide)
      (by decide)).1.2.1⟩

/-! ## `q_delete_mid` -/

/-- The two-pointer walk: while `fast` runs over `lf` up to the head, `*indir`
advances over `ld` by half as many nodes. -/
theorem q_delete_mid_loop_spec (h : Heap) (head : Nat) :
    ∀ (fuel : Nat) (lf ld : List Nat) (indir fast q : Nat),
      Seg h.next (h.next indir) ld q → Seg h.next fast lf head → head ∉ lf →
      lf.length / 2 < ld.length → lf.length / 2 + 1 ≤ fuel →
      ∃ i x, q_delete_mid_loop fuel h head indir fast = some i ∧ h.next i = x ∧
        ld[lf.length / 2]? = some x := by
  intro fuel
  induction fuel with
  | zero => intro lf ld indir fast q _ _ _ _ hf; omega
  | succ fuel ih =>
    intro lf ld indir fast q hd hs hh hlen hf
    match lf, hs, hh, hlen, hf with
    | [], hs, _, hlen, _ =>
      have hfh : fast = head := hs
      match ld, hd, hlen with
      | d :: ld, hd, _ =>
        refine ⟨indir, d, ?_, hd.1, by simp⟩
        simp [q_delete_mid_loop, hfh]
    | [f], hs, _, hlen, _ =>
      have hfh : h.next fast = head := by rw [hs.1]; exact hs.2
      match ld, hd, hlen with
      | d :: ld, hd, _ =>
        refine ⟨indir, d, ?_, hd.1, by simp⟩
        simp [q_delete_mid_loop, hfh]
    | f :: g :: lf, hs, hh, hlen, hf =>
      obtain ⟨hf1, hg1, hs'⟩ := hs
      have hfh : fast ≠ head := by
        rw [hf1]; intro e; exact hh (by simp [e])
      have hgh : h.next fast ≠ head := by
        rw [hf1, hg1]; intro e; exact hh (by simp [e])
      match ld, hd, hlen with
      | d :: ld, hd, hlen =>
        have hlen' : lf.length / 2 < ld.length := by
          simp only [List.length_cons] at hlen; omega
        have hf' : lf.length / 2 + 1 ≤ fuel := by
          simp only [List.length_cons] at hf; omega
        have hd' : Seg h.next (h.next (h.next indir)) ld q := by
          rw [hd.1]; exact hd.2
        have hs'' : Seg h.next (h.next (h.next fast)) lf head := by
          rw [hf1, hg1]; exact hs'
        obtain ⟨i, x, e1, e2, e3⟩ := ih lf ld (h.next indir) (h.next (h.next fast)) q hd' hs''
          (fun hm => hh (by simp [hm])) hlen' hf'
        refine ⟨i, x, ?_, e2, ?_⟩
        · simp [q_delete_mid_loop, hfh, hgh, e1]
        · have : (f :: g :: lf).length / 2 = lf.length / 2 + 1 := by
            simp only [List.length_cons]; omega
          rw [this, List.getElem?_cons_succ]; exact e3

/-- On a non-empty ring `q_delete_mid` unlinks and releases the element at
index `⌊n / 2⌋` of the traversal and nothing else. -/
theorem q_delete_mid_ring (h : Heap) (head fuel : Nat) (l : List Nat)
    (r : Ring h head l) (hl : l ≠ []) (hf : l.length / 2 + 1 ≤ fuel) :
    ∃ h' x, q_delete_mid fuel h head = some (h', true) ∧ l[l.length / 2]? = some x ∧
      Ring h' head (l.eraseIdx (l.length / 2)) ∧ h'.value = h.value ∧
      h'.live x = false ∧ ∀ y, y ≠ x → h'.live y = h.live y := by
  have hlen : l.length / 2 < l.length := by
    have : 0 < l.length := List.length_pos.2 hl
    omega
  have hnh : head ∉ l := (List.nodup_cons.1 r.1).1
  obtain ⟨i, x, e1, e2, e3⟩ := q_delete_mid_loop_spec h head fuel l l head (h.next head) head
    r.seg.2 r.seg.2 hnh hlen hf
  have hdec : l = l.take (l.length / 2) ++ x :: l.drop (l.length / 2 + 1) := by
    have hx : l[l.length / 2] = x := by
      rw [List.getElem?_eq_getElem hlen] at e3
      exact Option.some.inj e3
    rw [← hx, ← List.drop_eq_getElem_cons hlen, List.take_append_drop]
  have r' : Ring h head (l.take (l.length / 2) ++ x :: l.drop (l.length / 2 + 1)) := by
    rw [← hdec]; exact r
  have r₁ := r'.list_del_init
  rw [← List.eraseIdx_eq_take_drop_succ] at r₁
  have hxm : x ∉ head :: l.eraseIdx (l.length / 2) := by
    have : (head :: (l.take (l.length / 2) ++ x :: l.drop (l.length / 2 + 1))).Perm
        (x :: head :: (l.take (l.length / 2) ++ l.drop (l.length / 2 + 1))) := by
      rw [← List.cons_append, ← List.cons_append]
      exact List.perm_middle
    have := (List.nodup_cons.1 (this.nodup_iff.1 r'.1)).1
    rw [← List.eraseIdx_eq_take_drop_succ] at this
    exact this
  refine ⟨q_release_element (list_del_init h x) x, x, ?_, e3, r₁.release hxm, ?_, ?_, ?_⟩
  · simp [q_delete_mid, r.head_ne_zero, e1, e2, list_del_init_next]
  · simp [q_release_element]
  · simp [q_release_element]
  · intro y hy
    simp [q_release_element, hy]

/-- C3: on a ring with `n ≥ 1` elements `q_delete_mid` returns true and
removes (unlinks and releases) exactly the element at 0-based index `⌊n / 2⌋`
of the forward traversal; the other elements stay, in their original order,
with their payloads and allocation untouched. -/
theorem q_delete_mid_removes_middle (h : Heap) (head fuel : Nat) (l : List Nat)
    (r : Ring h head l) (hn : 1 ≤ l.length) (hf : l.length / 2 + 1 ≤ fuel) :
    ∃ h' x, q_delete_mid fuel h head = some (h', true) ∧ l[l.length / 2]? = some x ∧
      Ring h' head (l.eraseIdx (l.length / 2)) ∧ h'.value = h.value ∧
      h'.live x = false ∧ ∀ y, y ≠ x → h'.live y = h.live y :=
  q_delete_mid_ring h head fuel l r (List.length_pos.1 hn) hf

theorem q_delete_mid_removes_middle_witness :
    ∃ h' x, q_delete_mid 2 (ringOf [[97], [98], [99]]) 1 = some (h', true) ∧
      [2, 3, 4][[2, 3, 4].length / 2]? = some x ∧
      Ring h' 1 ([2, 3, 4].eraseIdx ([2, 3, 4].length / 2)) ∧
      h'.value = (ringOf [[97], [98], [99]]).value ∧
      h'.live x = false ∧ ∀ y, y ≠ x → h'.live y = (ringOf [[97], [98], [99]]).live y :=
  q_delete_mid_removes_middle (ringOf [[97], [98], [99]]) 1 2 [2, 3, 4] (by decide)
    (by decide) (by decide)

/-- C4, as stated, fails: on the ring of six elements built at addresses
`2 … 7`, `q_delete_mid` keeps the element at index 2 (address `4`) and
removes the element at index 3 (address `5`). -/
theorem q_delete_mid_six_counterexample :
    ∃ h', q_delete_mid 4 (ringOf [[0], [1], [2], [3], [4], [5]]) 1 = some (h', true) ∧
      Ring (ringOf [[0], [1], [2], [3], [4], [5]]) 1 [2, 3, 4, 5, 6, 7] ∧
      Ring h' 1 [2, 3, 4, 6, 7] ∧ ¬ Ring h' 1 [2, 3, 5, 6, 7] ∧
      h'.live 4 = true ∧ h'.live 5 = false := by
  refine ⟨_, rfl, ?_, ?_, ?_, ?_, ?_⟩ <;> decide

/-- C4, amended: on every ring of length 6, `q_delete_mid` returns true and
removes the element at 0-indexed position 3 (index `⌊6 / 2⌋`), leaving the
elements at original positions 0, 1, 2, 4, 5 in order. -/
theorem q_delete_mid_six (h : Heap) (head fuel a b c d e f : Nat)
    (r : Ring h head [a, b, c, d, e, f]) (hf : 4 ≤ fuel) :
    ∃ h', q_delete_mid fuel h head = some (h', true) ∧ Ring h' head [a, b, c, e, f] ∧
      h'.value = h.value ∧ h'.live d = false ∧ ∀ y, y ≠ d → h'.live y = h.live y := by
  obtain ⟨h', x, e1, e2, e3, e4, e5, e6⟩ :=
    q_delete_mid_ring h head fuel [a, b, c, d, e, f] r (by simp) (by simpa using hf)
  have hk : [a, b, c, d, e, f].length / 2 = 3 := by simp
  rw [hk] at e2 e3
  have hx : d = x := by simpa using e2
  subst hx
  exact ⟨h', e1, e3, e4, e5, e6⟩

theorem q_delete_mid_six_witness :
    Ring (ringOf [[0], [1], [2], [3], [4], [5]]) 1 [2, 3, 4, 5, 6, 7] ∧
    ∃ h', q_delete_mid 4 (ringOf [[0], [1], [2], [3], [4], [5]]) 1 = some (h', true) ∧
      Ring h' 1 [2, 3, 4, 6, 7] ∧
      h'.value = (ringOf [[0], [1], [2], [3], [4], [5]]).value ∧ h'.live 5 = false ∧
      ∀ y, y ≠ 5 → h'.live y = (ringOf [[0], [1], [2], [3], [4], [5]]).live y :=
  ⟨by decide,
    q_delete_mid_six (ringOf [[0], [1], [2], [3], [4], [5]]) 1 4 2 3 4 5 6 7 (by decide)
      (by decide)⟩

/-- C5: `q_delete_mid` returns false on a `NULL` list, but on the empty ring
made by `q_new` it returns true and releases the head itself. -/
theorem q_delete_mid_empty_releases_head :
    (∀ fuel h, q_delete_mid fuel h 0 = some (h, false)) ∧
    Ring (q_new Heap.empty 1).1 1 [] ∧
    ∃ h', q_delete_mid 1 (q_new Heap.empty 1).1 1 = some (h', true) ∧
      (q_new Heap.empty 1).1.live 1 = true ∧ h'.live 1 = false := by
  refine ⟨fun fuel h => by simp [q_delete_mid], by decide, _, rfl, by decide, by decide⟩

/-! ## `q_swap` -/

@[simp] theorem swapPairs_nil : swapPairs [] = [] := rfl
@[simp] theorem swapPairs_singleton (a : Nat) : swapPairs [a] = [a] := rfl
@[simp] theorem swapPairs_cons_cons (a b : Nat) (l : List Nat) :
    swapPairs (a :: b :: l) = b :: a :: swapPairs l := rfl

/-- Position-wise description of `swapPairs`: the length is kept, positions
`2k` and `2k + 1` are exchanged whenever both exist, and the last element of
a list of odd length stays last. -/
theorem swapPairs_index : ∀ (l : List Nat),
    (swapPairs l).length = l.length ∧
    (∀ k, 2 * k + 1 < l.length →
      (swapPairs l)[2 * k]? = l[2 * k + 1]? ∧ (swapPairs l)[2 * k + 1]? = l[2 * k]?) ∧
    (l.length % 2 = 1 → (swapPairs l)[l.length - 1]? = l[l.length - 1]?)
  | [] => by simp
  | [a] => by simp
  | a :: b :: l => by
    obtain ⟨h1, h2, h3⟩ := swapPairs_index l
    refine ⟨by simp [h1], ?_, ?_⟩
    · intro k hk
      cases k with
      | zero => simp
      | succ k =>
        have hk' : 2 * k + 1 < l.length := by
          simp only [List.length_cons] at hk; omega
        have e1 : 2 * (k + 1) = (2 * k) + 1 + 1 := by ring
        have e2 : 2 * (k + 1) + 1 = (2 * k + 1) + 1 + 1 := by ring
        rw [e2, e1]
        simp only [swapPairs_cons_cons, List.getElem?_cons_succ]
        exact h2 k hk'
    · intro hodd
      have hodd' : l.length % 2 = 1 := by
        simp only [List.length_cons] at hodd; omega
      have hpos : 0 < l.length := by omega
      have e : (a :: b :: l).length - 1 = (l.length - 1) + 1 + 1 := by
        simp only [List.length_cons]; omega
      rw [e]
      simp only [swapPairs_cons_cons, List.getElem?_cons_succ]
      exact h3 hodd'

theorem q_swap_loop_spec : ∀ (fuel : Nat) (h : Heap) (head it : Nat) (done rest : List Nat),
    Ring h head (done ++ rest) → it = rest.headD head → rest.length / 2 + 1 ≤ fuel →
    ∃ h', q_swap_loop fuel h head it = some h' ∧ Ring h' head (done ++ swapPairs rest) ∧
      h'.value = h.value ∧ h'.live = h.live := by
  intro fuel
  induction fuel with
  | zero => intro h head it done rest _ _ hf; omega
  | succ fuel ih =>
    intro h head it done rest r hit hf
    match rest, r, hit, hf with
    | [], r, hit, _ =>
      refine ⟨h, ?_, r, rfl, rfl⟩
      simp at hit
      simp [q_swap_loop, hit]
    | [a], r, hit, _ =>
      refine ⟨h, ?_, r, rfl, rfl⟩
      simp at hit
      have : h.next a = head := by rw [r.next_eq]; rfl
      simp [q_swap_loop, hit, this]
    | a :: b :: rest, r, hit, hf =>
      simp only [List.headD_cons] at hit
      subst hit
      have hab : h.next it = b := by rw [r.next_eq]; rfl
      have hmem : ∀ x, x ∈ head :: (done ++ it :: b :: rest) ↔
          x = it ∨ x ∈ head :: (done ++ b :: rest) := by
        intro x; simp only [List.mem_cons, List.mem_append]; tauto
      have hnd : it ∉ head :: (done ++ b :: rest) := by
        have : (head :: (done ++ it :: b :: rest)).Perm (it :: head :: (done ++ b :: rest)) := by
          rw [← List.cons_append, ← List.cons_append]
          exact List.perm_middle
        exact (List.nodup_cons.1 (this.nodup_iff.1 r.1)).1
      have hit0 : it ≠ 0 := r.ne_zero (by simp)
      have hith : it ≠ head := r.ne_head (by simp)
      have hbh : b ≠ head := r.ne_head (by simp)
      have hbit : b ≠ it := by
        intro e; exact hnd (by simp [e])
      have hlive : h.live it = true := r.2.2.1 it (by simp)
      have r₁ : Ring (list_del_init h it) head (done ++ b :: rest) := r.list_del_init
      have r₂ : Ring (list_add (list_del_init h it) it b) head ((done ++ [b, it]) ++ rest) :=
        @Ring.list_add (list_del_init h it) head it b (done ++ b :: rest)
          ((done ++ [b, it]) ++ rest) (head :: done) rest r₁ (by simp) hnd hit0
          (by rw [list_del_init_live]; exact hlive) (by simp)
      have r₃ : Ring (list_add (list_del_init h it) it b) head
          ((done ++ [b]) ++ it :: rest) := by
        simpa using r₂
      have hnext : (list_add (list_del_init h it) it b).next it = rest.headD head :=
        r₃.next_eq
      have hf' : rest.length / 2 + 1 ≤ fuel := by
        simp only [List.length_cons] at hf; omega
      obtain ⟨h', e1, e2, e3, e4⟩ := ih (list_add (list_del_init h it) it b) head
        ((list_add (list_del_init h it) it b).next it) (done ++ [b, it]) rest r₂ hnext hf'
      refine ⟨h', ?_, by simpa using e2, by simpa using e3, by simpa using e4⟩
      simp [q_swap_loop, hith, hab, hbh, e1]

/-- Effect of `q_swap` on a well-formed ring. -/
theorem q_swap_ring (h : Heap) (head fuel : Nat) (l : List Nat)
    (r : Ring h head l) (hf : l.length / 2 + 1 ≤ fuel) :
    ∃ h', q_swap fuel h head = some h' ∧ Ring h' head (swapPairs l) ∧
      h'.value = h.value ∧ h'.live = h.live := by
  match l, r, hf with
  | [], r, _ =>
    have : h.next head = head := r.next_head
    exact ⟨h, by simp [q_swap, list_empty, this], r, rfl, rfl⟩
  | [a], r, _ =>
    have h1 : h.next head = a := r.next_head
    have h2 : h.prev head = a := r.prev_head
    exact ⟨h, by simp [q_swap, list_empty, list_is_singular, h1, h2], r, rfl, rfl⟩
  | a :: b :: l, r, hf =>
    have h1 : h.next head = a := r.next_head
    have hah : a ≠ head := r.ne_head (by simp)
    have hbh : b ≠ head := r.ne_head (by simp)
    have hab : h.next a = b := @Ring.next_eq h head [] (b :: l) a r
    have h2 : h.prev head ≠ a := by
      intro e
      have := r.next_prev (List.mem_cons_self head _)
      rw [e, hab] at this
      exact hbh this
    obtain ⟨h', e1, e2, e3, e4⟩ := q_swap_loop_spec fuel h head (h.next head) [] (a :: b :: l)
      r (by rw [h1]; rfl) hf
    refine ⟨h', ?_, e2, e3, e4⟩
    simp only [q_swap, list_empty, list_is_singular]
    rw [if_neg]
    · exact e1
    · simp [r.head_ne_zero, h1, hah, h2]

/-- C7: on a ring with traversal `l = [x0, x1, x2, x3, …]`, `q_swap` yields the
traversal `[x1, x0, x3, x2, …]`: the same length, positions `2k` and `2k + 1`
exchanged whenever `2k + 1 < n`, and the last element kept in last position
when `n` is odd; payloads are untouched. -/
theorem q_swap_exchanges_pairs (h : Heap) (head fuel : Nat) (l : List Nat)
    (r : Ring h head l) (hf : l.length / 2 + 1 ≤ fuel) :
    ∃ h' l', q_swap fuel h head = some h' ∧ Ring h' head l' ∧ h'.value = h.value ∧
      l' = swapPairs l ∧ l'.length = l.length ∧
      (∀ k, 2 * k + 1 < l.length → l'[2 * k]? = l[2 * k + 1]? ∧ l'[2 * k + 1]? = l[2 * k]?) ∧
      (l.length % 2 = 1 → l'[l.length - 1]? = l[l.length - 1]?) := by
  obtain ⟨h', e1, e2, e3, _⟩ := q_swap_ring h head fuel l r hf
  exact ⟨h', swapPairs l, e1, e2, e3, rfl, swapPairs_index l⟩

theorem q_swap_exchanges_pairs_witness :
    Ring (ringOf [[97], [98], [99]]) 1 [2, 3, 4] ∧
    ∃ h' l', q_swap 2 (ringOf [[97], [98], [99]]) 1 = some h' ∧ Ring h' 1 l' ∧
      h'.value = (ringOf [[97], [98], [99]]).value ∧
      l' = swapPairs [2, 3, 4] ∧ l'.length = [2, 3, 4].length ∧
      (∀ k, 2 * k + 1 < [2, 3, 4].length →
        l'[2 * k]? = [2, 3, 4][2 * k + 1]? ∧ l'[2 * k + 1]? = [2, 3, 4][2 * k]?) ∧
      ([2, 3, 4].length % 2 = 1 → l'[[2, 3, 4].length - 1]? = [2, 3, 4][[2, 3, 4].length - 1]?) :=
  ⟨by decide, q_swap_exchanges_pairs (ringOf [[97], [98], [99]]) 1 2 [2, 3, 4] (by decide)
    (by decide)⟩

/-- The two examples of C7, evaluated: `[a, b, c, d]` becomes `[b, a, d, c]`
and `[a, b, c]` becomes `[b, a, c]`. -/
theorem q_swap_examples :
    (∃ h', q_swap 3 (ringOf [[97], [98], [99], [100]]) 1 = some h' ∧ Ring h' 1 [3, 2, 5, 4] ∧
      payloads h' [3, 2, 5, 4] = [[98], [97], [100], [99]]) ∧
    (∃ h', q_swap 2 (ringOf [[97], [98], [99]]) 1 = some h' ∧ Ring h' 1 [3, 2, 4] ∧
      payloads h' [3, 2, 4] = [[98], [97], [99]]) := by
  refine ⟨⟨_, rfl, ?_, ?_⟩, ⟨_, rfl, ?_, ?_⟩⟩ <;> decide

/-! ## `q_reverse` -/

theorem q_reverse_loop_spec (h : Heap) (head : Nat) :
    ∀ (rest done : List Nat) (fuel it : Nat),
      Ring h head (done ++ rest) → it = rest.headD head → rest.length + 1 ≤ fuel →
      q_reverse_loop fuel (swapLinks done h) head it = some (swapLinks (done ++ rest) h) := by
  intro rest
  induction rest with
  | nil =>
    intro done fuel it r hit hf
    obtain ⟨fuel, rfl⟩ : ∃ k, fuel = k + 1 := ⟨fuel - 1, by omega⟩
    simp at hit
    simp [q_reverse_loop, hit]
  | cons a rest ih =>
    intro done fuel it r hit hf
    obtain ⟨fuel, rfl⟩ : ∃ k, fuel = k + 1 := ⟨fuel - 1, by simp at hf; omega⟩
    simp only [List.headD_cons] at hit
    subst hit
    have hith : it ≠ head := r.ne_head (by simp)
    have hnd : it ∉ done := by
      have := r.1
      rw [List.nodup_cons, List.nodup_append] at this
      intro hm
      exact this.2.2.2 hm (List.mem_cons_self _ _)
    have hnext : h.next it = rest.headD head := r.next_eq
    have r' : Ring h head ((done ++ [it]) ++ rest) := by simpa using r
    have hstep : ((swapLinks done h).setNext it ((swapLinks done h).prev it)).setPrev it
        ((swapLinks done h).next it) = swapLinks (done ++ [it]) h := by
      ext x
      · by_cases hx : x = it
        · subst hx; simp [swapLinks, hnd]
        · simp [swapLinks, hx]
      · by_cases hx : x = it
        · subst hx; simp [swapLinks, hnd]
        · simp [swapLinks, hx]
      · rfl
      · rfl
    have hit' : (swapLinks (done ++ [it]) h).prev it = rest.headD head := by
      simp [swapLinks, hnext]
    have := ih (done ++ [it]) fuel ((swapLinks (done ++ [it]) h).prev it) r' hit'
      (by simp at hf; omega)
    simp only [q_reverse_loop, if_pos hith, ne_eq, hith, not_false_eq_true, if_true]
    rw [hstep, this]
    simp

/-- On a well-formed ring `q_reverse` exchanges the two links of every node
of the ring, the head included, and touches nothing else. -/
theorem q_reverse_eq (h : Heap) (head fuel : Nat) (l : List Nat)
    (r : Ring h head l) (hf : l.length + 1 ≤ fuel) :
    q_reverse fuel h head = some (swapLinks (head :: l) h) := by
  have hnh : head ∉ l := (List.nodup_cons.1 r.1).1
  match l, r, hf, hnh with
  | [], r, _, _ =>
    have h1 : h.next head = head := r.next_head
    have h2 : h.prev head = head := r.prev_head
    have : swapLinks [head] h = h := by
      ext x
      · by_cases hx : x = head
        · subst hx; simp [swapLinks, h1, h2]
        · simp [swapLinks, hx]
      · by_cases hx : x = head
        · subst hx; simp [swapLinks, h1, h2]
        · simp [swapLinks, hx]
      · rfl
      · rfl
    simp [q_reverse, list_empty, h1, this]
  | a :: l, r, hf, hnh =>
    have h1 : h.next head = a := r.next_head
    have hah : a ≠ head := r.ne_head (by simp)
    have h0 : swapLinks [] h = h := by
      ext x <;> simp [swapLinks]
    have hloop := q_reverse_loop_spec h head (a :: l) [] fuel (h.next head) r (by rw [h1]; rfl) hf
    rw [h0, List.nil_append] at hloop
    have hfin : ((swapLinks (a :: l) h).setNext head ((swapLinks (a :: l) h).prev head)).setPrev
        head ((swapLinks (a :: l) h).next head) = swapLinks (head :: a :: l) h := by
      have hnh' : ¬ (head = a ∨ head ∈ l) := fun hm => hnh (List.mem_cons.2 hm)
      ext x
      · by_cases hx : x = head
        · subst hx; simp [swapLinks, hnh']
        · simp [swapLinks, hx]
      · by_cases hx : x = head
        · subst hx; simp [swapLinks, hnh']
        · simp [swapLinks, hx]
      · rfl
      · rfl
    simp only [q_reverse, list_empty]
    rw [if_neg (by simp [r.head_ne_zero, h1, hah]), hloop]
    simp only
    rw [hfin]

/-- Exchanging the links of every node of a ring gives the ring traversed in
the opposite direction. -/
theorem Ring.swapLinks {h : Heap} {head : Nat} {l : List Nat} (r : Ring h head l) :
    Ring (swapLinks (head :: l) h) head l.reverse := by
  have hmem : ∀ x, x ∈ head :: l.reverse ↔ x ∈ head :: l := by
    intro x; simp
  refine ⟨?_, ?_, ?_, ?_, ?_⟩
  · have : (head :: l.reverse).Perm (head :: l) := (List.reverse_perm l).cons head
    exact this.nodup_iff.2 r.1
  · intro h0; exact r.2.1 ((hmem 0).1 h0)
  · intro x hx; exact r.2.2.1 x ((hmem x).1 hx)
  · refine (seg_congr ?_).2 r.prev_seg
    intro x hx
    simp only [LabQueue.swapLinks]
    rw [if_pos ((hmem x).1 hx)]
  · intro x hx
    have hx' := (hmem x).1 hx
    simp only [LabQueue.swapLinks]
    rw [if_pos hx', if_pos (r.prev_mem hx')]
    exact r.next_prev hx'

/-- Exchanging the links of the same nodes twice restores the memory. -/
theorem swapLinks_swapLinks (S T : List Nat) (h : Heap) (hST : ∀ x, x ∈ T ↔ x ∈ S) :
    swapLinks T (swapLinks S h) = h := by
  ext x
  · by_cases hx : x ∈ S
    · simp [swapLinks, hx, (hST x).2 hx]
    · simp [swapLinks, hx, mt (hST x).1 hx]
  · by_cases hx : x ∈ S
    · simp [swapLinks, hx, (hST x).2 hx]
    · simp [swapLinks, hx, mt (hST x).1 hx]
  · rfl
  · rfl

/-- C8: on a well-formed ring with traversal `l`, `q_reverse` returns a
well-formed ring whose forward traversal is exactly `l` reversed: the same
element nodes in the opposite order, with payloads and allocation untouched. -/
theorem q_reverse_reverses (h : Heap) (head fuel : Nat) (l : List Nat)
    (r : Ring h head l) (hf : l.length + 1 ≤ fuel) :
    ∃ h', q_reverse fuel h head = some h' ∧ Ring h' head l.reverse ∧
      h'.value = h.value ∧ h'.live = h.live ∧ payloads h' l.reverse = (payloads h l).reverse :=
  ⟨swapLinks (head :: l) h, q_reverse_eq h head fuel l r hf, r.swapLinks, rfl, rfl,
    by simp [payloads, key, swapLinks]⟩

theorem q_reverse_reverses_witness :
    Ring (ringOf [[97], [98], [99]]) 1 [2, 3, 4] ∧
    ∃ h', q_reverse 4 (ringOf [[97], [98], [99]]) 1 = some h' ∧ Ring h' 1 [2, 3, 4].reverse ∧
      h'.value = (ringOf [[97], [98], [99]]).value ∧
      h'.live = (ringOf [[97], [98], [99]]).live ∧
      payloads h' [2, 3, 4].reverse = (payloads (ringOf [[97], [98], [99]]) [2, 3, 4]).reverse :=
  ⟨by decide, q_reverse_reverses (ringOf [[97], [98], [99]]) 1 4 [2, 3, 4] (by decide)
    (by decide)⟩

/-- C9: on a well-formed ring, applying `q_reverse` twice restores the whole
memory, hence the original traversal, payload sequence and `next`/`prev`
links. -/
theorem q_reverse_twice (h : Heap) (head fuel : Nat) (l : List Nat)
    (r : Ring h head l) (hf : l.length + 1 ≤ fuel) :
    ∃ h', q_reverse fuel h head = some h' ∧ q_reverse fuel h' head = some h ∧
      Ring h head l := by
  refine ⟨swapLinks (head :: l) h, q_reverse_eq h head fuel l r hf, ?_, r⟩
  rw [q_reverse_eq (swapLinks (head :: l) h) head fuel l.reverse r.swapLinks (by simpa using hf),
    swapLinks_swapLinks]
  intro x; simp

theorem q_reverse_twice_witness :
    Ring (ringOf [[97], [98], [99]]) 1 [2, 3, 4] ∧
    ∃ h', q_reverse 4 (ringOf [[97], [98], [99]]) 1 = some h' ∧
      q_reverse 4 h' 1 = some (ringOf [[97], [98], [99]]) ∧
      Ring (ringOf [[97], [98], [99]]) 1 [2, 3, 4] :=
  ⟨by decide, q_reverse_twice (ringOf [[97], [98], [99]]) 1 4 [2, 3, 4] (by decide)
    (by decide)⟩

/-! ## `strcmp` -/

theorem strcmp_eq_zero_iff : ∀ (s t : List Nat), strcmp s t = 0 ↔ s = t
  | [], [] => by simp [strcmp]
  | [], _ :: _ => by simp [strcmp]
  | _ :: _, [] => by simp [strcmp]
  | a :: s, b :: t => by
    simp only [strcmp]
    split_ifs with h1 h2
    · simp; omega
    · simp; omega
    · have : a = b := by omega
      simp [this, strcmp_eq_zero_iff s t]

theorem strcmp_swap : ∀ (s t : List Nat), strcmp t s = -strcmp s t
  | [], [] => by simp [strcmp]
  | [], _ :: _ => by simp [strcmp]
  | _ :: _, [] => by simp [strcmp]
  | a :: s, b :: t => by
    simp only [strcmp]
    split_ifs <;> first | omega | simp | exact strcmp_swap s t

theorem strcmp_trans : ∀ (s t u : List Nat), strcmp s t ≤ 0 → strcmp t u ≤ 0 → strcmp s u ≤ 0
  | [], _, [] => by simp [strcmp]
  | [], _, _ :: _ => by simp [strcmp]
  | _ :: _, [], _ => by simp [strcmp]
  | _ :: _, _ :: _, [] => by
    intro _ h2
    simp only [strcmp] at h2
    omega
  | a :: s, b :: t, c :: u => by
    simp only [strcmp]
    intro h1 h2
    split_ifs at h1 h2 ⊢ <;> first | omega | exact strcmp_trans s t u h1 h2

theorem strcmpValue_eq {h : Heap} {p q : Nat} (hp : h.value p ≠ none) (hq : h.value q ≠ none) :
    strcmpValue h p q = some (strcmp (key h p) (key h q)) := by
  unfold strcmpValue key
  cases h1 : h.value p with
  | none => exact absurd h1 hp
  | some s =>
    cases h2 : h.value q with
    | none => exact absurd h2 hq
    | some t => rfl

/-! ## `q_delete_dup`: the list-level effect -/

/-- After the inner loop has stripped the run members that follow `p`, the
outer loop goes on with what is left. -/
theorem dedupAux_dropWhile (v : Nat → List Nat) (p : Nat) (dup : Bool) (l : List Nat) :
    dedupAux v p dup l =
      (if dup = true ∨ (l.dropWhile fun x => decide (v x = v p)).length < l.length then []
        else [p]) ++ dedupRuns v (l.dropWhile fun x => decide (v x = v p)) := by
  induction l generalizing dup with
  | nil => simp [dedupAux, dedupRuns]
  | cons x l ih =>
    by_cases hx : v x = v p
    · have hlen : (l.dropWhile fun x => decide (v x = v p)).length < l.length + 1 := by
        have := (@List.dropWhile_sublist Nat l (fun x => decide (v x = v p))).length_le
        omega
      rw [dedupAux, if_pos hx, ih true, List.dropWhile_cons_of_pos (by simpa using hx)]
      simp [hlen]
    · rw [dedupAux, if_neg hx, List.dropWhile_cons_of_neg (by simpa using hx)]
      simp [dedupRuns]

/-- In a sorted traversal, a payload different from the next one does not
occur again. -/
theorem sorted_not_mem_of_ne (v : Nat → List Nat) (p x : Nat) (l : List Nat)
    (hs : (p :: x :: l).Pairwise fun a b => strcmp (v a) (v b) ≤ 0) (hne : v x ≠ v p) :
    v p ∉ (x :: l).map v := by
  intro hm
  obtain ⟨y, hy, hyp⟩ := List.mem_map.1 hm
  rw [List.pairwise_cons] at hs
  have hpx : strcmp (v p) (v x) ≤ 0 := hs.1 x (List.mem_cons_self _ _)
  have hxy : strcmp (v x) (v y) ≤ 0 := by
    rcases List.mem_cons.1 hy with rfl | hy'
    · have := (strcmp_eq_zero_iff (v y) (v y)).2 rfl
      omega
    · exact (List.pairwise_cons.1 hs.2).1 y hy'
  rw [hyp] at hxy
  have h1 := strcmp_swap (v p) (v x)
  have : strcmp (v x) (v p) = 0 := by omega
  exact hne ((strcmp_eq_zero_iff _ _).1 this)

theorem dedupAux_sorted (v : Nat → List Nat) : ∀ (l : List Nat) (p : Nat) (dup : Bool),
    ((p :: l).Pairwise fun a b => strcmp (v a) (v b) ≤ 0) →
    dedupAux v p dup l =
      (if dup = true ∨ v p ∈ l.map v then [] else [p]) ++
        l.filter fun x => decide (v x ≠ v p ∧ (l.map v).count (v x) = 1) := by
  intro l
  induction l with
  | nil => intro p dup _; simp [dedupAux]
  | cons x l ih =>
    intro p dup hs
    by_cases hx : v x = v p
    · have hs' : (p :: l).Pairwise fun a b => strcmp (v a) (v b) ≤ 0 := by
        rw [List.pairwise_cons] at hs ⊢
        exact ⟨fun y hy => hs.1 y (List.mem_cons_of_mem _ hy), (List.pairwise_cons.1 hs.2).2⟩
      rw [dedupAux, if_pos hx, ih p true hs']
      simp only [true_or, if_true, List.nil_append, List.map_cons, List.mem_cons, hx,
        or_true]
      rw [List.filter_cons_of_neg (by simp [hx])]
      apply List.filter_congr
      intro y _
      by_cases hy : v y = v p
      · simp [hy]
      · have : v y ≠ v x := by rw [hx]; exact hy
        simp [hy, List.count_cons_of_ne (Ne.symm this)]
    · have hs' : (x :: l).Pairwise fun a b => strcmp (v a) (v b) ≤ 0 :=
        (List.pairwise_cons.1 hs).2
      have hnm := sorted_not_mem_of_ne v p x l hs hx
      rw [dedupAux, if_neg hx, ih x false hs']
      simp only [hnm, or_false, Bool.false_eq_true, false_or]
      congr 1
      have hall : ∀ y ∈ x :: l, v y ≠ v p := by
        intro y hy e
        exact hnm (List.mem_map.2 ⟨y, hy, e⟩)
      by_cases hxl : v x ∈ l.map v
      · have hcx : (l.map v).count (v x) ≠ 0 := by
          have := List.count_pos_iff.2 hxl
          omega
        rw [if_pos hxl, List.filter_cons_of_neg (by simp [hx, hcx]), List.nil_append]
        apply List.filter_congr
        intro y hy
        have hyp := hall y (List.mem_cons_of_mem _ hy)
        by_cases hyx : v y = v x
        · simp [hyx, hcx]
        · simp [hyp, hyx, List.count_cons_of_ne (Ne.symm hyx)]
      · have hcx : (l.map v).count (v x) = 0 := List.count_eq_zero_of_not_mem hxl
        rw [if_neg hxl, List.filter_cons_of_pos (by simp [hx, hcx])]
        simp only [List.singleton_append]
        congr 1
        apply List.filter_congr
        intro y hy
        have hyp := hall y (List.mem_cons_of_mem _ hy)
        have hyx : v y ≠ v x := by
          intro e; exact hxl (List.mem_map.2 ⟨y, hy, e⟩)
        simp [hyp, hyx, List.count_cons_of_ne (Ne.symm hyx)]

/-- On a sorted traversal, dropping every run of two or more equal payloads
keeps exactly the elements whose payload occurs once. -/
theorem dedupRuns_sorted (v : Nat → List Nat) (l : List Nat)
    (hs : l.Pairwise fun a b => strcmp (v a) (v b) ≤ 0) :
    dedupRuns v l = l.filter fun x => decide ((l.map v).count (v x) = 1) := by
  cases l with
  | nil => rfl
  | cons p l =>
    rw [dedupRuns, dedupAux_sorted v l p false hs]
    simp only [Bool.false_eq_true, false_or]
    by_cases hp : v p ∈ l.map v
    · have hc : (l.map v).count (v p) ≠ 0 := by
        have := List.count_pos_iff.2 hp
        omega
      rw [if_pos hp, List.filter_cons_of_neg (by simp [hc]), List.nil_append]
      apply List.filter_congr
      intro y _
      by_cases hy : v y = v p
      · simp [hy, hc]
      · simp [hy, List.count_cons_of_ne (Ne.symm hy)]
    · have hc : (l.map v).count (v p) = 0 := List.count_eq_zero_of_not_mem hp
      rw [if_neg hp, List.filter_cons_of_pos (by simp [hc])]
      simp only [List.singleton_append]
      congr 1
      apply List.filter_congr
      intro y hy
      have hyp : v y ≠ v p := by
        intro e; exact hp (List.mem_map.2 ⟨y, hy, e⟩)
      simp [hyp, List.count_cons_of_ne (Ne.symm hyp)]

/-! ## `q_delete_dup`: the loops -/

theorem key_eq_of_value {h h' : Heap} (hv : h'.value = h.value) : key h' = key h := by
  funext x; unfold key; rw [hv]

theorem Payloads.mono {h h' : Heap} {l l' : List Nat} (hp : Payloads h l)
    (hv : h'.value = h.value) (hsub : ∀ x ∈ l', x ∈ l) : Payloads h' l' := by
  intro x hx; rw [hv]; exact hp x (hsub x hx)

theorem q_delete_dup_inner_spec (head p : Nat) (v : Nat → List Nat) (done : List Nat) :
    ∀ (rest : List Nat) (h : Heap) (fuel node : Nat) (dup : Bool),
      Ring h head (done ++ p :: rest) → key h = v → h.value p ≠ none → Payloads h rest →
      node = rest.headD head → rest.length + 1 ≤ fuel →
      ∃ h', q_delete_dup_inner fuel h head p node dup =
          some (h', (rest.dropWhile fun x => decide (v x = v p)).headD head,
            dup || decide ((rest.dropWhile fun x => decide (v x = v p)).length < rest.length)) ∧
        Ring h' head (done ++ p :: rest.dropWhile fun x => decide (v x = v p)) ∧
        h'.value = h.value := by
  intro rest
  induction rest with
  | nil =>
    intro h fuel node dup r _ _ _ hnode hf
    obtain ⟨fuel, rfl⟩ : ∃ k, fuel = k + 1 := ⟨fuel - 1, by omega⟩
    simp at hnode
    exact ⟨h, by simp [q_delete_dup_inner, hnode], by simpa using r, rfl⟩
  | cons x rest ih =>
    intro h fuel node dup r hk hpv hpl hnode hf
    obtain ⟨fuel, rfl⟩ : ∃ k, fuel = k + 1 := ⟨fuel - 1, by simp at hf; omega⟩
    simp only [List.headD_cons] at hnode
    subst hnode
    have hnh : node ≠ head := r.ne_head (by simp)
    have hxv : h.value node ≠ none := hpl node (List.mem_cons_self _ _)
    have hcmp := strcmpValue_eq hpv hxv
    rw [hk] at hcmp
    by_cases hx : v node = v p
    · have r₁ : Ring (list_del h node) head ((done ++ [p]) ++ rest) := by
        have r' : Ring h head ((done ++ [p]) ++ node :: rest) := by simpa using r
        exact r'.list_del
      have hnm : node ∉ head :: ((done ++ [p]) ++ rest) := by
        have : (head :: (done ++ p :: node :: rest)).Perm
            (node :: head :: ((done ++ [p]) ++ rest)) := by
          have := @List.perm_middle Nat node (head :: (done ++ [p])) rest
          simpa using this
        exact (List.nodup_cons.1 (this.nodup_iff.1 r.1)).1
      have r₂ : Ring (q_release_element (list_del h node) node) head (done ++ p :: rest) := by
        have := r₁.release hnm
        simpa using this
      have hv₂ : (q_release_element (list_del h node) node).value = h.value := by
        simp [q_release_element]
      obtain ⟨h', e1, e2, e3⟩ := ih (q_release_element (list_del h node) node) fuel
        ((q_release_element (list_del h node) node).next p) true r₂
        ((key_eq_of_value hv₂).trans hk) (by rw [hv₂]; exact hpv)
        (hpl.mono hv₂ (fun y hy => List.mem_cons_of_mem _ hy)) r₂.next_eq
        (by simp at hf; omega)
      have hlen : (rest.dropWhile fun x => decide (v x = v p)).length < rest.length + 1 := by
        have := (@List.dropWhile_sublist Nat rest (fun x => decide (v x = v p))).length_le
        omega
      refine ⟨h', ?_, ?_, e3.trans hv₂⟩
      · rw [q_delete_dup_inner, if_neg hnh, hcmp]
        simp only [(strcmp_eq_zero_iff _ _).2 hx.symm, if_true]
        rw [e1, List.dropWhile_cons_of_pos (by simpa using hx)]
        simp [hlen]
      · rw [List.dropWhile_cons_of_pos (by simpa using hx)]
        exact e2
    · have hc : strcmp (v p) (v node) ≠ 0 := by
        intro e; exact hx ((strcmp_eq_zero_iff _ _).1 e).symm
      refine ⟨h, ?_, ?_, rfl⟩
      · rw [q_delete_dup_inner, if_neg hnh, hcmp]
        simp only [if_neg hc]
        rw [List.dropWhile_cons_of_neg (by simpa using hx)]
        simp
      · rw [List.dropWhile_cons_of_neg (by simpa using hx)]
        exact r

theorem q_delete_dup_loop_spec (head : Nat) (v : Nat → List Nat) :
    ∀ (fuel : Nat) (h : Heap) (done rest : List Nat) (prev node : Nat),
      Ring h head (done ++ rest) → key h = v → Payloads h rest →
      prev = rest.headD head → node = h.next prev → rest.length + 1 ≤ fuel →
      ∃ h', q_delete_dup_loop fuel h head prev node false = some h' ∧
        Ring h' head (done ++ dedupRuns v rest) ∧ h'.value = h.value := by
  intro fuel
  induction fuel with
  | zero => intro h done rest prev node _ _ _ _ _ hf; omega
  | succ fuel ih =>
    intro h done rest prev node r hk hpl hprev hnode hf
    match rest, r, hpl, hprev, hf with
    | [], r, _, hprev, _ =>
      simp at hprev
      exact ⟨h, by simp [q_delete_dup_loop, hprev], by simpa [dedupRuns] using r, rfl⟩
    | [p], r, _, hprev, _ =>
      simp at hprev
      have : h.next p = head := by rw [r.next_eq]; rfl
      refine ⟨h, ?_, by simpa [dedupRuns, dedupAux] using r, rfl⟩
      simp [q_delete_dup_loop, hprev, hnode, this]
    | p :: q :: rest, r, hpl, hprev, hf =>
      simp only [List.headD_cons] at hprev
      subst hprev
      have hpq : h.next prev = q := by rw [r.next_eq]; rfl
      rw [hpq] at hnode
      subst hnode
      have hph : prev ≠ head := r.ne_head (by simp)
      have hqh : node ≠ head := r.ne_head (by simp)
      obtain ⟨h₁, e1, r₁, hv₁⟩ := q_delete_dup_inner_spec head prev v done (node :: rest) h fuel
        node false r hk (hpl prev (by simp))
        (hpl.mono rfl (fun y hy => List.mem_cons_of_mem _ hy)) rfl
        (by simp only [List.length_cons] at hf ⊢; omega)
      have hsub : ∀ y ∈ (node :: rest).dropWhile (fun x => decide (v x = v prev)),
          y ∈ prev :: node :: rest := fun y hy =>
        List.mem_cons_of_mem _ ((List.dropWhile_sublist _).subset hy)
      have hlen := (@List.dropWhile_sublist Nat (node :: rest)
        (fun x => decide (v x = v prev))).length_le
      have hspec := dedupAux_dropWhile v prev false (node :: rest)
      by_cases hx : v node = v prev
      · have hlt : ((node :: rest).dropWhile fun x => decide (v x = v prev)).length <
            (node :: rest).length := by
          rw [List.dropWhile_cons_of_pos (by simpa using hx)]
          have := (@List.dropWhile_sublist Nat rest (fun x => decide (v x = v prev))).length_le
          simp only [List.length_cons]; omega
        have r₂ : Ring (q_release_element (list_del h₁ prev) prev) head
            (done ++ (node :: rest).dropWhile fun x => decide (v x = v prev)) := by
          refine r₁.list_del.release ?_
          have : (head :: (done ++ prev ::
              (node :: rest).dropWhile fun x => decide (v x = v prev))).Perm
              (prev :: head :: (done ++
                (node :: rest).dropWhile fun x => decide (v x = v prev))) := by
            have := @List.perm_middle Nat prev (head :: done)
              ((node :: rest).dropWhile fun x => decide (v x = v prev))
            simpa using this
          exact (List.nodup_cons.1 (this.nodup_iff.1 r₁.1)).1
        have hv₂ : (q_release_element (list_del h₁ prev) prev).value = h.value := by
          simp [q_release_element, hv₁]
        obtain ⟨h', e2, r', hv'⟩ := ih (q_release_element (list_del h₁ prev) prev) done
          ((node :: rest).dropWhile fun x => decide (v x = v prev))
          (((node :: rest).dropWhile fun x => decide (v x = v prev)).headD head)
          ((q_release_element (list_del h₁ prev) prev).next
            (((node :: rest).dropWhile fun x => decide (v x = v prev)).headD head))
          r₂ ((key_eq_of_value hv₂).trans hk) (hpl.mono hv₂ hsub) rfl rfl
          (by simp only [List.length_cons] at hf hlt; omega)
        refine ⟨h', ?_, ?_, hv'.trans hv₂⟩
        · rw [q_delete_dup_loop, if_pos ⟨hph, hqh⟩, e1]
          simp only [Bool.false_or, decide_eq_true hlt, if_true]
          exact e2
        · rw [dedupRuns, hspec, if_pos (Or.inr hlt), List.nil_append]
          exact r'
      · have hdw : ((node :: rest).dropWhile fun x => decide (v x = v prev)) = node :: rest :=
          List.dropWhile_cons_of_neg (by simpa using hx)
        rw [hdw] at e1 r₁ hspec
        have r₂ : Ring h₁ head ((done ++ [prev]) ++ node :: rest) := by simpa using r₁
        obtain ⟨h', e2, r', hv'⟩ := ih h₁ (done ++ [prev]) (node :: rest) node (h₁.next node)
          r₂ ((key_eq_of_value hv₁).trans hk)
          (hpl.mono hv₁ (fun y hy => List.mem_cons_of_mem _ hy)) rfl rfl
          (by simp only [List.length_cons] at hf ⊢; omega)
        refine ⟨h', ?_, ?_, hv'.trans hv₁⟩
        · rw [q_delete_dup_loop, if_pos ⟨hph, hqh⟩, e1]
          simp only [Bool.false_or, lt_self_iff_false, decide_False, List.headD_cons]
          exact e2
        · rw [dedupRuns, hspec, if_neg (by simp)]
          simpa using r'

/-- Effect of `q_delete_dup` on a ring of at least two elements with payloads. -/
theorem q_delete_dup_ring (h : Heap) (head fuel : Nat) (l : List Nat)
    (r : Ring h head l) (hp : Payloads h l) (hn : 2 ≤ l.length) (hf : l.length + 1 ≤ fuel) :
    ∃ h', q_delete_dup fuel h head = some (h', true) ∧
      Ring h' head (dedupRuns (key h) l) ∧ h'.value = h.value := by
  match l, r, hp, hn, hf with
  | a :: b :: l, r, hp, _, hf =>
    have h1 : h.next head = a := r.next_head
    have hah : a ≠ head := r.ne_head (by simp)
    have hbh : b ≠ head := r.ne_head (by simp)
    have hab : h.next a = b := @Ring.next_eq h head [] (b :: l) a r
    have h2 : h.prev head ≠ a := by
      intro e
      have := r.next_prev (List.mem_cons_self head _)
      rw [e, hab] at this
      exact hbh this
    obtain ⟨h', e1, e2, e3⟩ := q_delete_dup_loop_spec head (key h) fuel h [] (a :: b :: l)
      (h.next head) (h.next (h.next head)) r rfl hp (by rw [h1]; rfl) rfl hf
    refine ⟨h', ?_, e2, e3⟩
    simp only [q_delete_dup, list_empty, list_is_singular]
    rw [if_neg (by simp [r.head_ne_zero, h1, hah, h2]), e1]

theorem count_beq_inst (L : List (List Nat)) (s : List Nat) :
    @List.count _ instBEqOfDecidableEq s L = @List.count _ List.instBEq s L := by
  unfold List.count
  congr 1
  funext x
  rw [Bool.eq_iff_iff]
  simp

/-- The elements whose payload occurs once are as many as the payload values
of multiplicity one. -/
theorem length_filter_count_eq_one (L : List (List Nat)) :
    (L.filter fun s => decide (L.count s = 1)).length =
      (L.dedup.filter fun s => decide (L.count s = 1)).length := by
  apply List.Perm.length_eq
  apply (List.perm_ext_iff_of_nodup ?_ ?_).2
  · intro s
    simp only [List.mem_filter, List.mem_dedup]
  · rw [List.nodup_iff_count_le_one]
    intro s
    rw [count_beq_inst]
    by_cases hs : L.count s = 1
    · have := (List.filter_sublist L :
        (L.filter fun s => decide (L.count s = 1)).Sublist L).count_le s
      omega
    · have : s ∉ L.filter fun s => decide (L.count s = 1) := by
        simp [List.mem_filter, hs]
      have := List.count_eq_zero_of_not_mem this
      omega
  · exact (List.nodup_dedup L).filter _

/-- C6: on a ring of at least two elements with payloads whose traversal is
sorted ascending by `strcmp`, `q_delete_dup` returns true and the resulting
traversal consists of exactly the elements whose payload occurred once in the
input, in the same relative order; its size is the number of payload values
of multiplicity one, and the payloads are untouched. -/
theorem q_delete_dup_sorted (h : Heap) (head fuel : Nat) (l : List Nat)
    (r : Ring h head l) (hp : Payloads h l) (hn : 2 ≤ l.length) (hs : SortedRing h l)
    (hf : l.length + 1 ≤ fuel) :
    ∃ h' l', q_delete_dup fuel h head = some (h', true) ∧ Ring h' head l' ∧
      h'.value = h.value ∧
      l' = l.filter (fun x => decide ((payloads h l).count (key h x) = 1)) ∧
      payloads h' l' = (payloads h l).filter (fun s => decide ((payloads h l).count s = 1)) ∧
      l'.length =
        ((payloads h l).dedup.filter fun s => decide ((payloads h l).count s = 1)).length := by
  obtain ⟨h', e1, e2, e3⟩ := q_delete_dup_ring h head fuel l r hp hn hf
  rw [dedupRuns_sorted (key h) l hs] at e2
  have hpay : payloads h' (l.filter fun x => decide ((payloads h l).count (key h x) = 1)) =
      (payloads h l).filter (fun s => decide ((payloads h l).count s = 1)) := by
    unfold payloads
    rw [key_eq_of_value e3, List.filter_map]
    rfl
  refine ⟨h', _, e1, e2, e3, rfl, hpay, ?_⟩
  rw [← length_filter_count_eq_one, ← hpay]
  simp [payloads]

theorem q_delete_dup_sorted_witness :
    Ring (ringOf [[97], [98], [98], [99]]) 1 [2, 3, 4, 5] ∧
    ∃ h' l', q_delete_dup 5 (ringOf [[97], [98], [98], [99]]) 1 = some (h', true) ∧
      Ring h' 1 l' ∧ h'.value = (ringOf [[97], [98], [98], [99]]).value ∧
      l' = [2, 3, 4, 5].filter (fun x => decide
        ((payloads (ringOf [[97], [98], [98], [99]]) [2, 3, 4, 5]).count
          (key (ringOf [[97], [98], [98], [99]]) x) = 1)) ∧
      payloads h' l' = (payloads (ringOf [[97], [98], [98], [99]]) [2, 3, 4, 5]).filter
        (fun s => decide
          ((payloads (ringOf [[97], [98], [98], [99]]) [2, 3, 4, 5]).count s = 1)) ∧
      l'.length = ((payloads (ringOf [[97], [98], [98], [99]]) [2, 3, 4, 5]).dedup.filter
        fun s => decide
          ((payloads (ringOf [[97], [98], [98], [99]]) [2, 3, 4, 5]).count s = 1)).length :=
  ⟨by decide, q_delete_dup_sorted (ringOf [[97], [98], [98], [99]]) 1 5 [2, 3, 4, 5]
    (by decide) (by decide) (by decide) (by decide) (by decide)⟩

/-- The example of C6, evaluated: from payloads `a, b, b, c` the ring keeps
`a, c`. -/
theorem q_delete_dup_example :
    ∃ h', q_delete_dup 5 (ringOf [[97], [98], [98], [99]]) 1 = some (h', true) ∧
      Ring h' 1 [2, 5] ∧ payloads h' [2, 5] = [[97], [99]] := by
  refine ⟨_, rfl, ?_, ?_⟩ <;> decide

/-! ## Merging -/

@[simp] theorem mergeSpec_nil_left (v : Nat → List Nat) (r : List Nat) :
    mergeSpec v [] r = r := by
  rw [mergeSpec]

@[simp] theorem mergeSpec_nil_right (v : Nat → List Nat) (l : List Nat) :
    mergeSpec v l [] = l := by
  cases l <;> rw [mergeSpec]

theorem mergeSpec_cons_cons (v : Nat → List Nat) (a b : Nat) (l r : List Nat) :
    mergeSpec v (a :: l) (b :: r) =
      if strcmp (v a) (v b) < 0 then a :: mergeSpec v l (b :: r)
      else b :: mergeSpec v (a :: l) r := by
  rw [mergeSpec]

theorem mergeSpec_perm (v : Nat → List Nat) : ∀ (l r : List Nat),
    (mergeSpec v l r).Perm (l ++ r) := by
  intro l
  induction l with
  | nil => intro r; simp
  | cons a l ihl =>
    intro r
    induction r with
    | nil => simp
    | cons b r ihr =>
      rw [mergeSpec_cons_cons]
      split_ifs
      · exact (ihl (b :: r)).cons a
      · refine (ihr.cons b).trans ?_
        exact (@List.perm_middle Nat b (a :: l) r).symm

theorem mergeSpec_sorted (v : Nat → List Nat) : ∀ (l r : List Nat),
    (l.Pairwise fun a b => strcmp (v a) (v b) ≤ 0) →
    (r.Pairwise fun a b => strcmp (v a) (v b) ≤ 0) →
    (mergeSpec v l r).Pairwise fun a b => strcmp (v a) (v b) ≤ 0 := by
  intro l
  induction l with
  | nil => intro r _ hr; simpa using hr
  | cons a l ihl =>
    intro r
    induction r with
    | nil => intro hl _; simpa using hl
    | cons b r ihr =>
      intro hl hr
      have hrefl : ∀ s : List Nat, strcmp s s ≤ 0 := fun s =>
        le_of_eq ((strcmp_eq_zero_iff s s).2 rfl)
      rw [mergeSpec_cons_cons]
      split_ifs with hab
      · rw [List.pairwise_cons]
        refine ⟨?_, ihl (b :: r) (List.pairwise_cons.1 hl).2 hr⟩
        intro y hy
        rcases List.mem_append.1 ((mergeSpec_perm v l (b :: r)).subset hy) with h1 | h1
        · exact (List.pairwise_cons.1 hl).1 y h1
        · have hby : strcmp (v b) (v y) ≤ 0 := by
            rcases List.mem_cons.1 h1 with rfl | h2
            · exact hrefl _
            · exact (List.pairwise_cons.1 hr).1 y h2
          exact strcmp_trans _ _ _ (le_of_lt hab) hby
      · rw [List.pairwise_cons]
        refine ⟨?_, ihr hl (List.pairwise_cons.1 hr).2⟩
        intro y hy
        have hba : strcmp (v b) (v a) ≤ 0 := by
          have := strcmp_swap (v a) (v b)
          omega
        rcases List.mem_append.1 ((mergeSpec_perm v (a :: l) r).subset hy) with h1 | h1
        · have hay : strcmp (v a) (v y) ≤ 0 := by
            rcases List.mem_cons.1 h1 with rfl | h2
            · exact hrefl _
            · exact (List.pairwise_cons.1 hl).1 y h2
          exact strcmp_trans _ _ _ hba hay
        · exact (List.pairwise_cons.1 hr).1 y h1

theorem LinkRef.store_next (ptr : LinkRef) (h : Heap) (hd x z : Nat) :
    (ptr.store h hd x).1.next z = if ptr = .nextOf z then x else h.next z := by
  cases ptr with
  | headVar => simp [LinkRef.store]
  | nextOf a =>
    simp only [LinkRef.store, setNext_next, LinkRef.nextOf.injEq]
    by_cases hz : z = a
    · simp [hz]
    · simp [hz, Ne.symm hz]

theorem LinkRef.load_store (ptr : LinkRef) (h : Heap) (hd x : Nat) :
    ptr.load (ptr.store h hd x).1 (ptr.store h hd x).2 = x := by
  cases ptr <;> simp [LinkRef.store, LinkRef.load]

@[simp] theorem LinkRef.store_prev (ptr : LinkRef) (h : Heap) (hd x : Nat) :
    (ptr.store h hd x).1.prev = h.prev := by
  cases ptr <;> simp [LinkRef.store]

@[simp] theorem LinkRef.store_value (ptr : LinkRef) (h : Heap) (hd x : Nat) :
    (ptr.store h hd x).1.value = h.value := by
  cases ptr <;> simp [LinkRef.store]

@[simp] theorem LinkRef.store_live (ptr : LinkRef) (h : Heap) (hd x : Nat) :
    (ptr.store h hd x).1.live = h.live := by
  cases ptr <;> simp [LinkRef.store]

theorem LinkRef.store_head (ptr : LinkRef) (h : Heap) (hd x : Nat) (hp : ptr ≠ .headVar) :
    (ptr.store h hd x).2 = hd := by
  cases ptr with
  | headVar => exact absurd rfl hp
  | nextOf a => rfl

theorem q_merge_loop_spec (v : Nat → List Nat) :
    ∀ (fuel : Nat) (ll lr : List Nat) (h : Heap) (left right hd : Nat) (ptr : LinkRef),
      Seg h.next left ll 0 → Seg h.next right lr 0 → (ll ++ lr).Nodup → 0 ∉ ll ++ lr →
      key h = v → Payloads h (ll ++ lr) → (∀ a, ptr = .nextOf a → a ∉ ll ++ lr) →
      ll.length + lr.length + 1 ≤ fuel →
      ∃ h' hd', q_merge_loop fuel h left right hd ptr = some (h', hd') ∧
        Seg h'.next (ptr.load h' hd') (mergeSpec v ll lr) 0 ∧
        (ptr ≠ .headVar → hd' = hd) ∧
        h'.prev = h.prev ∧ h'.value = h.value ∧ h'.live = h.live ∧
        ∀ z, z ∉ ll ++ lr → ptr ≠ .nextOf z → h'.next z = h.next z := by
  intro fuel
  induction fuel with
  | zero => intro ll lr h left right hd ptr _ _ _ _ _ _ _ hf; omega
  | succ fuel ih =>
    intro ll lr h left right hd ptr hsl hsr hnd h0 hk hpl hptr hf
    match ll, lr, hsl, hsr, hnd, h0, hpl, hptr, hf with
    | [], lr, hsl, hsr, _, _, _, hptr, _ =>
      have hl0 : left = 0 := hsl
      refine ⟨(ptr.store h hd right).1, (ptr.store h hd right).2, ?_, ?_,
        fun hp => ptr.store_head h hd right hp, by simp, by simp, by simp, ?_⟩
      · simp [q_merge_loop, hl0]
      · rw [LinkRef.load_store, mergeSpec_nil_left]
        refine (seg_congr ?_).2 hsr
        intro x hx
        rw [LinkRef.store_next, if_neg (fun e => hptr x e (by simpa using hx))]
      · intro z _ hz
        rw [LinkRef.store_next, if_neg hz]
    | a :: ll, [], hsl, hsr, _, _, _, hptr, _ =>
      have hr0 : right = 0 := hsr
      refine ⟨(ptr.store h hd left).1, (ptr.store h hd left).2, ?_, ?_,
        fun hp => ptr.store_head h hd left hp, by simp, by simp, by simp, ?_⟩
      · simp [q_merge_loop, hr0]
      · rw [LinkRef.load_store, mergeSpec_nil_right]
        refine (seg_congr ?_).2 hsl
        intro x hx
        rw [LinkRef.store_next, if_neg (fun e => hptr x e (by simpa using hx))]
      · intro z _ hz
        rw [LinkRef.store_next, if_neg hz]
    | a :: ll, b :: lr, hsl, hsr, hnd, h0, hpl, hptr, hf =>
      obtain ⟨hla, hsl'⟩ := hsl
      obtain ⟨hrb, hsr'⟩ := hsr
      subst hla hrb
      have hl0 : left ≠ 0 := fun e => h0 (by simp [e])
      have hr0 : right ≠ 0 := fun e => h0 (by simp [e])
      have hcmp := strcmpValue_eq (hpl left (by simp)) (hpl right (by simp))
      rw [hk] at hcmp
      have hpla : ptr ≠ .nextOf left := fun e => hptr left e (by simp)
      have hplb : ptr ≠ .nextOf right := fun e => hptr right e (by simp)
      have hnd' := hnd
      rw [List.cons_append, List.nodup_cons] at hnd'
      have hndb : (left :: ll ++ lr).Nodup ∧ right ∉ left :: ll ++ lr := by
        have hperm : (left :: ll ++ right :: lr).Perm (right :: (left :: ll ++ lr)) :=
          List.perm_middle
        have := hperm.nodup_iff.1 hnd
        rw [List.nodup_cons] at this
        exact ⟨this.2, this.1⟩
      by_cases hc : strcmp (v left) (v right) < 0
      · -- the left front is spliced
        have hn1 : ∀ x, ptr ≠ .nextOf x → (ptr.store h hd left).1.next x = h.next x := by
          intro x hx; rw [LinkRef.store_next, if_neg hx]
        have hv1 : (ptr.store h hd left).1.value = h.value := by simp
        obtain ⟨h', hd', e, hs', hhd, hp', hv', hl', hfr⟩ :=
          ih ll (right :: lr) (ptr.store h hd left).1 ((ptr.store h hd left).1.next left) right
            (ptr.store h hd left).2 (.nextOf left)
            (by
              rw [hn1 left hpla]
              refine (seg_congr ?_).2 hsl'
              intro x hx
              exact hn1 x (fun e => hptr x e (by simp [hx])))
            (by
              refine (seg_congr ?_).2 (show Seg h.next right (right :: lr) 0 from ⟨rfl, hsr'⟩)
              intro x hx
              exact hn1 x (fun e => hptr x e (by
                rcases List.mem_cons.1 hx with h1 | h1
                · simp [h1]
                · simp [h1])))
            hnd'.2 (fun hm => h0 (List.mem_cons_of_mem _ hm))
            ((key_eq_of_value hv1).trans hk)
            (hpl.mono hv1 (fun y hy => List.mem_cons_of_mem _ hy))
            (fun x hx => by
              have : x = left := (LinkRef.nextOf.inj hx).symm
              rw [this]; exact hnd'.1)
            (by simp only [List.length_cons] at hf ⊢; omega)
        refine ⟨h', hd', ?_, ?_, ?_, by rw [hp']; simp, by rw [hv']; simp,
          by rw [hl']; simp, ?_⟩
        · rw [q_merge_loop, if_pos ⟨hl0, hr0⟩, hcmp]
          simp only [if_pos hc]
          exact e
        · rw [mergeSpec_cons_cons, if_pos hc]
          refine ⟨?_, hs'⟩
          cases ptr with
          | headVar =>
            simp only [LinkRef.load]
            rw [hhd (by simp)]
            rfl
          | nextOf t =>
            simp only [LinkRef.load]
            have ht : t ∉ left :: ll ++ right :: lr := hptr t rfl
            rw [hfr t (fun hm => ht (List.mem_cons_of_mem _ hm))
              (fun e => ht (by rw [LinkRef.nextOf.inj e]; simp))]
            simp [LinkRef.store]
        · intro hp
          rw [hhd (by simp)]
          exact ptr.store_head h hd left hp
        · intro z hz hpz
          rw [hfr z (fun hm => hz (List.mem_cons_of_mem _ hm))
            (fun e => hz (by rw [LinkRef.nextOf.inj e]; simp))]
          exact hn1 z hpz
      · -- the right front is spliced
        have hn1 : ∀ x, ptr ≠ .nextOf x → (ptr.store h hd right).1.next x = h.next x := by
          intro x hx; rw [LinkRef.store_next, if_neg hx]
        have hv1 : (ptr.store h hd right).1.value = h.value := by simp
        have hsub : ∀ y, y ∈ left :: ll ++ lr → y ∈ left :: ll ++ right :: lr := by
          intro y; simp only [List.mem_append, List.mem_cons]; tauto
        obtain ⟨h', hd', e, hs', hhd, hp', hv', hl', hfr⟩ :=
          ih (left :: ll) lr (ptr.store h hd right).1 left ((ptr.store h hd right).1.next right)
            (ptr.store h hd right).2 (.nextOf right)
            (by
              refine (seg_congr ?_).2 (show Seg h.next left (left :: ll) 0 from ⟨rfl, hsl'⟩)
              intro x hx
              exact hn1 x (fun e => hptr x e (by
                rcases List.mem_cons.1 hx with h1 | h1
                · simp [h1]
                · simp [h1])))
            (by
              rw [hn1 right hplb]
              refine (seg_congr ?_).2 hsr'
              intro x hx
              exact hn1 x (fun e => hptr x e (by simp [hx])))
            hndb.1 (fun hm => h0 (hsub 0 hm))
            ((key_eq_of_value hv1).trans hk)
            (hpl.mono hv1 hsub)
            (fun x hx => by
              have : x = right := (LinkRef.nextOf.inj hx).symm
              rw [this]; exact hndb.2)
            (by simp only [List.length_cons] at hf ⊢; omega)
        refine ⟨h', hd', ?_, ?_, ?_, by rw [hp']; simp, by rw [hv']; simp,
          by rw [hl']; simp, ?_⟩
        · rw [q_merge_loop, if_pos ⟨hl0, hr0⟩, hcmp]
          simp only [if_neg hc]
          exact e
        · rw [mergeSpec_cons_cons, if_neg hc]
          refine ⟨?_, hs'⟩
          cases ptr with
          | headVar =>
            simp only [LinkRef.load]
            rw [hhd (by simp)]
            rfl
          | nextOf t =>
            simp only [LinkRef.load]
            have ht : t ∉ left :: ll ++ right :: lr := hptr t rfl
            rw [hfr t (fun hm => ht (hsub t hm))
              (fun e => ht (by rw [LinkRef.nextOf.inj e]; simp))]
            simp [LinkRef.store]
        · intro hp
          rw [hhd (by simp)]
          exact ptr.store_head h hd right hp
        · intro z hz hpz
          have hz' : z ∉ left :: ll ++ lr := fun hm => hz (hsub z hm)
          rw [hfr z hz' (fun e => hz (by rw [LinkRef.nextOf.inj e]; simp))]
          exact hn1 z hpz

/-! ## `q_merge_sort` -/

/-- The slow/fast walk of `q_merge_sort`: while `fast` runs over the chain
`lf`, `slow` advances over `ls` by `⌊(|lf| - 1) / 2⌋` nodes. -/
theorem q_merge_sort_split_spec (h : Heap) :
    ∀ (fuel : Nat) (lf ls : List Nat) (slow fast : Nat),
      Seg h.next slow ls 0 → Seg h.next fast lf 0 → lf ≠ [] → 0 ∉ lf →
      (lf.length - 1) / 2 < ls.length → (lf.length - 1) / 2 + 1 ≤ fuel →
      ∃ x, q_merge_sort_split fuel h slow fast = some x ∧
        ls[(lf.length - 1) / 2]? = some x := by
  intro fuel
  induction fuel with
  | zero => intro lf ls slow fast _ _ _ _ _ hf; omega
  | succ fuel ih =>
    intro lf ls slow fast hss hsf hne h0 hlen hf
    match lf, hsf, hne, h0, hlen, hf with
    | [f], hsf, _, _, hlen, _ =>
      have hfn : h.next fast = 0 := by rw [hsf.1]; exact hsf.2
      match ls, hss, hlen with
      | s :: ls, hss, _ =>
        refine ⟨slow, ?_, by simp [hss.1]⟩
        simp [q_merge_sort_split, hfn]
    | [f, g], hsf, _, _, hlen, _ =>
      obtain ⟨hf1, hg1, hg2⟩ := hsf
      have hgn : h.next (h.next fast) = 0 := by rw [hf1, hg1]; exact hg2
      match ls, hss, hlen with
      | s :: ls, hss, _ =>
        refine ⟨slow, ?_, by simp [hss.1]⟩
        simp [q_merge_sort_split, hgn]
    | f :: g :: e :: lf, hsf, _, h0, hlen, hf =>
      obtain ⟨hf1, hg1, he1, hsf'⟩ := hsf
      have hg0 : h.next fast ≠ 0 := by
        rw [hf1, hg1]; intro e0; exact h0 (by simp [e0])
      have he0 : h.next (h.next fast) ≠ 0 := by
        rw [hf1, hg1, he1]; intro e0; exact h0 (by simp [e0])
      have hk : ((f :: g :: e :: lf).length - 1) / 2 = ((e :: lf).length - 1) / 2 + 1 := by
        simp only [List.length_cons]; omega
      rw [hk] at hlen hf ⊢
      match ls, hss, hlen with
      | s :: ls, hss, hlen =>
        obtain ⟨x, e1, e2⟩ := ih (e :: lf) ls (h.next slow) (h.next (h.next fast))
          (by rw [hss.1]; exact hss.2)
          (by rw [hf1, hg1, he1]; exact ⟨rfl, hsf'⟩)
          (by simp) (fun hm => h0 (by simp at hm ⊢; tauto))
          (by simp only [List.length_cons] at hlen ⊢; omega) (by omega)
        refine ⟨x, ?_, ?_⟩
        · simp [q_merge_sort_split, hg0, he0, e1]
        · rw [List.getElem?_cons_succ]; exact e2

theorem getElem?_decomp (L : List Nat) (k x : Nat) (hx : L[k]? = some x) :
    ∃ l₁ l₂, L = l₁ ++ x :: l₂ ∧ l₁.length = k := by
  have hk : k < L.length := by
    by_contra hcon
    rw [List.getElem?_eq_none (by omega)] at hx
    exact Option.noConfusion hx
  refine ⟨L.take k, L.drop (k + 1), ?_, by simp; omega⟩
  have hx' : L[k] = x := by
    rw [List.getElem?_eq_getElem hk] at hx
    exact Option.some.inj hx
  rw [← hx', ← List.drop_eq_getElem_cons hk, List.take_append_drop]

/-- The recursive sort on a null-terminated chain: with enough fuel it
returns a chain holding the same nodes in non-decreasing `strcmp` order,
only `next` fields of nodes of the chain having been written. -/
theorem q_merge_sort_spec (v : Nat → List Nat) :
    ∀ (n : Nat) (l : List Nat) (fuel : Nat) (h : Heap) (head : Nat),
      l.length ≤ n → l ≠ [] → Seg h.next head l 0 → l.Nodup → 0 ∉ l → key h = v →
      Payloads h l → l.length + 2 ≤ fuel →
      ∃ h' head' l', q_merge_sort fuel h head = some (h', head') ∧
        Seg h'.next head' l' 0 ∧ l'.Perm l ∧
        (l'.Pairwise fun a b => strcmp (v a) (v b) ≤ 0) ∧
        h'.prev = h.prev ∧ h'.value = h.value ∧ h'.live = h.live ∧
        ∀ z, z ∉ l → h'.next z = h.next z := by
  intro n
  induction n with
  | zero =>
    intro l fuel h head hn hne
    exact absurd (List.length_eq_zero.1 (Nat.le_zero.1 hn)) hne
  | succ n ih =>
    intro l fuel h head hn hne hs hnd h0 hk hpl hf
    obtain ⟨fuel, rfl⟩ : ∃ k, fuel = k + 1 := ⟨fuel - 1, by omega⟩
    match l, hn, hne, hs, hnd, h0, hpl, hf with
    | [a], _, _, hs, _, _, _, _ =>
      have : h.next head = 0 := by rw [hs.1]; exact hs.2
      exact ⟨h, head, [a], by simp [q_merge_sort, this], hs, List.Perm.refl _,
        List.pairwise_singleton _ _, rfl, rfl, rfl, fun _ _ => rfl⟩
    | a :: b :: l, hn, _, hs, hnd, h0, hpl, hf =>
      have hha : head = a := hs.1
      subst hha
      have hnext : h.next head ≠ 0 := by
        rw [hs.2.1]; intro e0; exact h0 (by simp [e0])
      -- the split
      have hlen : ((head :: b :: l).length - 1) / 2 < (head :: b :: l).length := by
        simp only [List.length_cons]; omega
      obtain ⟨x, ex, hx⟩ := q_merge_sort_split_spec h fuel (head :: b :: l) (head :: b :: l)
        head head hs hs (by simp) h0 hlen (by simp only [List.length_cons] at hf ⊢; omega)
      obtain ⟨l₁, l₂, hdec, hl₁⟩ := getElem?_decomp _ _ _ hx
      have hlenL : l₁.length + 1 + l₂.length = (head :: b :: l).length := by
        rw [hdec]; simp; omega
      have hLn : (head :: b :: l).length ≤ n + 1 := hn
      simp only [List.length_cons] at hl₁ hlenL hLn hf
      have hl₂ : l₂ ≠ [] := by
        intro e0
        rw [e0] at hlenL
        simp only [List.length_nil] at hlenL
        omega
      rw [hdec] at hs hnd h0 hpl
      have hdec' : l₁ ++ x :: l₂ = (l₁ ++ [x]) ++ l₂ := by simp
      have hnd' : ((l₁ ++ [x]) ++ l₂).Nodup := by rw [← hdec']; exact hnd
      have hnd₁ := (List.nodup_append.1 hnd').1
      have hnd₂ := (List.nodup_append.1 hnd').2.1
      have hdisj := (List.nodup_append.1 hnd').2.2
      have hx₁ : x ∉ l₁ := fun hm => (List.nodup_append.1 hnd₁).2.2 hm (by simp)
      have hx₂ : x ∉ l₂ := fun hm => hdisj (by simp) hm
      obtain ⟨m, hsa, hsb⟩ := seg_append.1 hs
      obtain ⟨hmx, hsb⟩ := hsb
      subst hmx
      -- the two chains after the cut
      have hsL : Seg (h.setNext m 0).next head (l₁ ++ [m]) 0 := by
        rw [seg_snoc]
        refine ⟨(seg_congr ?_).2 hsa, by simp⟩
        intro y hy
        have : y ≠ m := fun e0 => hx₁ (e0 ▸ hy)
        simp [this]
      have hsR : Seg (h.setNext m 0).next (h.next m) l₂ 0 := by
        refine (seg_congr ?_).2 hsb
        intro y hy
        have : y ≠ m := fun e0 => hx₂ (e0 ▸ hy)
        simp [this]
      have hsub₁ : ∀ y ∈ l₁ ++ [m], y ∈ l₁ ++ m :: l₂ := by
        intro y; simp only [List.mem_append, List.mem_cons, List.mem_singleton]; tauto
      have hsub₂ : ∀ y ∈ l₂, y ∈ l₁ ++ m :: l₂ := by
        intro y; simp only [List.mem_append, List.mem_cons]; tauto
      have hv₁ : (h.setNext m 0).value = h.value := rfl
      -- left half
      obtain ⟨h₂, left, ll, eL, hsl, hpermL, hsortL, hp₂, hv₂, hl₂', hfr₂⟩ :=
        ih (l₁ ++ [m]) fuel (h.setNext m 0) head
          (by simp only [List.length_append, List.length_singleton]; omega) (by simp)
          hsL hnd₁ (fun hm => h0 (hsub₁ 0 hm)) ((key_eq_of_value hv₁).trans hk)
          (hpl.mono hv₁ hsub₁)
          (by simp only [List.length_append, List.length_singleton]; omega)
      -- right half
      have hsR₂ : Seg h₂.next (h.next m) l₂ 0 := by
        refine (seg_congr ?_).2 hsR
        intro y hy
        exact hfr₂ y (fun hm => hdisj hm hy)
      obtain ⟨h₃, right, lr, eR, hsr, hpermR, hsortR, hp₃, hv₃, hl₃, hfr₃⟩ :=
        ih l₂ fuel h₂ (h.next m) (by omega) hl₂ hsR₂ hnd₂ (fun hm => h0 (hsub₂ 0 hm))
          ((key_eq_of_value (hv₂.trans hv₁)).trans hk)
          (hpl.mono (hv₂.trans hv₁) hsub₂)
          (by omega)
      -- the merge
      have hsl₃ : Seg h₃.next left ll 0 := by
        refine (seg_congr ?_).2 hsl
        intro y hy
        exact hfr₃ y (fun hm => hdisj (hpermL.subset hy) hm)
      have hpermLR : (ll ++ lr).Perm (l₁ ++ m :: l₂) := by
        rw [hdec']; exact hpermL.append hpermR
      obtain ⟨h', hd', eM, hsM, _, hp', hv', hl', hfr'⟩ :=
        q_merge_loop_spec v fuel ll lr h₃ left right 0 .headVar hsl₃ hsr
          (hpermLR.nodup_iff.2 hnd) (fun hm => h0 (hpermLR.subset hm))
          ((key_eq_of_value (hv₃.trans (hv₂.trans hv₁))).trans hk)
          (hpl.mono (hv₃.trans (hv₂.trans hv₁)) (fun y hy => hpermLR.subset hy))
          (fun a ha => LinkRef.noConfusion ha)
          (by
            have := hpermLR.length_eq
            simp only [List.length_append, List.length_cons] at this ⊢
            omega)
      refine ⟨h', hd', mergeSpec v ll lr, ?_, hsM, ?_, mergeSpec_sorted v ll lr hsortL hsortR,
        ?_, ?_, ?_, ?_⟩
      · rw [q_merge_sort, if_neg hnext, ex]
        simp only [eL, eR, __q_merge, eM]
      · rw [hdec]; exact (mergeSpec_perm v ll lr).trans hpermLR
      · rw [hp', hp₃, hp₂]; rfl
      · rw [hv', hv₃, hv₂]; rfl
      · rw [hl', hl₃, hl₂']; rfl
      · intro z hz
        rw [hdec] at hz
        have hz₁ : z ∉ l₁ ++ [m] := fun hm => hz (hsub₁ z hm)
        have hz₂ : z ∉ l₂ := fun hm => hz (hsub₂ z hm)
        have hzm : z ≠ m := fun e0 => hz (by simp [e0])
        rw [hfr' z (fun hm => hz (hpermLR.subset hm)) (by simp), hfr₃ z hz₂, hfr₂ z hz₁]
        simp [hzm]

/-! ## `q_sort` -/

/-- The loop of `q_sort` that rebuilds the `prev` links along a
null-terminated chain. -/
theorem q_sort_relink_spec : ∀ (rest : List Nat) (h : Heap) (it fuel : Nat),
    Seg h.next (h.next it) rest 0 → (it :: rest).Nodup → 0 ∉ rest → rest.length + 1 ≤ fuel →
    ∃ h' last, q_sort_relink fuel h it = some (h', last) ∧
      (it :: rest).getLast? = some last ∧
      h'.next = h.next ∧ h'.value = h.value ∧ h'.live = h.live ∧
      (∀ z, z ∉ rest → h'.prev z = h.prev z) ∧
      (∀ y ∈ it :: rest, h.next y ≠ 0 → h'.prev (h.next y) = y) := by
  intro rest
  induction rest with
  | nil =>
    intro h it fuel hs _ _ hf
    obtain ⟨fuel, rfl⟩ : ∃ k, fuel = k + 1 := ⟨fuel - 1, by omega⟩
    have h0 : h.next it = 0 := hs
    refine ⟨h, it, by simp [q_sort_relink, h0], rfl, rfl, rfl, rfl, fun _ _ => rfl, ?_⟩
    intro y hy hne
    simp at hy
    rw [hy] at hne
    exact absurd h0 hne
  | cons x rest ih =>
    intro h it fuel hs hnd h0 hf
    obtain ⟨fuel, rfl⟩ : ∃ k, fuel = k + 1 := ⟨fuel - 1, by simp at hf; omega⟩
    obtain ⟨hx, hs'⟩ := hs
    have hx0 : h.next it ≠ 0 := by
      rw [hx]; intro e; exact h0 (by simp [e])
    have hnd' := List.nodup_cons.1 hnd
    have hxr : x ∉ rest := (List.nodup_cons.1 hnd'.2).1
    obtain ⟨h', last, e, hlast, hn', hv', hl', hfr, hlink⟩ :=
      ih (h.setPrev x it) x fuel hs' hnd'.2 (fun hm => h0 (List.mem_cons_of_mem _ hm))
        (by simp at hf; omega)
    refine ⟨h', last, ?_, ?_, hn', hv', hl', ?_, ?_⟩
    · rw [q_sort_relink, if_pos hx0]
      simp only [hx, setPrev_next]
      exact e
    · rw [List.getLast?_cons_cons]; exact hlast
    · intro z hz
      have hzx : z ≠ x := fun e0 => hz (by simp [e0])
      rw [hfr z (fun hm => hz (List.mem_cons_of_mem _ hm))]
      simp [hzx]
    · intro y hy hne
      rcases List.mem_cons.1 hy with rfl | hy'
      · rw [hx, hfr x hxr]
        simp
      · exact hlink y hy' hne

/-- Effect of `q_sort` on a ring of at least two elements with payloads: with
enough fuel it returns a well-formed ring holding the same nodes in
non-decreasing `strcmp` order. -/
theorem q_sort_ring (h : Heap) (head fuel : Nat) (l : List Nat)
    (r : Ring h head l) (hp : Payloads h l) (hn : 2 ≤ l.length) (hf : l.length + 2 ≤ fuel) :
    ∃ h' l', q_sort fuel h head = some h' ∧ Ring h' head l' ∧ l'.Perm l ∧
      SortedRing h' l' ∧ h'.value = h.value ∧ h'.live = h.live := by
  have hh0 : head ≠ 0 := r.head_ne_zero
  have hnh : head ∉ l := (List.nodup_cons.1 r.1).1
  have hl0 : 0 ∉ l := fun hm => r.2.1 (List.mem_cons_of_mem _ hm)
  -- the guard
  have hguard : ¬ (head = 0 ∨ list_empty h head = true ∨ list_is_singular h head = true) := by
    match l, r, hn with
    | a :: b :: l, r, _ =>
      have h1 : h.next head = a := r.next_head
      have hah : a ≠ head := r.ne_head (by simp)
      have hbh : b ≠ head := r.ne_head (by simp)
      have hab : h.next a = b := @Ring.next_eq h head [] (b :: l) a r
      have h2 : h.prev head ≠ a := by
        intro e
        have := r.next_prev (List.mem_cons_self head _)
        rw [e, hab] at this
        exact hbh this
      simp [list_empty, list_is_singular, hh0, h1, hah, h2]
  -- cutting the ring open
  rcases List.eq_nil_or_concat' l with hnil | ⟨c, p, hc⟩
  · rw [hnil] at hn; simp at hn
  have hprev : h.prev head = p := by rw [r.prev_head, hc]; simp
  have hpl : p ∈ l := by rw [hc]; simp
  have hph : p ≠ head := fun e => hnh (e ▸ hpl)
  have hcut : Seg ((h.setNext p 0).setNext head 0).next (h.next head) l 0 := by
    have := r.seg.2
    rw [hc] at this ⊢
    rw [seg_snoc] at this ⊢
    refine ⟨(seg_congr ?_).2 this.1, by simp [hph]⟩
    intro y hy
    have hyl : y ∈ l := by rw [hc]; simp [hy]
    have hyh : y ≠ head := fun e => hnh (e ▸ hyl)
    have hyp : y ≠ p := by
      intro e
      have hnd := (List.nodup_cons.1 r.1).2
      rw [hc] at hnd
      exact (List.nodup_append.1 hnd).2.2 hy (by simp [e])
    simp [hyh, hyp]
  have hlne : l ≠ [] := by rw [hc]; simp
  obtain ⟨h₂, node, l', eS, hs₂, hperm, hsort, hp₂, hv₂, hl₂, hfr₂⟩ :=
    q_merge_sort_spec (key h) l.length l fuel ((h.setNext p 0).setNext head 0) (h.next head)
      (le_refl _) hlne hcut (List.nodup_cons.1 r.1).2 hl0 rfl hp hf
  have hmem : ∀ y, y ∈ l' ↔ y ∈ l := fun y => hperm.mem_iff
  have hnh' : head ∉ l' := fun hm => hnh ((hmem head).1 hm)
  have hl0' : 0 ∉ l' := fun hm => hl0 ((hmem 0).1 hm)
  have hnd' : (head :: l').Nodup :=
    List.nodup_cons.2 ⟨hnh', hperm.nodup_iff.2 (List.nodup_cons.1 r.1).2⟩
  -- re-attaching the head and rebuilding `prev`
  have hs₃ : Seg (h₂.setNext head node).next ((h₂.setNext head node).next head) l' 0 := by
    simp only [setNext_next, if_true]
    refine (seg_congr ?_).2 hs₂
    intro y hy
    have : y ≠ head := fun e => hnh' (e ▸ hy)
    simp [this]
  obtain ⟨h₄, last, eR, hlast, hn₄, hv₄, hl₄, hfr₄, hlink⟩ :=
    q_sort_relink_spec l' (h₂.setNext head node) head fuel hs₃ hnd' hl0'
      (by have := hperm.length_eq; omega)
  rcases List.eq_nil_or_concat' l' with hnil | ⟨c', q, hc'⟩
  · rw [hnil] at hperm; exact absurd hperm.symm.eq_nil hlne
  have hlq : last = q := by
    rw [hc', ← List.cons_append, List.getLast?_concat] at hlast
    exact (Option.some.inj hlast).symm
  subst hlq
  have hqm : last ∈ l' := by rw [hc']; simp
  have hqh : last ≠ head := fun e => hnh' (e ▸ hqm)
  rw [hc', seg_snoc] at hs₃
  have hseg₃ : Seg (h₂.setNext head node).next head (head :: c') last := ⟨rfl, hs₃.1⟩
  have hc'nd : ∀ y ∈ head :: c', y ≠ last := by
    intro y hy e
    have := hnd'
    rw [hc', ← List.cons_append] at this
    exact (List.nodup_append.1 this).2.2 hy (by simp [e])
  refine ⟨(h₄.setNext last head).setPrev head last, l', ?_, ?_, hperm, ?_, ?_, ?_⟩
  · rw [q_sort, if_neg hguard]
    simp only [hprev, eS, eR]
  · refine ⟨hnd', ?_, ?_, ?_, ?_⟩
    · intro hm
      rcases List.mem_cons.1 hm with e | e
      · exact hh0 e.symm
      · exact hl0' e
    · intro y hy
      have hy' : y ∈ head :: l := by
        rcases List.mem_cons.1 hy with e | e
        · simp [e]
        · exact List.mem_cons_of_mem _ ((hmem y).1 e)
      simp only [setPrev_live, setNext_live, hl₄, hl₂]
      exact r.2.2.1 y hy'
    · rw [hc', ← List.cons_append, seg_snoc]
      refine ⟨(seg_congr ?_).2 hseg₃, by simp⟩
      intro y hy
      simp only [setPrev_next, setNext_next, if_neg (hc'nd y hy), hn₄]
    · intro y hy
      by_cases hyl : y = last
      · subst hyl
        simp
      · have hy' : y ∈ head :: c' := by
          rw [hc', ← List.cons_append] at hy
          rcases List.mem_append.1 hy with h1 | h1
          · exact h1
          · simp at h1; exact absurd h1 hyl
        have himg := seg_image hseg₃ y hy'
        simp only [List.tail_cons] at himg
        rw [← hc'] at himg
        have hne0 : (h₂.setNext head node).next y ≠ 0 := fun e => hl0' (e ▸ himg)
        have hneh : (h₂.setNext head node).next y ≠ head := fun e => hnh' (e ▸ himg)
        have hlk := hlink y hy hne0
        generalize hw : (h₂.setNext head node).next y = w at himg hne0 hneh hlk
        have e1 : ((h₄.setNext last head).setPrev head last).next y = w := by
          rw [setPrev_next, setNext_next, if_neg hyl, hn₄]; exact hw
        rw [e1, setPrev_prev, if_neg hneh, setNext_prev]
        exact hlk
  · have hk : key ((h₄.setNext last head).setPrev head last) = key h := by
      apply key_eq_of_value
      simp only [setPrev_value, setNext_value, hv₄, hv₂]
    unfold SortedRing
    rw [hk]
    exact hsort
  · simp only [setPrev_value, setNext_value, hv₄, hv₂]
  · simp only [setPrev_live, setNext_live, hl₄, hl₂]

/-- On an empty or singleton ring `q_sort` returns at once. -/
theorem q_sort_small (h : Heap) (head fuel : Nat) (l : List Nat)
    (r : Ring h head l) (hn : l.length < 2) : q_sort fuel h head = some h := by
  match l, r, hn with
  | [], r, _ =>
    have : h.next head = head := r.next_head
    simp [q_sort, list_empty, this]
  | [a], r, _ =>
    have h1 : h.next head = a := r.next_head
    have h2 : h.prev head = a := r.prev_head
    simp [q_sort, list_empty, list_is_singular, h1, h2]

theorem sortedRing_iff (h : Heap) (l : List Nat) :
    SortedRing h l ↔ (payloads h l).Pairwise fun s t => strcmp s t ≤ 0 := by
  unfold SortedRing payloads
  rw [List.pairwise_map]

/-- Iterating along a path. -/
theorem seg_iterate {f : Nat → Nat} : ∀ (l : List Nat) (p q : Nat), Seg f p l q →
    f^[l.length] p = q ∧ ∀ k, k < l.length → l[k]? = some (f^[k] p) := by
  intro l
  induction l with
  | nil => intro p q hs; exact ⟨hs, fun k hk => absurd hk (by simp)⟩
  | cons x l ih =>
    intro p q hs
    obtain ⟨hpx, hs'⟩ := hs
    subst hpx
    obtain ⟨h1, h2⟩ := ih (f p) q hs'
    refine ⟨by rw [List.length_cons, Function.iterate_succ_apply]; exact h1, ?_⟩
    intro k hk
    cases k with
    | zero => simp
    | succ k =>
      rw [List.getElem?_cons_succ, Function.iterate_succ_apply]
      exact h2 k (by simpa using hk)

/-- Ring integrity in the words of the spec: `next` and `prev` are mutual
inverses on every node of the ring, the last element is linked with the head
both ways, and following `next` from the head comes back to the head after
exactly `size + 1` steps and not before. -/
theorem Ring.integrity {h : Heap} {head : Nat} {l : List Nat} (r : Ring h head l) :
    (∀ x ∈ head :: l, h.prev (h.next x) = x ∧ h.next (h.prev x) = x) ∧
    h.next (l.getLastD head) = head ∧ h.prev head = l.getLastD head ∧
    h.next^[l.length + 1] head = head ∧
    ∀ k, 0 < k → k ≤ l.length → h.next^[k] head ≠ head := by
  have hit := seg_iterate (head :: l) head head r.seg
  refine ⟨fun x hx => ⟨r.prev_next hx, r.next_prev hx⟩, ?_, r.prev_head, hit.1, ?_⟩
  · rw [← r.prev_head]; exact r.next_prev (List.mem_cons_self _ _)
  · intro k hk0 hk
    obtain ⟨j, rfl⟩ : ∃ j, k = j + 1 := ⟨k - 1, by omega⟩
    have := hit.2 (j + 1) (by simp only [List.length_cons]; omega)
    rw [List.getElem?_cons_succ] at this
    have hm : h.next^[j + 1] head ∈ l := List.getElem?_mem this
    exact r.ne_head hm

/-- C1: on every well-formed ring with payloads, `q_sort` (given enough fuel)
returns a well-formed ring whose forward traversal is in non-decreasing
`strcmp` order and is a permutation of the traversal before the call: the
same nodes, the same multiset of payloads, the same size. -/
theorem q_sort_sorted_perm (h : Heap) (head fuel : Nat) (l : List Nat)
    (r : Ring h head l) (hp : Payloads h l) (hf : l.length + 2 ≤ fuel) :
    ∃ h' l', q_sort fuel h head = some h' ∧ Ring h' head l' ∧
      ((payloads h' l').Pairwise fun s t => strcmp s t ≤ 0) ∧
      l'.Perm l ∧ (payloads h' l').Perm (payloads h l) ∧ l'.length = l.length ∧
      h'.value = h.value := by
  by_cases hn : 2 ≤ l.length
  · obtain ⟨h', l', e, r', hperm, hsort, hv, _⟩ := q_sort_ring h head fuel l r hp hn hf
    refine ⟨h', l', e, r', (sortedRing_iff h' l').1 hsort, hperm, ?_, hperm.length_eq, hv⟩
    unfold payloads
    rw [key_eq_of_value hv]
    exact hperm.map _
  · have hsmall : l.length < 2 := by omega
    refine ⟨h, l, q_sort_small h head fuel l r hsmall, r, ?_, List.Perm.refl _,
      List.Perm.refl _, rfl, rfl⟩
    match l, hsmall with
    | [], _ => simp [payloads]
    | [a], _ => simp [payloads]

theorem q_sort_sorted_perm_witness :
    Ring (ringOf [[99], [97], [98], [97]]) 1 [2, 3, 4, 5] ∧
    Payloads (ringOf [[99], [97], [98], [97]]) [2, 3, 4, 5] ∧
    ∃ h' l', q_sort 6 (ringOf [[99], [97], [98], [97]]) 1 = some h' ∧ Ring h' 1 l' ∧
      ((payloads h' l').Pairwise fun s t => strcmp s t ≤ 0) ∧
      l'.Perm [2, 3, 4, 5] ∧
      (payloads h' l').Perm (payloads (ringOf [[99], [97], [98], [97]]) [2, 3, 4, 5]) ∧
      l'.length = [2, 3, 4, 5].length ∧
      h'.value = (ringOf [[99], [97], [98], [97]]).value :=
  ⟨by decide, by decide,
    q_sort_sorted_perm (ringOf [[99], [97], [98], [97]]) 1 6 [2, 3, 4, 5] (by decide)
      (by decide) (by decide)⟩

/-- The example of C1, evaluated: payloads `c, a, b, a` come out as
`a, a, b, c`, with the `prev` links rebuilt. -/
theorem q_sort_example :
    ∃ h', q_sort 6 (ringOf [[99], [97], [98], [97]]) 1 = some h' ∧ Ring h' 1 [5, 3, 4, 2] ∧
      payloads h' [5, 3, 4, 2] = [[97], [97], [98], [99]] := by
  refine ⟨_, rfl, ?_, ?_⟩ <;> decide

/-- C2: on every well-formed ring with at least two elements (and payloads),
when `q_sort` returns the full ring invariant holds again on the sorted
traversal `l'`: `next` and `prev` are mutual inverses on every node, the head
included; the last sorted node's `next` is the head and the head's `prev` is
that node; and following `next` from the head comes back to the head after
exactly `size + 1` steps and not before. -/
theorem q_sort_restores_ring (h : Heap) (head fuel : Nat) (l : List Nat)
    (r : Ring h head l) (hp : Payloads h l) (hn : 2 ≤ l.length) (hf : l.length + 2 ≤ fuel) :
    ∃ h' l', q_sort fuel h head = some h' ∧ Seg h'.next (h'.next head) l' head ∧
      l'.length = l.length ∧ (head :: l').Nodup ∧
      (∀ x ∈ head :: l', h'.prev (h'.next x) = x ∧ h'.next (h'.prev x) = x) ∧
      h'.next (l'.getLastD head) = head ∧ h'.prev head = l'.getLastD head ∧
      h'.next^[l.length + 1] head = head ∧
      ∀ k, 0 < k → k ≤ l.length → h'.next^[k] head ≠ head := by
  obtain ⟨h', l', e, r', hperm, _, _, _⟩ := q_sort_ring h head fuel l r hp hn hf
  have hi := r'.integrity
  rw [hperm.length_eq] at hi
  exact ⟨h', l', e, r'.seg.2, hperm.length_eq, r'.1, hi⟩

theorem q_sort_restores_ring_witness :
    Ring (ringOf [[99], [97], [98]]) 1 [2, 3, 4] ∧
    Payloads (ringOf [[99], [97], [98]]) [2, 3, 4] ∧
    ∃ h' l', q_sort 5 (ringOf [[99], [97], [98]]) 1 = some h' ∧
      Seg h'.next (h'.next 1) l' 1 ∧
      l'.length = [2, 3, 4].length ∧ (1 :: l').Nodup ∧
      (∀ x ∈ 1 :: l', h'.prev (h'.next x) = x ∧ h'.next (h'.prev x) = x) ∧
      h'.next (l'.getLastD 1) = 1 ∧ h'.prev 1 = l'.getLastD 1 ∧
      h'.next^[[2, 3, 4].length + 1] 1 = 1 ∧
      ∀ k, 0 < k → k ≤ [2, 3, 4].length → h'.next^[k] 1 ≠ 1 :=
  ⟨by decide, by decide,
    q_sort_restores_ring (ringOf [[99], [97], [98]]) 1 5 [2, 3, 4] (by decide) (by decide)
      (by decide) (by decide)⟩

/-! ## Every sequence of payloads is the traversal of a well-formed ring -/

theorem ringOf_fold (vals : List (List Nat)) :
    (vals.foldl (fun (p : Heap × Nat) s => ((q_insert_tail p.1 1 s p.2 true).1, p.2 + 1))
        ((q_new Heap.empty 1).1, 2)).2 = vals.length + 2 ∧
      Ring (ringOf vals) 1 (List.range' 2 vals.length) ∧
      (∀ i, i < vals.length → (ringOf vals).value (i + 2) = vals[i]?) ∧
      ∀ x, vals.length + 2 ≤ x → (ringOf vals).live x = false := by
  induction vals using List.reverseRecOn with
  | nil =>
    refine ⟨rfl, by decide, fun i hi => absurd hi (by simp), ?_⟩
    intro x hx
    have : x ≠ 1 := by simp at hx; omega
    simp [ringOf, q_new, Heap.empty, INIT_LIST_HEAD, this]
  | append_singleton vals s ih =>
    obtain ⟨ih1, ih2, ih3, ih4⟩ := ih
    have hstep : ringOf (vals ++ [s]) =
        (q_insert_tail (ringOf vals) 1 s (vals.length + 2) true).1 := by
      simp only [ringOf, List.foldl_append, List.foldl_cons, List.foldl_nil]
      rw [ih1]
    obtain ⟨_, r', hv, hl⟩ := q_insert_tail_ring (ringOf vals) 1 (vals.length + 2)
      (List.range' 2 vals.length) s ih2 (by omega) (ih4 _ (le_refl _))
    rw [← hstep] at r' hv hl
    refine ⟨?_, ?_, ?_, ?_⟩
    · simp only [List.foldl_append, List.foldl_cons, List.foldl_nil, ih1]
      simp
    · rw [List.length_append, List.length_singleton, List.range'_concat]
      simpa [Nat.add_comm] using r'
    · intro i hi
      rw [hv]
      by_cases hi' : i < vals.length
      · rw [if_neg (by omega), ih3 i hi', List.getElem?_append_left hi']
      · have : i = vals.length := by
          simp only [List.length_append, List.length_singleton] at hi; omega
        subst this
        simp
    · intro x hx
      simp only [List.length_append, List.length_singleton] at hx
      rw [hl, if_neg (by omega)]
      exact ih4 x (by omega)

/-- Every finite sequence of payloads is the payload sequence of a
well-formed ring: the one built by `q_new` and repeated `q_insert_tail`. -/
theorem ringOf_ring (vals : List (List Nat)) :
    Ring (ringOf vals) 1 (List.range' 2 vals.length) ∧
      Payloads (ringOf vals) (List.range' 2 vals.length) ∧
      payloads (ringOf vals) (List.range' 2 vals.length) = vals := by
  obtain ⟨_, h2, h3, _⟩ := ringOf_fold vals
  refine ⟨h2, ?_, ?_⟩
  · intro x hx
    rw [List.mem_range'_1] at hx
    obtain ⟨i, rfl⟩ : ∃ i, x = i + 2 := ⟨x - 2, by omega⟩
    rw [h3 i (by omega), List.getElem?_eq_getElem (by omega)]
    simp
  · apply List.ext_getElem?
    intro i
    by_cases hi : i < vals.length
    · simp only [payloads, List.getElem?_map]
      rw [List.getElem?_range' _ _ hi]
      simp only [Option.map_some', key]
      have e2 : 2 + 1 * i = i + 2 := by omega
      rw [e2, h3 i hi, List.getElem?_eq_getElem hi]
      simp
    · rw [List.getElem?_eq_none (by simp [payloads]; omega),
        List.getElem?_eq_none (by omega)]

/-! ## The copy into the caller's buffer -/

/-- What `strncpy` followed by the final store puts at the front of the
buffer: the first `min (strlen s) n` characters of `s` and a terminator. -/
theorem buffer_prefix (buf s : List Nat) (n : Nat) (hn : n < buf.length) :
    ((s.take n ++ List.replicate (n - s.length) 0 ++ buf.drop n).set n 0).take
        (min s.length n + 1) = s.take (min s.length n) ++ [0] ∧
      ((s.take n ++ List.replicate (n - s.length) 0 ++ buf.drop n).set n 0).length
        = buf.length := by
  have hA : (s.take n ++ List.replicate (n - s.length) 0).length = n := by
    simp only [List.length_append, List.length_take, List.length_replicate]; omega
  obtain ⟨b, rest, hd⟩ : ∃ b rest, buf.drop n = b :: rest := by
    cases hdr : buf.drop n with
    | nil =>
      have := congrArg List.length hdr
      simp only [List.length_drop, List.length_nil] at this; omega
    | cons b rest => exact ⟨b, rest, rfl⟩
  have hlen : rest.length + 1 = buf.length - n := by
    have := congrArg List.length hd
    simp only [List.length_drop, List.length_cons] at this
    omega
  have hset : (s.take n ++ List.replicate (n - s.length) 0 ++ b :: rest).set n 0 =
      s.take n ++ List.replicate (n - s.length) 0 ++ 0 :: rest := by
    rw [List.set_append_right _ _ (by omega), hA]
    simp
  rw [hd, hset]
  refine ⟨?_, ?_⟩
  · by_cases hs : s.length ≤ n
    · obtain ⟨d, hdn⟩ : ∃ d, n = s.length + d := ⟨n - s.length, by omega⟩
      subst hdn
      have e : List.take 1 (List.replicate d 0 ++ 0 :: rest) = [0] := by
        cases d <;> simp [List.replicate_succ]
      have e1 : s.length + d - s.length = d := by omega
      have e2 : s.length + 1 - s.length = 1 := by omega
      rw [Nat.min_eq_left hs, List.take_of_length_le hs, e1, List.append_assoc,
        List.take_append_eq_append_take, List.take_of_length_le (Nat.le_succ _), e2, e,
        List.take_of_length_le (le_refl _)]
    · have hs' : n ≤ s.length := by omega
      have h0 : n - s.length = 0 := by omega
      have hl : (List.take n s).length = n := by
        rw [List.length_take]; omega
      have e2 : n + 1 - (List.take n s).length = 1 := by omega
      rw [Nat.min_eq_right hs', h0, List.replicate_zero, List.append_nil,
        List.take_append_eq_append_take, List.take_of_length_le (by omega), e2]
      rfl
  · simp only [List.length_append, List.length_take, List.length_replicate, List.length_cons]
    omega

theorem copy_to_buffer_some (h : Heap) (target bufsize : Nat) (buf s : List Nat)
    (hv : h.value target = some s) (N : Nat) (hN : (bufsize + (2 ^ 64 - 1)) % 2 ^ 64 = N)
    (hcap : N < buf.length) :
    copy_to_buffer h target (some buf) bufsize =
      some ((s.take N ++ List.replicate (N - s.length) 0 ++ buf.drop N).set N 0) := by
  unfold copy_to_buffer
  rw [hv, hN]
  simp only [strncpy]
  rw [if_pos (le_of_lt hcap)]
  simp only
  rw [if_pos]
  simp only [List.length_append, List.length_take, List.length_replicate, List.length_drop]
  omega

/-- With a buffer of at least `bufsize ≥ 1` bytes the copy is defined and
leaves the first `min (strlen s) (bufsize - 1)` characters of the payload
followed by a terminator. -/
theorem copy_to_buffer_spec (h : Heap) (target bufsize : Nat) (buf s : List Nat)
    (hv : h.value target = some s) (h1 : 1 ≤ bufsize) (hcap : bufsize ≤ buf.length)
    (h64 : bufsize < 2 ^ 64) :
    ∃ buf', copy_to_buffer h target (some buf) bufsize = some buf' ∧
      buf'.length = buf.length ∧
      buf'.take (min s.length (bufsize - 1) + 1) =
        s.take (min s.length (bufsize - 1)) ++ [0] := by
  have hidx : (bufsize + (2 ^ 64 - 1)) % 2 ^ 64 = bufsize - 1 := by omega
  have hn : bufsize - 1 < buf.length := by omega
  obtain ⟨hp, hl⟩ := buffer_prefix buf s (bufsize - 1) hn
  exact ⟨_, copy_to_buffer_some h target bufsize buf s hv _ hidx hn, hl, hp⟩

/-! ## `q_remove_head` and `q_remove_tail` -/

theorem Ring.list_empty_iff {h : Heap} {head : Nat} {l : List Nat} (r : Ring h head l) :
    list_empty h head = true ↔ l = [] := by
  unfold list_empty
  rw [decide_eq_true_iff, r.next_head]
  cases l with
  | nil => simp
  | cons a l =>
    have : a ≠ head := r.ne_head (by simp)
    simp [this]

/-- Effect of `q_remove_head` on a non-empty ring, with a buffer of at least
`bufsize ≥ 1` bytes. -/
theorem q_remove_head_ring (h : Heap) (head x bufsize : Nat) (l buf s : List Nat)
    (r : Ring h head (x :: l)) (hv : h.value x = some s)
    (h1 : 1 ≤ bufsize) (hcap : bufsize ≤ buf.length) (h64 : bufsize < 2 ^ 64) :
    ∃ buf', q_remove_head h head (some buf) bufsize =
        some (list_del_init h x, some buf', x) ∧
      Ring (list_del_init h x) head l ∧
      buf'.length = buf.length ∧
      buf'.take (min s.length (bufsize - 1) + 1) =
        s.take (min s.length (bufsize - 1)) ++ [0] := by
  have hnext : h.next head = x := r.next_head
  have hne : ¬ (head = 0 ∨ list_empty h head = true ∨ (some buf : Option (List Nat)) = none) := by
    rw [r.list_empty_iff]
    simp [r.head_ne_zero]
  obtain ⟨buf', e, hl, hp⟩ := copy_to_buffer_spec (list_del_init h x) x bufsize buf s
    (by rw [list_del_init_value]; exact hv) h1 hcap h64
  refine ⟨buf', ?_, @Ring.list_del_init h head x [] l r, hl, hp⟩
  unfold q_remove_head
  rw [if_neg hne]
  simp only [hnext, e]

/-- Effect of `q_remove_tail` on a non-empty ring, with a buffer of at least
`bufsize ≥ 1` bytes. -/
theorem q_remove_tail_ring (h : Heap) (head x bufsize : Nat) (l buf s : List Nat)
    (r : Ring h head (l ++ [x])) (hv : h.value x = some s)
    (h1 : 1 ≤ bufsize) (hcap : bufsize ≤ buf.length) (h64 : bufsize < 2 ^ 64) :
    ∃ buf', q_remove_tail h head (some buf) bufsize =
        some (list_del_init h x, some buf', x) ∧
      Ring (list_del_init h x) head l ∧
      buf'.length = buf.length ∧
      buf'.take (min s.length (bufsize - 1) + 1) =
        s.take (min s.length (bufsize - 1)) ++ [0] := by
  have hprev : h.prev head = x := by rw [r.prev_head]; simp
  have hne : ¬ (head = 0 ∨ list_empty h head = true ∨ (some buf : Option (List Nat)) = none) := by
    rw [r.list_empty_iff]
    simp [r.head_ne_zero]
  obtain ⟨buf', e, hl, hp⟩ := copy_to_buffer_spec (list_del_init h x) x bufsize buf s
    (by rw [list_del_init_value]; exact hv) h1 hcap h64
  have r' : Ring (list_del_init h x) head (l ++ []) := @Ring.list_del_init h head x l [] r
  rw [List.append_nil] at r'
  refine ⟨buf', ?_, r', hl, hp⟩
  unfold q_remove_tail
  rw [if_neg hne]
  simp only [hprev, e]

/-- C11: on a non-empty ring with payloads, with a non-null buffer of at
least `bufsize ≥ 1` bytes, `q_remove_head` (resp. `q_remove_tail`) returns the
former first (resp. last) element, whose payload is intact and which is still
allocated, leaves the remaining elements in their original order, and leaves
in the buffer exactly the first `min (strlen payload) (bufsize - 1)` bytes of
that payload followed by a null terminator. -/
theorem q_remove_head_tail_spec (h : Heap) (head bufsize : Nat) (l buf : List Nat)
    (r : Ring h head l) (hp : Payloads h l) (hl : l ≠ [])
    (h1 : 1 ≤ bufsize) (hcap : bufsize ≤ buf.length) (h64 : bufsize < 2 ^ 64) :
    (∃ x l' s h' buf', l = x :: l' ∧ h.value x = some s ∧
      q_remove_head h head (some buf) bufsize = some (h', some buf', x) ∧
      Ring h' head l' ∧ h'.value x = some s ∧ h'.live x = true ∧
      h'.value = h.value ∧ h'.live = h.live ∧ buf'.length = buf.length ∧
      buf'.take (min s.length (bufsize - 1) + 1) =
        s.take (min s.length (bufsize - 1)) ++ [0]) ∧
    (∃ x l' s h' buf', l = l' ++ [x] ∧ h.value x = some s ∧
      q_remove_tail h head (some buf) bufsize = some (h', some buf', x) ∧
      Ring h' head l' ∧ h'.value x = some s ∧ h'.live x = true ∧
      h'.value = h.value ∧ h'.live = h.live ∧ buf'.length = buf.length ∧
      buf'.take (min s.length (bufsize - 1) + 1) =
        s.take (min s.length (bufsize - 1)) ++ [0]) := by
  constructor
  · match l, r, hp, hl with
    | x :: l', r, hp, _ =>
      obtain ⟨s, hs⟩ := Option.ne_none_iff_exists'.1 (hp x (by simp))
      obtain ⟨buf', e, r', hlen, hpre⟩ :=
        q_remove_head_ring h head x bufsize l' buf s r hs h1 hcap h64
      exact ⟨x, l', s, _, buf', rfl, hs, e, r', by rw [list_del_init_value]; exact hs,
        by rw [list_del_init_live]; exact r.2.2.1 x (by simp), list_del_init_value h x,
        list_del_init_live h x, hlen, hpre⟩
  · rcases List.eq_nil_or_concat' l with hnil | ⟨l', x, hc⟩
    · exact absurd hnil hl
    · subst hc
      obtain ⟨s, hs⟩ := Option.ne_none_iff_exists'.1 (hp x (by simp))
      obtain ⟨buf', e, r', hlen, hpre⟩ :=
        q_remove_tail_ring h head x bufsize l' buf s r hs h1 hcap h64
      exact ⟨x, l', s, _, buf', rfl, hs, e, r', by rw [list_del_init_value]; exact hs,
        by rw [list_del_init_live]; exact r.2.2.1 x (by simp), list_del_init_value h x,
        list_del_init_live h x, hlen, hpre⟩

theorem q_remove_head_tail_spec_witness :
    Ring (ringOf [[97, 98, 99], [100]]) 1 [2, 3] ∧
    (∃ x l' s h' buf', [2, 3] = x :: l' ∧ (ringOf [[97, 98, 99], [100]]).value x = some s ∧
      q_remove_head (ringOf [[97, 98, 99], [100]]) 1 (some [9, 9, 9]) 3 =
        some (h', some buf', x) ∧
      Ring h' 1 l' ∧ h'.value x = some s ∧ h'.live x = true ∧
      h'.value = (ringOf [[97, 98, 99], [100]]).value ∧
      h'.live = (ringOf [[97, 98, 99], [100]]).live ∧ buf'.length = [9, 9, 9].length ∧
      buf'.take (min s.length (3 - 1) + 1) = s.take (min s.length (3 - 1)) ++ [0]) :=
  ⟨by decide,
    (q_remove_head_tail_spec (ringOf [[97, 98, 99], [100]]) 1 3 [2, 3] [9, 9, 9] (by decide)
      (by decide) (by decide) (by decide) (by decide) (by norm_num)).1⟩

/-- The example of C11, evaluated: removing the head `abc` with a buffer of
three bytes leaves `ab` and a terminator in the buffer. -/
theorem q_remove_head_example :
    ∃ h', q_remove_head (ringOf [[97, 98, 99], [100]]) 1 (some [9, 9, 9]) 3 =
        some (h', some [97, 98, 0], 2) ∧ Ring h' 1 [3] ∧ h'.value 2 = some [97, 98, 99] := by
  refine ⟨_, rfl, ?_, ?_⟩ <;> decide

/-- When the guard of `q_remove_head` fails the call returns `NULL` and
touches nothing; otherwise the returned element, if any, is `head->next`. -/
theorem q_remove_head_cases (h : Heap) (head bufsize : Nat) (sp : Option (List Nat)) :
    ((head = 0 ∨ list_empty h head = true ∨ sp = none) →
      q_remove_head h head sp bufsize = some (h, sp, 0)) ∧
    (¬ (head = 0 ∨ list_empty h head = true ∨ sp = none) →
      ∀ h' sp' x, q_remove_head h head sp bufsize = some (h', sp', x) → x = h.next head) := by
  constructor
  · intro hc
    unfold q_remove_head
    rw [if_pos hc]
  · intro hc h' sp' x
    unfold q_remove_head
    rw [if_neg hc]
    intro e
    cases hcb : copy_to_buffer (list_del_init h (h.next head)) (h.next head) sp bufsize with
    | none => simp [hcb] at e
    | some b =>
      simp only [hcb, Option.some.injEq, Prod.mk.injEq] at e
      exact e.2.2.symm

theorem q_remove_tail_cases (h : Heap) (head bufsize : Nat) (sp : Option (List Nat)) :
    ((head = 0 ∨ list_empty h head = true ∨ sp = none) →
      q_remove_tail h head sp bufsize = some (h, sp, 0)) ∧
    (¬ (head = 0 ∨ list_empty h head = true ∨ sp = none) →
      ∀ h' sp' x, q_remove_tail h head sp bufsize = some (h', sp', x) → x = h.prev head) := by
  constructor
  · intro hc
    unfold q_remove_tail
    rw [if_pos hc]
  · intro hc h' sp' x
    unfold q_remove_tail
    rw [if_neg hc]
    intro e
    cases hcb : copy_to_buffer (list_del_init h (h.prev head)) (h.prev head) sp bufsize with
    | none => simp [hcb] at e
    | some b =>
      simp only [hcb, Option.some.injEq, Prod.mk.injEq] at e
      exact e.2.2.symm

/-- C12: on a null head or a well-formed ring, `q_remove_head` and
`q_remove_tail` return no element (`NULL`) if and only if the head is null,
the ring is empty or the buffer pointer is null; in each of these cases the
memory and the buffer are left as they were, so the ring keeps all its
elements. -/
theorem q_remove_null_iff (h : Heap) (head bufsize : Nat) (l : List Nat)
    (sp : Option (List Nat)) (hr : head = 0 ∨ Ring h head l) :
    ((∃ h' sp', q_remove_head h head sp bufsize = some (h', sp', 0)) ↔
        (head = 0 ∨ (head ≠ 0 ∧ l = []) ∨ sp = none)) ∧
    ((∃ h' sp', q_remove_tail h head sp bufsize = some (h', sp', 0)) ↔
        (head = 0 ∨ (head ≠ 0 ∧ l = []) ∨ sp = none)) ∧
    ((head = 0 ∨ (head ≠ 0 ∧ l = []) ∨ sp = none) →
      q_remove_head h head sp bufsize = some (h, sp, 0) ∧
      q_remove_tail h head sp bufsize = some (h, sp, 0)) := by
  have hcond : (head = 0 ∨ list_empty h head = true ∨ sp = none) ↔
      (head = 0 ∨ (head ≠ 0 ∧ l = []) ∨ sp = none) := by
    rcases hr with h0 | r
    · simp [h0]
    · rw [r.list_empty_iff]
      simp [r.head_ne_zero]
  have hnz : ¬ (head = 0 ∨ list_empty h head = true ∨ sp = none) →
      h.next head ≠ 0 ∧ h.prev head ≠ 0 := by
    intro hc
    rcases hr with h0 | r
    · exact absurd (Or.inl h0) hc
    · have hm : head ∈ head :: l := List.mem_cons_self _ _
      exact ⟨fun e => r.2.1 (e ▸ r.next_mem hm), fun e => r.2.1 (e ▸ r.prev_mem hm)⟩
  refine ⟨⟨?_, ?_⟩, ⟨?_, ?_⟩, ?_⟩
  · rintro ⟨h', sp', e⟩
    by_contra hc
    have hc' := mt hcond.1 hc
    exact (hnz hc').1 ((q_remove_head_cases h head bufsize sp).2 hc' h' sp' 0 e).symm
  · intro hc
    exact ⟨h, sp, (q_remove_head_cases h head bufsize sp).1 (hcond.2 hc)⟩
  · rintro ⟨h', sp', e⟩
    by_contra hc
    have hc' := mt hcond.1 hc
    exact (hnz hc').2 ((q_remove_tail_cases h head bufsize sp).2 hc' h' sp' 0 e).symm
  · intro hc
    exact ⟨h, sp, (q_remove_tail_cases h head bufsize sp).1 (hcond.2 hc)⟩
  · intro hc
    exact ⟨(q_remove_head_cases h head bufsize sp).1 (hcond.2 hc),
      (q_remove_tail_cases h head bufsize sp).1 (hcond.2 hc)⟩

theorem q_remove_null_iff_witness :
    ((1 : Nat) = 0 ∨ Ring (ringOf [[97], [98]]) 1 [2, 3]) ∧
    q_remove_head (ringOf [[97], [98]]) 1 none 4 = some (ringOf [[97], [98]], none, 0) ∧
    q_remove_tail (ringOf [[97], [98]]) 1 none 4 = some (ringOf [[97], [98]], none, 0) :=
  ⟨Or.inr (by decide),
    (q_remove_null_iff (ringOf [[97], [98]]) 1 4 [2, 3] none (Or.inr (by decide))).2.2
      (Or.inr (Or.inr rfl))⟩

/-! ## `q_size` -/

theorem int_of_size_t_of_lt (n : Nat) (hn : n < 2 ^ 31) :
    int_of_size_t (n % 2 ^ 64) = (n : Int) := by
  have h1 : n % 2 ^ 64 = n := Nat.mod_eq_of_lt (by omega)
  have h2 : n % 2 ^ 32 = n := Nat.mod_eq_of_lt (by omega)
  unfold int_of_size_t
  rw [h1, h2, if_pos hn]

theorem q_size_loop_spec (h : Heap) (head : Nat) :
    ∀ (rest : List Nat) (fuel li len : Nat), Seg h.next li rest head → head ∉ rest →
      rest.length + 1 ≤ fuel → len < 2 ^ 64 →
      q_size_loop fuel h head li len = some ((len + rest.length) % 2 ^ 64) := by
  intro rest
  induction rest with
  | nil =>
    intro fuel li len hs _ hf hlen
    obtain ⟨fuel, rfl⟩ : ∃ k, fuel = k + 1 := ⟨fuel - 1, by omega⟩
    have : li = head := hs
    have e : (len + 0) % 2 ^ 64 = len := Nat.mod_eq_of_lt hlen
    rw [List.length_nil, e]
    simp [q_size_loop, this]
  | cons a rest ih =>
    intro fuel li len hs hnh hf hlen
    obtain ⟨fuel, rfl⟩ : ∃ k, fuel = k + 1 := ⟨fuel - 1, by simp at hf; omega⟩
    obtain ⟨hla, hs'⟩ := hs
    subst hla
    have hne : li ≠ head := fun e => hnh (by simp [e])
    rw [q_size_loop, if_pos hne, ih fuel (h.next li) ((len + 1) % 2 ^ 64) hs'
      (fun hm => hnh (List.mem_cons_of_mem _ hm)) (by simp at hf; omega)
      (Nat.mod_lt _ (by norm_num))]
    simp only [List.length_cons]
    congr 1
    omega

theorem q_size_loop_short (h : Heap) (head : Nat) :
    ∀ (rest : List Nat) (fuel li len : Nat), Seg h.next li rest head → head ∉ rest →
      fuel ≤ rest.length → q_size_loop fuel h head li len = none := by
  intro rest
  induction rest with
  | nil =>
    intro fuel li len _ _ hf
    obtain rfl : fuel = 0 := by simpa using hf
    rw [q_size_loop]
  | cons a rest ih =>
    intro fuel li len hs hnh hf
    cases fuel with
    | zero => rw [q_size_loop]
    | succ fuel =>
      obtain ⟨hla, hs'⟩ := hs
      subst hla
      have hne : li ≠ head := fun e => hnh (by simp [e])
      rw [q_size_loop, if_pos hne]
      exact ih fuel _ _ hs' (fun hm => hnh (List.mem_cons_of_mem _ hm))
        (by simp only [List.length_cons] at hf; omega)

/-- With too little fuel the loop of `q_size` does not finish. -/
theorem q_size_short (h : Heap) (head fuel : Nat) (l : List Nat)
    (r : Ring h head l) (hf : fuel ≤ l.length) : q_size fuel h head = none := by
  unfold q_size
  rw [if_neg r.head_ne_zero, q_size_loop_short h head l fuel (h.next head) 0 r.seg.2
    (List.nodup_cons.1 r.1).1 hf]

/-- On a well-formed ring `q_size` returns the number of elements of the
forward traversal, counted in `size_t` and converted to `int`. -/
theorem q_size_ring (h : Heap) (head fuel : Nat) (l : List Nat)
    (r : Ring h head l) (hf : l.length + 1 ≤ fuel) :
    q_size fuel h head = some (int_of_size_t (l.length % 2 ^ 64)) := by
  unfold q_size
  rw [if_neg r.head_ne_zero, q_size_loop_spec h head l fuel (h.next head) 0 r.seg.2
    (List.nodup_cons.1 r.1).1 hf (by norm_num)]
  simp only [Nat.zero_add]

/-- On a well-formed ring of at most `INT_MAX` elements `q_size` returns the
number of elements of the forward traversal. -/
theorem q_size_ring_small (h : Heap) (head fuel : Nat) (l : List Nat)
    (r : Ring h head l) (hf : l.length + 1 ≤ fuel) (hint : l.length < 2 ^ 31) :
    q_size fuel h head = some (l.length : Int) := by
  rw [q_size_ring h head fuel l r hf, int_of_size_t_of_lt _ hint]

/-- On a ring of `2 ^ 31` elements `q_size` returns `INT_MIN`. -/
theorem q_size_ring_big (h : Heap) (head fuel : Nat) (l : List Nat)
    (r : Ring h head l) (hf : l.length + 1 ≤ fuel) (hlen : l.length = 2 ^ 31) :
    q_size fuel h head = some (-2147483648) := by
  rw [q_size_ring h head fuel l r hf, hlen]
  rfl

/-- C14, as stated, fails on large rings, because `q_size` returns its count
as an `int`: on the ring of `2 ^ 31` elements it returns `-2147483648`, and on
the ring of `2 ^ 31 - 1` elements it returns `2147483647` but, after a
successful `q_insert_head`, `-2147483648` and not the prior size plus one. -/
theorem q_size_int_counterexample :
    (Ring (ringOf (List.replicate (2 ^ 31) [97])) 1 (List.range' 2 (2 ^ 31)) ∧
      q_size (2 ^ 31 + 1) (ringOf (List.replicate (2 ^ 31) [97])) 1 = some (-2147483648)) ∧
    (Ring (ringOf (List.replicate (2 ^ 31 - 1) [97])) 1 (List.range' 2 (2 ^ 31 - 1)) ∧
      q_size (2 ^ 31 + 1) (ringOf (List.replicate (2 ^ 31 - 1) [97])) 1 = some 2147483647 ∧
      (q_insert_head (ringOf (List.replicate (2 ^ 31 - 1) [97])) 1 [98] (2 ^ 31 + 1) true).2 =
        true ∧
      q_size (2 ^ 31 + 1)
        (q_insert_head (ringOf (List.replicate (2 ^ 31 - 1) [97])) 1 [98] (2 ^ 31 + 1) true).1
        1 = some (-2147483648)) := by
  have ra := (ringOf_fold (List.replicate (2 ^ 31) [97])).2.1
  have rb := (ringOf_fold (List.replicate (2 ^ 31 - 1) [97])).2.1
  have hfresh := (ringOf_fold (List.replicate (2 ^ 31 - 1) [97])).2.2.2 (2 ^ 31 + 1)
    (by rw [List.length_replicate]; norm_num)
  rw [List.length_replicate] at ra rb
  have la : (List.range' 2 (2 ^ 31)).length = 2 ^ 31 := List.length_range' _ _ _
  have lb : (List.range' 2 (2 ^ 31 - 1)).length = 2 ^ 31 - 1 := List.length_range' _ _ _
  obtain ⟨c1, c2, _, _⟩ := q_insert_head_ring _ 1 (2 ^ 31 + 1) _ [98] rb (by norm_num) hfresh
  refine ⟨⟨ra, ?_⟩, rb, ?_, c1, ?_⟩
  · exact q_size_ring_big _ 1 _ _ ra (by rw [la]) la
  · rw [q_size_ring_small _ 1 _ _ rb (by rw [lb]; norm_num) (by rw [lb]; norm_num), lb]
    rfl
  · exact q_size_ring_big _ 1 _ _ c2 (by rw [List.length_cons, lb]; norm_num)
      (by rw [List.length_cons, lb]; norm_num)

/-- C14, amended: `q_size` returns 0 for a null head and for an empty ring,
and on a well-formed ring of at most `2 ^ 31 - 1` elements the number of
elements of the forward traversal, the head excluded; after a successful
`q_insert_head` or `q_insert_tail` that leaves at most `2 ^ 31 - 1` elements it
is the prior size plus one, and after a successful `q_remove_head` or
`q_remove_tail` the prior size minus one. -/
theorem q_size_spec (h : Heap) (head fuel ne bufsize : Nat) (l s buf : List Nat)
    (r : Ring h head l) (hp : Payloads h l) (hf : l.length + 2 ≤ fuel)
    (hint : l.length < 2 ^ 31)
    (hne : ne ≠ 0) (hfresh : h.live ne = false)
    (h1 : 1 ≤ bufsize) (hcap : bufsize ≤ buf.length) (h64 : bufsize < 2 ^ 64) :
    q_size fuel h 0 = some 0 ∧ (l = [] → q_size fuel h head = some 0) ∧
    q_size fuel h head = some (l.length : Int) ∧
    (l.length + 1 < 2 ^ 31 →
      ((q_insert_head h head s ne true).2 = true ∧
        q_size fuel (q_insert_head h head s ne true).1 head = some ((l.length : Int) + 1)) ∧
      ((q_insert_tail h head s ne true).2 = true ∧
        q_size fuel (q_insert_tail h head s ne true).1 head = some ((l.length : Int) + 1))) ∧
    (l ≠ [] →
      (∃ h' sp' x, q_remove_head h head (some buf) bufsize = some (h', sp', x) ∧ x ≠ 0 ∧
        q_size fuel h' head = some ((l.length : Int) - 1)) ∧
      (∃ h' sp' x, q_remove_tail h head (some buf) bufsize = some (h', sp', x) ∧ x ≠ 0 ∧
        q_size fuel h' head = some ((l.length : Int) - 1))) := by
  have hsz := q_size_ring_small h head fuel l r (by omega) hint
  obtain ⟨a1, a2, _, _⟩ := q_insert_head_ring h head ne l s r hne hfresh
  obtain ⟨b1, b2, _, _⟩ := q_insert_tail_ring h head ne l s r hne hfresh
  refine ⟨by simp [q_size], fun e => by rw [hsz, e]; rfl, hsz, fun hi => ⟨⟨a1, ?_⟩, ⟨b1, ?_⟩⟩,
    ?_⟩
  · rw [q_size_ring_small _ head fuel (ne :: l) a2 (by simp only [List.length_cons]; omega)
      (by simp only [List.length_cons]; omega)]
    simp only [List.length_cons]
    congr 1
  · rw [q_size_ring_small _ head fuel (l ++ [ne]) b2 (by simp; omega) (by simp; omega)]
    congr 1
    simp
  · intro hl
    constructor
    · match l, r, hp, hl, hf, hint with
      | x :: l', r, hp, _, hf, hint =>
        obtain ⟨t, ht⟩ := Option.ne_none_iff_exists'.1 (hp x (by simp))
        obtain ⟨buf', e, r', _, _⟩ :=
          q_remove_head_ring h head x bufsize l' buf t r ht h1 hcap h64
        refine ⟨_, _, x, e, r.ne_zero (by simp), ?_⟩
        rw [q_size_ring_small _ head fuel l' r'
          (by simp only [List.length_cons] at hf; omega)
          (by simp only [List.length_cons] at hint; omega)]
        congr 1
        simp
    · rcases List.eq_nil_or_concat' l with hnil | ⟨l', x, hc⟩
      · exact absurd hnil hl
      · subst hc
        obtain ⟨t, ht⟩ := Option.ne_none_iff_exists'.1 (hp x (by simp))
        obtain ⟨buf', e, r', _, _⟩ :=
          q_remove_tail_ring h head x bufsize l' buf t r ht h1 hcap h64
        refine ⟨_, _, x, e, r.ne_zero (by simp), ?_⟩
        rw [q_size_ring_small _ head fuel l' r' (by simp at hf; omega) (by simp at hint; omega)]
        congr 1
        simp

theorem q_size_spec_witness :
    Ring (ringOf [[97], [98]]) 1 [2, 3] ∧ Payloads (ringOf [[97], [98]]) [2, 3] ∧
    (ringOf [[97], [98]]).live 4 = false ∧
    q_size 4 (ringOf [[97], [98]]) 1 = some (([2, 3] : List Nat).length : Int) ∧
    q_size 4 (q_insert_head (ringOf [[97], [98]]) 1 [99] 4 true).1 1 =
      some ((([2, 3] : List Nat).length : Int) + 1) :=
  ⟨by decide, by decide, by decide,
    (q_size_spec (ringOf [[97], [98]]) 1 4 4 3 [2, 3] [99] [0, 0, 0] (by decide) (by decide)
      (by decide) (by decide) (by decide) (by decide) (by decide) (by decide)
      (by norm_num)).2.2.1,
    ((q_size_spec (ringOf [[97], [98]]) 1 4 4 3 [2, 3] [99] [0, 0, 0] (by decide) (by decide)
      (by decide) (by decide) (by decide) (by decide) (by decide) (by decide)
      (by norm_num)).2.2.2.1 (by decide)).1.2⟩

/-- C13: on a well-formed ring, with the allocations succeeding and a buffer
longer than `s`, `q_insert_head` followed by `q_remove_head`, and
`q_insert_tail` followed by `q_remove_tail`, give back the inserted element,
whose payload is `s`, leave `s` and a terminator in the buffer, and leave the
traversal, the payloads and the size of the ring as they were before the
insertion. -/
theorem q_insert_remove_roundtrip (h : Heap) (head ne bufsize fuel : Nat) (l s buf : List Nat)
    (r : Ring h head l) (hne : ne ≠ 0) (hfresh : h.live ne = false)
    (hb : s.length < bufsize) (hcap : bufsize ≤ buf.length) (h64 : bufsize < 2 ^ 64)
    (hf : l.length + 1 ≤ fuel) :
    (∃ h' buf', q_remove_head (q_insert_head h head s ne true).1 head (some buf) bufsize =
        some (h', some buf', ne) ∧
      h'.value ne = some s ∧ buf'.take (s.length + 1) = s ++ [0] ∧
      Ring h' head l ∧ payloads h' l = payloads h l ∧
      q_size fuel h' head = q_size fuel h head) ∧
    (∃ h' buf', q_remove_tail (q_insert_tail h head s ne true).1 head (some buf) bufsize =
        some (h', some buf', ne) ∧
      h'.value ne = some s ∧ buf'.take (s.length + 1) = s ++ [0] ∧
      Ring h' head l ∧ payloads h' l = payloads h l ∧
      q_size fuel h' head = q_size fuel h head) := by
  have hnl : ne ∉ l := fun hm =>
    r.not_mem_of_not_live hfresh (List.mem_cons_of_mem _ hm)
  have hmin : min s.length (bufsize - 1) = s.length := by
    apply Nat.min_eq_left; omega
  have hsz := q_size_ring h head fuel l r hf
  obtain ⟨_, a2, a3, _⟩ := q_insert_head_ring h head ne l s r hne hfresh
  obtain ⟨_, b2, b3, _⟩ := q_insert_tail_ring h head ne l s r hne hfresh
  constructor
  · obtain ⟨buf', e, r', _, hpre⟩ := q_remove_head_ring _ head ne bufsize l buf s a2
      (by rw [a3, if_pos rfl]) (by omega) hcap h64
    rw [hmin, List.take_of_length_le (le_refl _)] at hpre
    refine ⟨_, buf', e, ?_, hpre, r', ?_, ?_⟩
    · rw [list_del_init_value, a3, if_pos rfl]
    · exact payloads_of_value_ite (fun x => by rw [list_del_init_value]; exact a3 x) hnl
    · rw [hsz, q_size_ring _ head fuel l r' hf]
  · obtain ⟨buf', e, r', _, hpre⟩ := q_remove_tail_ring _ head ne bufsize l buf s b2
      (by rw [b3, if_pos rfl]) (by omega) hcap h64
    rw [hmin, List.take_of_length_le (le_refl _)] at hpre
    refine ⟨_, buf', e, ?_, hpre, r', ?_, ?_⟩
    · rw [list_del_init_value, b3, if_pos rfl]
    · exact payloads_of_value_ite (fun x => by rw [list_del_init_value]; exact b3 x) hnl
    · rw [hsz, q_size_ring _ head fuel l r' hf]

theorem q_insert_remove_roundtrip_witness :
    Ring (ringOf [[97], [98]]) 1 [2, 3] ∧ (ringOf [[97], [98]]).live 4 = false ∧
    (∃ h' buf', q_remove_head (q_insert_head (ringOf [[97], [98]]) 1 [99, 100] 4 true).1 1
          (some [9, 9, 9]) 3 = some (h', some buf', 4) ∧
      h'.value 4 = some [99, 100] ∧ buf'.take ([99, 100].length + 1) = [99, 100] ++ [0] ∧
      Ring h' 1 [2, 3] ∧ payloads h' [2, 3] = payloads (ringOf [[97], [98]]) [2, 3] ∧
      q_size 3 h' 1 = q_size 3 (ringOf [[97], [98]]) 1) :=
  ⟨by decide, by decide,
    (q_insert_remove_roundtrip (ringOf [[97], [98]]) 1 4 3 3 [2, 3] [99, 100] [9, 9, 9]
      (by decide) (by decide) (by decide) (by decide) (by decide) (by norm_num)
      (by decide)).1⟩

/-! ## `q_shuffle` -/

/-- Walking `x` links from the start of a path reaches its element of index
`x`. -/
theorem q_shuffle_walk_spec (h : Heap) : ∀ (x : Nat) (l : List Nat) (it q : Nat),
    Seg h.next it l q → x < l.length → l[x]? = some (q_shuffle_walk x h it) := by
  intro x
  induction x with
  | zero =>
    intro l it q hs hx
    match l, hs, hx with
    | a :: l, hs, _ => simp [q_shuffle_walk, hs.1]
  | succ x ih =>
    intro l it q hs hx
    match l, hs, hx with
    | a :: l, hs, hx =>
      obtain ⟨hia, hs'⟩ := hs
      subst hia
      rw [List.getElem?_cons_succ, q_shuffle_walk]
      exact ih l (h.next it) q hs' (by simpa using hx)

theorem shuffleSpec_perm (rnd : Nat → Nat) : ∀ (window k : Nat) (l : List Nat),
    (shuffleSpec rnd window k l).Perm l := by
  intro window
  induction window with
  | zero => intro k l; exact List.Perm.refl _
  | succ window ih =>
    intro k l
    rw [shuffleSpec]
    cases hx : l[rnd k % (window + 1)]? with
    | none => exact List.Perm.refl _
    | some it =>
      obtain ⟨l₁, l₂, hdec, hlen⟩ := getElem?_decomp l _ it hx
      refine (ih (k + 1) _).trans ?_
      rw [hdec, ← hlen, List.eraseIdx_append_of_length_le (le_refl _)]
      simp only [Nat.sub_self, List.eraseIdx_cons_zero]
      exact (@List.perm_middle Nat it l₁ l₂).symm

theorem q_shuffle_loop_zero (fuel : Nat) (h : Heap) (head : Nat) (rnd : Nat → Nat) (k : Nat) :
    q_shuffle_loop (fuel + 1) h head rnd k 0 = some h := by
  rw [q_shuffle_loop, if_pos rfl]

/-- One turn of the loop on a positive window. -/
theorem q_shuffle_loop_succ (fuel : Nat) (h : Heap) (head : Nat) (rnd : Nat → Nat)
    (k window : Nat) :
    q_shuffle_loop (fuel + 1) h head rnd k ((window + 1 : Nat) : Int) =
      q_shuffle_loop fuel
        (list_add (list_del_init h (q_shuffle_walk (rnd k % (window + 1)) h (h.next head)))
          (q_shuffle_walk (rnd k % (window + 1)) h (h.next head)) head)
        head rnd (k + 1) (window : Int) := by
  have h0 : ((window + 1 : Nat) : Int) ≠ 0 := by omega
  have hx : (Int.tmod ((rnd k : Nat) : Int) ((window + 1 : Nat) : Int)).toNat =
      rnd k % (window + 1) := by
    rw [← Int.ofNat_tmod]
    exact Int.toNat_ofNat _
  have hd : ((window + 1 : Nat) : Int) - 1 = (window : Int) := by omega
  have hov : ¬ ((window : Int) < -2147483648) := by omega
  rw [q_shuffle_loop, if_neg h0]
  simp only [hx, hd, if_neg hov]

/-- A negative window never reaches zero: the loop ends in the overflow of
`--window`, whatever the fuel. -/
theorem q_shuffle_loop_neg (head : Nat) (rnd : Nat → Nat) :
    ∀ (fuel : Nat) (h : Heap) (k : Nat) (window : Int), window < 0 →
      q_shuffle_loop fuel h head rnd k window = none := by
  intro fuel
  induction fuel with
  | zero => intro h k window _; rw [q_shuffle_loop]
  | succ fuel ih =>
    intro h k window hw
    have h0 : window ≠ 0 := by omega
    rw [q_shuffle_loop, if_neg h0]
    simp only
    by_cases hov : window - 1 < -2147483648
    · rw [if_pos hov]
    · rw [if_neg hov]
      exact ih _ _ _ (by omega)

theorem q_shuffle_loop_spec (head : Nat) (rnd : Nat → Nat) :
    ∀ (window fuel : Nat) (h : Heap) (k : Nat) (l : List Nat),
      Ring h head l → window ≤ l.length → window + 1 ≤ fuel →
      ∃ h', q_shuffle_loop fuel h head rnd k (window : Int) = some h' ∧
        Ring h' head (shuffleSpec rnd window k l) ∧ h'.value = h.value ∧ h'.live = h.live := by
  intro window
  induction window with
  | zero =>
    intro fuel h k l r _ hf
    obtain ⟨fuel, rfl⟩ : ∃ f, fuel = f + 1 := ⟨fuel - 1, by omega⟩
    exact ⟨h, q_shuffle_loop_zero fuel h head rnd k, r, rfl, rfl⟩
  | succ window ih =>
    intro fuel h k l r hw hf
    obtain ⟨fuel, rfl⟩ : ∃ f, fuel = f + 1 := ⟨fuel - 1, by omega⟩
    have hx : rnd k % (window + 1) < l.length :=
      lt_of_lt_of_le (Nat.mod_lt _ (Nat.succ_pos _)) hw
    have hget := q_shuffle_walk_spec h (rnd k % (window + 1)) l (h.next head) head r.seg.2 hx
    obtain ⟨l₁, l₂, hdec, hlen⟩ := getElem?_decomp l _ _ hget
    rw [q_shuffle_loop_succ]
    generalize hit : q_shuffle_walk (rnd k % (window + 1)) h (h.next head) = it at hget hdec ⊢
    have r₀ : Ring h head (l₁ ++ it :: l₂) := by rw [← hdec]; exact r
    have r₁ : Ring (list_del_init h it) head (l₁ ++ l₂) := r₀.list_del_init
    have hnm : it ∉ head :: (l₁ ++ l₂) := by
      have : (head :: (l₁ ++ it :: l₂)).Perm (it :: head :: (l₁ ++ l₂)) := by
        rw [← List.cons_append, ← List.cons_append]
        exact List.perm_middle
      exact (List.nodup_cons.1 (this.nodup_iff.1 r₀.1)).1
    have r₂ : Ring (list_add (list_del_init h it) it head) head (it :: (l₁ ++ l₂)) :=
      @Ring.list_add (list_del_init h it) head it head (l₁ ++ l₂) (it :: (l₁ ++ l₂)) []
        (l₁ ++ l₂) r₁ rfl hnm (r₀.ne_zero (by simp))
        (by rw [list_del_init_live]; exact r₀.2.2.1 it (by simp)) rfl
    have herase : l.eraseIdx (rnd k % (window + 1)) = l₁ ++ l₂ := by
      rw [hdec, ← hlen, List.eraseIdx_append_of_length_le (le_refl _)]
      simp
    obtain ⟨h', e0, e1, e2, e3⟩ := ih fuel (list_add (list_del_init h it) it head) (k + 1)
      (it :: (l₁ ++ l₂)) r₂ (by
        have := congrArg List.length hdec
        simp only [List.length_append, List.length_cons] at this ⊢
        omega) (by omega)
    refine ⟨h', e0, ?_, by rw [e2]; simp, by rw [e3]; simp⟩
    rw [shuffleSpec, hget, herase]
    exact e1

/-- On a ring of at least two elements the fast-path guard of `q_shuffle`
fails. -/
theorem Ring.large_guard {h : Heap} {head : Nat} {l : List Nat} (r : Ring h head l)
    (hn : 2 ≤ l.length) :
    ¬ (head = 0 ∨ list_empty h head = true ∨ list_is_singular h head = true) := by
  match l, r, hn with
  | a :: b :: l, r, _ =>
    have h1 : h.next head = a := r.next_head
    have hah : a ≠ head := r.ne_head (by simp)
    have hbh : b ≠ head := r.ne_head (by simp)
    have hab : h.next a = b := @Ring.next_eq h head [] (b :: l) a r
    have h2 : h.prev head ≠ a := by
      intro e
      have := r.next_prev (List.mem_cons_self head _)
      rw [e, hab] at this
      exact hbh this
    simp [list_empty, list_is_singular, r.head_ne_zero, h1, hah, h2]

/-- Effect of `q_shuffle` on a ring of at least two and at most `INT_MAX`
elements. -/
theorem q_shuffle_ring (h : Heap) (head fuel : Nat) (rnd : Nat → Nat) (l : List Nat)
    (r : Ring h head l) (hn : 2 ≤ l.length) (hf : l.length + 1 ≤ fuel)
    (hint : l.length < 2 ^ 31) :
    ∃ h', q_shuffle fuel h head rnd = some (h', true) ∧
      Ring h' head (shuffleSpec rnd l.length 0 l) ∧ h'.value = h.value ∧ h'.live = h.live := by
  obtain ⟨h', e0, e1, e2, e3⟩ := q_shuffle_loop_spec head rnd l.length fuel h 0 l r (le_refl _) hf
  refine ⟨h', ?_, e1, e2, e3⟩
  unfold q_shuffle
  rw [if_neg (r.large_guard hn), q_size_ring_small h head fuel l r hf hint]
  simp only [e0]

/-- On a ring of `2 ^ 31` elements the window of `q_shuffle` is `INT_MIN` and
the first `--window` overflows: no fuel yields a result. -/
theorem q_shuffle_big (h : Heap) (head fuel : Nat) (rnd : Nat → Nat) (l : List Nat)
    (r : Ring h head l) (hlen : l.length = 2 ^ 31) :
    q_shuffle fuel h head rnd = none := by
  unfold q_shuffle
  rw [if_neg (r.large_guard (by rw [hlen]; norm_num))]
  by_cases hf : l.length + 1 ≤ fuel
  · rw [q_size_ring_big h head fuel l r hf hlen]
    simp only [q_shuffle_loop_neg head rnd fuel h 0 (-2147483648) (by norm_num)]
  · rw [q_size_short h head fuel l r (by omega)]

/-- C15, as stated, fails on large rings, because the window of `q_shuffle`
is the `int` returned by `q_size`: on the ring of `2 ^ 31` elements the window
is `-2147483648`, it never reaches zero and its first decrement overflows, so
that the call yields no result whatever the draws and the fuel. -/
theorem q_shuffle_int_counterexample :
    Ring (ringOf (List.replicate (2 ^ 31) [97])) 1 (List.range' 2 (2 ^ 31)) ∧
    2 ≤ (List.range' 2 (2 ^ 31)).length ∧
    q_size (2 ^ 31 + 1) (ringOf (List.replicate (2 ^ 31) [97])) 1 = some (-2147483648) ∧
    ∀ (fuel : Nat) (rnd : Nat → Nat),
      q_shuffle fuel (ringOf (List.replicate (2 ^ 31) [97])) 1 rnd = none := by
  have ra := (ringOf_fold (List.replicate (2 ^ 31) [97])).2.1
  rw [List.length_replicate] at ra
  have la : (List.range' 2 (2 ^ 31)).length = 2 ^ 31 := List.length_range' _ _ _
  exact ⟨ra, by rw [la]; norm_num, q_size_ring_big _ 1 _ _ ra (by rw [la]) la,
    fun fuel rnd => q_shuffle_big _ 1 fuel rnd _ ra la⟩

/-- C15, amended: on a ring with at least two and at most `2 ^ 31 - 1`
elements, for every sequence of values returned by the pseudo-random source,
`q_shuffle` returns true and the resulting traversal is a permutation of the
original one: the same element nodes, the same multiset of payloads, the same
size, nothing allocated or released. -/
theorem q_shuffle_permutes (h : Heap) (head fuel : Nat) (rnd : Nat → Nat) (l : List Nat)
    (r : Ring h head l) (hn : 2 ≤ l.length) (hf : l.length + 1 ≤ fuel)
    (hint : l.length < 2 ^ 31) :
    ∃ h' l', q_shuffle fuel h head rnd = some (h', true) ∧ Ring h' head l' ∧
      l'.Perm l ∧ (payloads h' l').Perm (payloads h l) ∧ l'.length = l.length ∧
      h'.value = h.value ∧ h'.live = h.live := by
  obtain ⟨h', e, r', hv, hl⟩ := q_shuffle_ring h head fuel rnd l r hn hf hint
  have hperm := shuffleSpec_perm rnd l.length 0 l
  refine ⟨h', _, e, r', hperm, ?_, hperm.length_eq, hv, hl⟩
  unfold payloads
  rw [key_eq_of_value hv]
  exact hperm.map _

theorem q_shuffle_permutes_witness :
    Ring (ringOf [[97], [98], [99]]) 1 [2, 3, 4] ∧
    ∃ h' l', q_shuffle 4 (ringOf [[97], [98], [99]]) 1 (fun k => 5 * k + 2) = some (h', true) ∧
      Ring h' 1 l' ∧ l'.Perm [2, 3, 4] ∧
      (payloads h' l').Perm (payloads (ringOf [[97], [98], [99]]) [2, 3, 4]) ∧
      l'.length = [2, 3, 4].length ∧
      h'.value = (ringOf [[97], [98], [99]]).value ∧
      h'.live = (ringOf [[97], [98], [99]]).live :=
  ⟨by decide, q_shuffle_permutes (ringOf [[97], [98], [99]]) 1 4 (fun k => 5 * k + 2)
    [2, 3, 4] (by decide) (by decide) (by decide) (by decide)⟩

/-- The forward traversal of a ring is determined by the memory. -/
theorem seg_unique {f : Nat → Nat} {q : Nat} : ∀ (l l' : List Nat) (p : Nat),
    Seg f p l q → Seg f p l' q → q ∉ l → q ∉ l' → l = l' := by
  intro l
  induction l with
  | nil =>
    intro l' p hs hs' _ hq'
    cases l' with
    | nil => rfl
    | cons b l' =>
      have h1 : p = q := hs
      have h2 : p = b := hs'.1
      exact absurd (by rw [← h1, h2]; simp) hq'
  | cons a l ih =>
    intro l' p hs hs' hq hq'
    cases l' with
    | nil =>
      have h1 : p = q := hs'
      have h2 : p = a := hs.1
      exact absurd (by rw [← h1, h2]; simp) hq
    | cons b l' =>
      have hab : a = b := hs.1.symm.trans hs'.1
      subst hab
      rw [ih l' (f a) hs.2 hs'.2 (fun hm => hq (List.mem_cons_of_mem _ hm))
        (fun hm => hq' (List.mem_cons_of_mem _ hm))]

theorem Ring.unique {h : Heap} {head : Nat} {l l' : List Nat}
    (r : Ring h head l) (r' : Ring h head l') : l = l' :=
  seg_unique l l' (h.next head) r.seg.2 r'.seg.2 (List.nodup_cons.1 r.1).1
    (List.nodup_cons.1 r'.1).1

/-- Whatever the draws, `q_shuffle` never turns `[a, b, c]` into `[b, c, a]`. -/
theorem shuffleSpec_three (rnd : Nat → Nat) (a b c : Nat) :
    shuffleSpec rnd 3 0 [a, b, c] = [a, b, c] ∨ shuffleSpec rnd 3 0 [a, b, c] = [b, a, c] ∨
    shuffleSpec rnd 3 0 [a, b, c] = [c, a, b] ∨ shuffleSpec rnd 3 0 [a, b, c] = [a, c, b] := by
  have h0 : rnd 0 % 3 < 3 := Nat.mod_lt _ (by decide)
  have h1 : rnd 1 % 2 < 2 := Nat.mod_lt _ (by decide)
  have h2 : rnd 2 % 1 = 0 := Nat.mod_one _
  simp only [shuffleSpec, h2]
  generalize rnd 0 % 3 = x0 at h0
  generalize rnd 1 % 2 = x1 at h1
  interval_cases x0 <;> interval_cases x1 <;> simp

/-- C16: the shuffle is not uniform.  On the ring of three elements at
addresses `2, 3, 4` the draws `(0, 0, 0)` and `(1, 1, 0)` both give back the
original order, and no sequence of draws produces the order `3, 4, 2`: the
map from the `3!` draw sequences to traversals is neither injective nor onto
the permutations. -/
theorem q_shuffle_not_uniform :
    Ring (ringOf [[97], [98], [99]]) 1 [2, 3, 4] ∧
    (∃ h₁ h₂,
      q_shuffle 4 (ringOf [[97], [98], [99]]) 1 (fun k => [0, 0, 0].getD k 0) =
        some (h₁, true) ∧
      q_shuffle 4 (ringOf [[97], [98], [99]]) 1 (fun k => [1, 1, 0].getD k 0) =
        some (h₂, true) ∧
      Ring h₁ 1 [2, 3, 4] ∧ Ring h₂ 1 [2, 3, 4]) ∧
    ∀ (rnd : Nat → Nat) (h' : Heap),
      q_shuffle 4 (ringOf [[97], [98], [99]]) 1 rnd = some (h', true) →
      ¬ Ring h' 1 [3, 4, 2] := by
  have r : Ring (ringOf [[97], [98], [99]]) 1 [2, 3, 4] := by decide
  refine ⟨r, ⟨_, _, rfl, rfl, by decide, by decide⟩, ?_⟩
  intro rnd h' e hr
  obtain ⟨h'', e', r', _, _⟩ := q_shuffle_ring _ 1 4 rnd [2, 3, 4] r (by decide) (by decide)
    (by decide)
  rw [e] at e'
  have hh : h' = h'' := by
    simp only [Option.some.injEq, Prod.mk.injEq, and_true] at e'
    exact e'
  subst hh
  have hu := r'.unique hr
  have h3 : ([2, 3, 4] : List Nat).length = 3 := rfl
  rw [h3] at hu
  rcases shuffleSpec_three rnd 2 3 4 with h4 | h4 | h4 | h4 <;>
  · rw [h4] at hu
    exact absurd hu (by decide)

/-! ## Fast paths -/

/-- On an empty or singleton ring the guard shared by `q_delete_dup`,
`q_swap`, `q_sort` and `q_shuffle` holds. -/
theorem Ring.small_guard {h : Heap} {head : Nat} {l : List Nat} (r : Ring h head l)
    (hl : l.length ≤ 1) :
    head = 0 ∨ list_empty h head = true ∨ list_is_singular h head = true := by
  match l, r, hl with
  | [], r, _ =>
    have : h.next head = head := r.next_head
    simp [list_empty, this]
  | [a], r, _ =>
    have h1 : h.next head = a := r.next_head
    have h2 : h.prev head = a := r.prev_head
    have hah : a ≠ head := r.ne_head (by simp)
    simp [list_empty, list_is_singular, h1, h2, hah]

/-- C17: given a null head, `q_insert_head`, `q_insert_tail`, `q_delete_mid`,
`q_delete_dup` and `q_shuffle` return false, `q_remove_head` and
`q_remove_tail` return no element and `q_size` returns 0, all leaving the
memory untouched; given an empty or singleton ring, `q_delete_dup` and
`q_shuffle` return false and `q_swap`, `q_sort`, `q_delete_dup` and
`q_shuffle` (and `q_reverse` on an empty ring) leave the memory, hence the
links and the traversal of the ring, unmodified. -/
theorem fast_paths (h : Heap) (head fuel ne bufsize : Nat) (buf : Bool) (s l : List Nat)
    (sp : Option (List Nat)) (rnd : Nat → Nat) (r : Ring h head l) (hl : l.length ≤ 1) :
    (q_insert_head h 0 s ne buf = (h, false) ∧ q_insert_tail h 0 s ne buf = (h, false) ∧
      q_delete_mid fuel h 0 = some (h, false) ∧ q_delete_dup fuel h 0 = some (h, false) ∧
      q_shuffle fuel h 0 rnd = some (h, false) ∧
      q_remove_head h 0 sp bufsize = some (h, sp, 0) ∧
      q_remove_tail h 0 sp bufsize = some (h, sp, 0) ∧ q_size fuel h 0 = some 0) ∧
    (q_delete_dup fuel h head = some (h, false) ∧ q_shuffle fuel h head rnd = some (h, false) ∧
      q_swap fuel h head = some h ∧ q_sort fuel h head = some h ∧
      (l = [] → q_reverse fuel h head = some h)) := by
  have hg := r.small_guard hl
  refine ⟨⟨by simp [q_insert_head], by simp [q_insert_tail], by simp [q_delete_mid],
    by simp [q_delete_dup], by simp [q_shuffle], by simp [q_remove_head],
    by simp [q_remove_tail], by simp [q_size]⟩, ?_, ?_, ?_, ?_, ?_⟩
  · unfold q_delete_dup; rw [if_pos hg]
  · unfold q_shuffle; rw [if_pos hg]
  · unfold q_swap; rw [if_pos hg]
  · unfold q_sort; rw [if_pos hg]
  · intro hnil
    have : list_empty h head = true := r.list_empty_iff.2 hnil
    unfold q_reverse
    rw [if_pos (Or.inr this)]

theorem fast_paths_witness :
    Ring (ringOf [[97]]) 1 [2] ∧
    q_delete_dup 0 (ringOf [[97]]) 1 = some (ringOf [[97]], false) ∧
    q_shuffle 0 (ringOf [[97]]) 1 (fun k => k) = some (ringOf [[97]], false) ∧
    q_swap 0 (ringOf [[97]]) 1 = some (ringOf [[97]]) ∧
    q_sort 0 (ringOf [[97]]) 1 = some (ringOf [[97]]) :=
  ⟨by decide,
    (fast_paths (ringOf [[97]]) 1 0 5 3 true [98] [2] none (fun k => k) (by decide)
      (by decide)).2.1,
    (fast_paths (ringOf [[97]]) 1 0 5 3 true [98] [2] none (fun k => k) (by decide)
      (by decide)).2.2.1,
    (fast_paths (ringOf [[97]]) 1 0 5 3 true [98] [2] none (fun k => k) (by decide)
      (by decide)).2.2.2.1,
    (fast_paths (ringOf [[97]]) 1 0 5 3 true [98] [2] none (fun k => k) (by decide)
      (by decide)).2.2.2.2.1⟩

/-! ## Order of equal payloads in the merge -/

/-- Effect of `__q_merge` on two disjoint null-terminated chains with
payloads: the output chain lists the nodes in the order `mergeSpec`. -/
theorem q_merge_chain (h : Heap) (fuel left right : Nat) (ll lr : List Nat)
    (hsl : Seg h.next left ll 0) (hsr : Seg h.next right lr 0) (hnd : (ll ++ lr).Nodup)
    (h0 : 0 ∉ ll ++ lr) (hp : Payloads h (ll ++ lr)) (hf : ll.length + lr.length + 1 ≤ fuel) :
    ∃ h' hd, __q_merge fuel h left right = some (h', hd) ∧
      Seg h'.next hd (mergeSpec (key h) ll lr) 0 ∧ h'.value = h.value := by
  obtain ⟨h', hd, e, hs, _, _, hv, _, _⟩ :=
    q_merge_loop_spec (key h) fuel ll lr h left right 0 .headVar hsl hsr hnd h0 rfl hp
      (fun a ha => LinkRef.noConfusion ha) hf
  exact ⟨h', hd, e, hs, hv⟩

/-- C19, as stated, fails: merging the one-node chains `2` and `3`, which
carry equal payloads, puts the right node `3` first, and `q_sort` turns the
traversal `2, 3` of two equal payloads into `3, 2`. -/
theorem q_merge_unstable_counterexample :
    Ring (ringOf [[97], [97]]) 1 [2, 3] ∧
    key (ringOf [[97], [97]]) 2 = key (ringOf [[97], [97]]) 3 ∧
    (∃ h', __q_merge 3 (((ringOf [[97], [97]]).setNext 2 0).setNext 3 0) 2 3 = some (h', 3) ∧
      h'.next 3 = 2 ∧ h'.next 2 = 0) ∧
    (∃ h', q_sort 4 (ringOf [[97], [97]]) 1 = some h' ∧ Ring h' 1 [3, 2]) := by
  refine ⟨by decide, by decide, ⟨_, rfl, by decide, by decide⟩, ⟨_, rfl, by decide⟩⟩

/-- C19, amended: `__q_merge` consistently favors the right list on
equality.  On two disjoint null-terminated chains with payloads it returns
the chain `mergeSpec`, in which, whenever the payloads at the current fronts
compare equal, the right node is spliced before the left node, and the left
node goes first only when its payload is strictly smaller (the right node
also goes first when its payload is strictly smaller); so the merge is
deterministic but not stable. -/
theorem q_merge_favors_right (h : Heap) (fuel left right : Nat) (ll lr : List Nat)
    (hsl : Seg h.next left ll 0) (hsr : Seg h.next right lr 0) (hnd : (ll ++ lr).Nodup)
    (h0 : 0 ∉ ll ++ lr) (hp : Payloads h (ll ++ lr)) (hf : ll.length + lr.length + 1 ≤ fuel) :
    (∃ h' hd, __q_merge fuel h left right = some (h', hd) ∧
      Seg h'.next hd (mergeSpec (key h) ll lr) 0 ∧ h'.value = h.value) ∧
    (∀ a l b r, strcmp (key h a) (key h b) = 0 →
      mergeSpec (key h) (a :: l) (b :: r) = b :: mergeSpec (key h) (a :: l) r) ∧
    (∀ a l b r, strcmp (key h a) (key h b) < 0 →
      mergeSpec (key h) (a :: l) (b :: r) = a :: mergeSpec (key h) l (b :: r)) ∧
    (∀ a l b r, 0 < strcmp (key h a) (key h b) →
      mergeSpec (key h) (a :: l) (b :: r) = b :: mergeSpec (key h) (a :: l) r) := by
  refine ⟨q_merge_chain h fuel left right ll lr hsl hsr hnd h0 hp hf, ?_, ?_, ?_⟩
  · intro a l b r e
    rw [mergeSpec_cons_cons, if_neg (by omega)]
  · intro a l b r e
    rw [mergeSpec_cons_cons, if_pos e]
  · intro a l b r e
    rw [mergeSpec_cons_cons, if_neg (by omega)]

theorem q_merge_favors_right_witness :
    Seg (((ringOf [[97], [97]]).setNext 2 0).setNext 3 0).next 2 [2] 0 ∧
    Seg (((ringOf [[97], [97]]).setNext 2 0).setNext 3 0).next 3 [3] 0 ∧
    (∃ h' hd, __q_merge 3 (((ringOf [[97], [97]]).setNext 2 0).setNext 3 0) 2 3 =
        some (h', hd) ∧
      Seg h'.next hd (mergeSpec (key (((ringOf [[97], [97]]).setNext 2 0).setNext 3 0))
        [2] [3]) 0 ∧
      h'.value = (((ringOf [[97], [97]]).setNext 2 0).setNext 3 0).value) :=
  ⟨by decide, by decide,
    (q_merge_favors_right (((ringOf [[97], [97]]).setNext 2 0).setNext 3 0) 3 2 3 [2] [3]
      (by decide) (by decide) (by decide) (by decide) (by decide) (by decide)).1⟩

/-! ## Termination of `q_merge_sort` -/

/-- The slow/fast walk on a chain of `n ≥ 2` nodes stops on the node of index
`⌊(n - 1) / 2⌋`: cutting after it leaves a left chain of `⌈n / 2⌉` nodes and a
non-null right chain of `⌊n / 2⌋` nodes. -/
theorem q_merge_sort_split_chain (h : Heap) (head fuel : Nat) (l : List Nat)
    (hs : Seg h.next head l 0) (hnd : l.Nodup) (h0 : 0 ∉ l) (hn : 2 ≤ l.length)
    (hf : (l.length - 1) / 2 + 1 ≤ fuel) :
    ∃ slow l₁ l₂, q_merge_sort_split fuel h head head = some slow ∧ l = l₁ ++ l₂ ∧
      l₁.length = (l.length + 1) / 2 ∧ l₂.length = l.length / 2 ∧
      h.next slow ≠ 0 ∧ Seg (h.setNext slow 0).next head l₁ 0 ∧
      Seg (h.setNext slow 0).next (h.next slow) l₂ 0 := by
  obtain ⟨x, ex, hx⟩ := q_merge_sort_split_spec h fuel l l head head hs hs
    (by intro e; rw [e] at hn; simp at hn) h0 (by omega) hf
  obtain ⟨l₁, l₂, hdec, hl₁⟩ := getElem?_decomp _ _ _ hx
  have hlen : l₁.length + 1 + l₂.length = l.length := by
    rw [hdec]; simp; omega
  have hnd' : ((l₁ ++ [x]) ++ l₂).Nodup := by
    have : l₁ ++ x :: l₂ = (l₁ ++ [x]) ++ l₂ := by simp
    rw [← this, ← hdec]; exact hnd
  have hx₁ : x ∉ l₁ := fun hm =>
    (List.nodup_append.1 (List.nodup_append.1 hnd').1).2.2 hm (by simp)
  have hx₂ : x ∉ l₂ := fun hm => (List.nodup_append.1 hnd').2.2 (by simp) hm
  have hs' := hs
  rw [hdec] at hs'
  obtain ⟨m, hsa, hsb⟩ := seg_append.1 hs'
  obtain ⟨hmx, hsb⟩ := hsb
  subst hmx
  have hl₂ : l₂ ≠ [] := by
    intro e
    rw [e] at hlen
    simp only [List.length_nil] at hlen
    omega
  refine ⟨m, l₁ ++ [m], l₂, ex, by rw [hdec]; simp, by simp; omega, by omega, ?_, ?_, ?_⟩
  · cases l₂ with
    | nil => exact absurd rfl hl₂
    | cons b l₂ =>
      rw [hsb.1]
      intro e
      exact h0 (by rw [hdec]; simp [e])
  · rw [seg_snoc]
    refine ⟨(seg_congr ?_).2 hsa, by simp⟩
    intro y hy
    have : y ≠ m := fun e => hx₁ (e ▸ hy)
    simp [this]
  · refine (seg_congr ?_).2 hsb
    intro y hy
    have : y ≠ m := fun e => hx₂ (e ▸ hy)
    simp [this]

/-- C20: `q_merge_sort` terminates on every non-empty null-terminated chain
with payloads: with fuel `n + 2` it returns.  On a chain of `n ≥ 2` nodes the
slow/fast walk cuts it into a left chain of `⌈n / 2⌉` nodes and a right chain
of `⌊n / 2⌋` nodes, both non-empty and strictly shorter than `n`, the right
one starting at a non-null node, so no recursive call is made on a null chain
and the recursion is well-founded on the chain length. -/
theorem q_merge_sort_terminates (h : Heap) (head fuel : Nat) (l : List Nat)
    (hl : l ≠ []) (hs : Seg h.next head l 0) (hnd : l.Nodup) (h0 : 0 ∉ l)
    (hp : Payloads h l) (hf : l.length + 2 ≤ fuel) :
    (∃ res, q_merge_sort fuel h head = some res) ∧
    (2 ≤ l.length →
      ∃ slow l₁ l₂, q_merge_sort_split (fuel - 1) h head head = some slow ∧ l = l₁ ++ l₂ ∧
        l₁.length = (l.length + 1) / 2 ∧ l₂.length = l.length / 2 ∧
        1 ≤ l₁.length ∧ l₁.length < l.length ∧ 1 ≤ l₂.length ∧ l₂.length < l.length ∧
        head ≠ 0 ∧ h.next slow ≠ 0 ∧ Seg (h.setNext slow 0).next head l₁ 0 ∧
        Seg (h.setNext slow 0).next (h.next slow) l₂ 0) := by
  constructor
  · obtain ⟨h', head', _, e, _⟩ :=
      q_merge_sort_spec (key h) l.length l fuel h head (le_refl _) hl hs hnd h0 rfl hp hf
    exact ⟨_, e⟩
  · intro hn
    obtain ⟨slow, l₁, l₂, e, hdec, h1, h2, h3, h4, h5⟩ :=
      q_merge_sort_split_chain h head (fuel - 1) l hs hnd h0 hn (by omega)
    have hh : head ≠ 0 := by
      cases l with
      | nil => exact absurd rfl hl
      | cons a l =>
        rw [hs.1]
        intro e0
        exact h0 (by simp [e0])
    exact ⟨slow, l₁, l₂, e, hdec, h1, h2, by omega, by omega, by omega, by omega, hh, h3,
      h4, h5⟩

theorem q_merge_sort_terminates_witness :
    Seg (((ringOf [[98], [97], [99]]).setNext 4 0)).next 2 [2, 3, 4] 0 ∧
    (∃ res, q_merge_sort 5 ((ringOf [[98], [97], [99]]).setNext 4 0) 2 = some res) :=
  ⟨by decide,
    (q_merge_sort_terminates ((ringOf [[98], [97], [99]]).setNext 4 0) 2 5 [2, 3, 4]
      (by decide) (by decide) (by decide) (by decide) (by decide) (by decide)).1⟩

/-! ## Ring integrity under the operations -/

theorem swapPairs_perm : ∀ (l : List Nat), (swapPairs l).Perm l
  | [] => List.Perm.refl _
  | [_] => List.Perm.refl _
  | a :: b :: l => by
    rw [swapPairs_cons_cons]
    exact ((swapPairs_perm l).cons a |>.cons b).trans (List.Perm.swap a b l)

theorem dedupAux_subset (v : Nat → List Nat) : ∀ (l : List Nat) (p : Nat) (dup : Bool),
    ∀ x ∈ dedupAux v p dup l, x ∈ p :: l := by
  intro l
  induction l with
  | nil =>
    intro p dup x hx
    rw [dedupAux] at hx
    split_ifs at hx
    · simp at hx
    · exact hx
  | cons a l ih =>
    intro p dup x hx
    rw [dedupAux] at hx
    split_ifs at hx with h1 h2
    · rcases List.mem_cons.1 (ih p true x hx) with e | e
      · simp [e]
      · simp [e]
    · rw [List.nil_append] at hx
      exact List.mem_cons_of_mem _ (ih a false x hx)
    · rcases List.mem_append.1 hx with e | e
      · simp at e; simp [e]
      · exact List.mem_cons_of_mem _ (ih a false x e)

theorem dedupRuns_subset (v : Nat → List Nat) (l : List Nat) :
    ∀ x ∈ dedupRuns v l, x ∈ l := by
  cases l with
  | nil => intro x hx; exact hx
  | cons p l => exact dedupAux_subset v l p false

theorem RingInv.of_value {h h' : Heap} {head : Nat} {l l' : List Nat}
    (hp : Payloads h l) (r' : Ring h' head l') (hv : h'.value = h.value)
    (hsub : ∀ x ∈ l', x ∈ l) : RingInv h' head l' :=
  ⟨r', hp.mono hv hsub⟩

/-- An insertion whose element is not obtained leaves the memory as it was. -/
theorem q_insert_null (h : Heap) (head : Nat) (s : List Nat) (buf : Bool) :
    q_insert_head h head s 0 buf = (h, false) ∧ q_insert_tail h head s 0 buf = (h, false) := by
  constructor
  · by_cases hh : head = 0 <;> simp [q_insert_head, q_new_element, hh]
  · by_cases hh : head = 0 <;> simp [q_insert_tail, q_new_element, hh]

/-- An insertion whose payload buffer is not obtained only allocates and
releases the fresh block. -/
theorem q_insert_nobuf (h : Heap) (head ne : Nat) (s : List Nat) (hh : head ≠ 0)
    (hne : ne ≠ 0) :
    q_insert_head h head s ne false = (((h.alloc ne).setValue ne none).free ne, false) ∧
    q_insert_tail h head s ne false = (((h.alloc ne).setValue ne none).free ne, false) := by
  constructor
  · simp [q_insert_head, q_new_element, q_init_element, hh, hne]
  · simp [q_insert_tail, q_new_element, q_init_element, hh, hne]

theorem RingInv.insert_nobuf {h : Heap} {head ne : Nat} {l : List Nat}
    (hi : RingInv h head l) (hfresh : h.live ne = false) :
    RingInv (((h.alloc ne).setValue ne none).free ne) head l := by
  have hnm : ne ∉ head :: l := hi.1.not_mem_of_not_live hfresh
  refine ⟨hi.1.frame (fun _ _ => rfl) (fun _ _ => rfl) ?_, ?_⟩
  · intro y hy
    have : y ≠ ne := fun e => hnm (e ▸ hy)
    simp [this]
  · intro x hx
    have : x ≠ ne := fun e => hnm (e ▸ List.mem_cons_of_mem _ hx)
    simp only [free_value, setValue_value, if_neg this, alloc_value]
    exact hi.2 x hx

theorem RingInv.insert_ok {h h' : Heap} {head ne : Nat} {l l' s : List Nat}
    (hi : RingInv h head l) (r' : Ring h' head l')
    (hv : ∀ x, h'.value x = if x = ne then some s else h.value x)
    (hsub : ∀ x ∈ l', x = ne ∨ x ∈ l) : RingInv h' head l' := by
  refine ⟨r', ?_⟩
  intro x hx
  rw [hv x]
  split_ifs with e
  · simp
  · rcases hsub x hx with e' | e'
    · exact absurd e' e
    · exact hi.2 x e'

/-- Every call within its contract, with enough fuel, returns and leaves a
well-formed ring with payloads. -/
theorem Op.preserves (fuel head : Nat) (op : Op) (h : Heap) (l : List Nat)
    (hi : RingInv h head l) (ha : op.admissible head h) (hf : l.length + 1 ≤ fuel) :
    ∃ h' l', op.run fuel head h = some h' ∧ RingInv h' head l' := by
  obtain ⟨r, hp⟩ := hi
  cases op with
  | insertHead s ne buf =>
    simp only [Op.run]
    by_cases hne : ne = 0
    · subst hne
      rw [(q_insert_null h head s buf).1]
      exact ⟨h, l, rfl, r, hp⟩
    · have hfresh : h.live ne = false := Or.resolve_left ha hne
      cases buf with
      | false =>
        rw [(q_insert_nobuf h head ne s r.head_ne_zero hne).1]
        exact ⟨_, l, rfl, RingInv.insert_nobuf ⟨r, hp⟩ hfresh⟩
      | true =>
        obtain ⟨_, r', hv, _⟩ := q_insert_head_ring h head ne l s r hne hfresh
        exact ⟨_, ne :: l, rfl, RingInv.insert_ok ⟨r, hp⟩ r' hv (by simp)⟩
  | insertTail s ne buf =>
    simp only [Op.run]
    by_cases hne : ne = 0
    · subst hne
      rw [(q_insert_null h head s buf).2]
      exact ⟨h, l, rfl, r, hp⟩
    · have hfresh : h.live ne = false := Or.resolve_left ha hne
      cases buf with
      | false =>
        rw [(q_insert_nobuf h head ne s r.head_ne_zero hne).2]
        exact ⟨_, l, rfl, RingInv.insert_nobuf ⟨r, hp⟩ hfresh⟩
      | true =>
        obtain ⟨_, r', hv, _⟩ := q_insert_tail_ring h head ne l s r hne hfresh
        exact ⟨_, l ++ [ne], rfl, RingInv.insert_ok ⟨r, hp⟩ r' hv
          (by intro x hx; simp at hx; tauto)⟩
  | removeHead sp bufsize =>
    simp only [Op.run]
    by_cases hc : head = 0 ∨ list_empty h head = true ∨ sp = none
    · rw [(q_remove_head_cases h head bufsize sp).1 hc]
      exact ⟨h, l, rfl, r, hp⟩
    · obtain ⟨buf, hsp⟩ : ∃ buf, sp = some buf :=
        Option.ne_none_iff_exists'.1 (fun e => hc (Or.inr (Or.inr e)))
      subst hsp
      have hl : l ≠ [] := fun e => hc (Or.inr (Or.inl (r.list_empty_iff.2 e)))
      obtain ⟨h1, hcap, h64⟩ := ha buf rfl
      match l, r, hp, hl with
      | x :: l', r, hp, _ =>
        obtain ⟨t, ht⟩ := Option.ne_none_iff_exists'.1 (hp x (by simp))
        obtain ⟨buf', e, r', _, _⟩ :=
          q_remove_head_ring h head x bufsize l' buf t r ht h1 hcap h64
        rw [e]
        exact ⟨_, l', rfl, r', hp.mono (list_del_init_value h x)
          (fun y hy => List.mem_cons_of_mem _ hy)⟩
  | removeTail sp bufsize =>
    simp only [Op.run]
    by_cases hc : head = 0 ∨ list_empty h head = true ∨ sp = none
    · rw [(q_remove_tail_cases h head bufsize sp).1 hc]
      exact ⟨h, l, rfl, r, hp⟩
    · obtain ⟨buf, hsp⟩ : ∃ buf, sp = some buf :=
        Option.ne_none_iff_exists'.1 (fun e => hc (Or.inr (Or.inr e)))
      subst hsp
      have hl : l ≠ [] := fun e => hc (Or.inr (Or.inl (r.list_empty_iff.2 e)))
      obtain ⟨h1, hcap, h64⟩ := ha buf rfl
      rcases List.eq_nil_or_concat' l with hnil | ⟨l', x, hcc⟩
      · exact absurd hnil hl
      · subst hcc
        obtain ⟨t, ht⟩ := Option.ne_none_iff_exists'.1 (hp x (by simp))
        obtain ⟨buf', e, r', _, _⟩ :=
          q_remove_tail_ring h head x bufsize l' buf t r ht h1 hcap h64
        rw [e]
        exact ⟨_, l', rfl, r', hp.mono (list_del_init_value h x)
          (fun y hy => by simp [hy])⟩
  | deleteMid =>
    simp only [Op.run]
    have hl : l ≠ [] := by
      intro e
      have h1 : list_empty h head = true := r.list_empty_iff.2 e
      have h2 : list_empty h head = false := ha
      rw [h1] at h2
      exact Bool.noConfusion h2
    obtain ⟨h', x, e, _, r', hv, _, _⟩ := q_delete_mid_ring h head fuel l r hl (by omega)
    rw [e]
    exact ⟨h', _, rfl, r', hp.mono hv
      (fun y hy => (List.eraseIdx_sublist l _).subset hy)⟩
  | deleteDup =>
    simp only [Op.run]
    by_cases hn : 2 ≤ l.length
    · obtain ⟨h', e, r', hv⟩ := q_delete_dup_ring h head fuel l r hp hn hf
      rw [e]
      exact ⟨h', _, rfl, r', hp.mono hv (dedupRuns_subset _ l)⟩
    · have hg := r.small_guard (by omega)
      unfold q_delete_dup
      rw [if_pos hg]
      exact ⟨h, l, rfl, r, hp⟩
  | swap =>
    simp only [Op.run]
    obtain ⟨h', e, r', hv, _⟩ := q_swap_ring h head fuel l r (by omega)
    exact ⟨h', _, e, r', hp.mono hv (fun y hy => (swapPairs_perm l).subset hy)⟩
  | reverse =>
    simp only [Op.run]
    exact ⟨_, _, q_reverse_eq h head fuel l r hf, r.swapLinks,
      hp.mono rfl (fun y hy => List.mem_reverse.1 hy)⟩
  | shuffle rnd =>
    simp only [Op.run]
    by_cases hn : 2 ≤ l.length
    · obtain ⟨h', e, r', hv, _⟩ := q_shuffle_ring h head fuel rnd l r hn hf (ha l r)
      rw [e]
      exact ⟨h', _, rfl, r', hp.mono hv
        (fun y hy => (shuffleSpec_perm rnd l.length 0 l).subset hy)⟩
    · have hg := r.small_guard (by omega)
      unfold q_shuffle
      rw [if_pos hg]
      exact ⟨h, l, rfl, r, hp⟩

/-- Every finite sequence of calls within their contracts, with enough fuel,
returns and leaves a well-formed ring with payloads, on which the integrity
statement of the spec holds. -/
theorem runOps_preserves (fuel head : Nat) : ∀ (ops : List Op) (h : Heap) (l : List Nat),
    RingInv h head l → Admissible fuel head ops h →
    ∃ h' l', runOps fuel head ops h = some h' ∧ RingInv h' head l' ∧
      (∀ x ∈ head :: l', h'.prev (h'.next x) = x ∧ h'.next (h'.prev x) = x) ∧
      h'.next^[l'.length + 1] head = head := by
  intro ops
  induction ops with
  | nil =>
    intro h l hi _
    exact ⟨h, l, rfl, hi, hi.1.integrity.1, hi.1.integrity.2.2.2.1⟩
  | cons op ops ih =>
    intro h l hi ha
    obtain ⟨ha1, ha2, ha3⟩ := ha
    obtain ⟨h₁, l₁, e, hi₁⟩ := Op.preserves fuel head op h l hi ha1 (ha2 l hi.1)
    obtain ⟨h', l', e', hi', hint⟩ := ih h₁ l₁ hi₁ (ha3 h₁ e)
    refine ⟨h', l', ?_, hi', hint⟩
    rw [runOps, e]
    exact e'

/-- An admissible sequence, run: inserting `c` at the tail of `a, b`,
reversing and deleting the middle element leaves the ring `c, a`. -/
theorem runOps_preserves_example :
    Admissible 5 1 [.insertTail [99] 4 true, .reverse, .deleteMid] (ringOf [[97], [98]]) ∧
    ∃ h', runOps 5 1 [.insertTail [99] 4 true, .reverse, .deleteMid] (ringOf [[97], [98]]) =
        some h' ∧ Ring h' 1 [4, 2] := by
  have r0 : Ring (ringOf [[97], [98]]) 1 [2, 3] := by decide
  refine ⟨⟨Or.inr (by decide), ?_, ?_⟩, _, rfl, by decide⟩
  · intro l r
    rw [← r0.unique r]
    decide
  · intro h₁ e₁
    have e : some (q_insert_tail (ringOf [[97], [98]]) 1 [99] 4 true).1 = some h₁ := e₁
    obtain rfl := Option.some.inj e
    have r1 : Ring (q_insert_tail (ringOf [[97], [98]]) 1 [99] 4 true).1 1 [2, 3, 4] := by
      decide
    refine ⟨trivial, ?_, ?_⟩
    · intro l r
      rw [← r1.unique r]
      decide
    · intro h₂ e₂
      have r2 : Ring (swapLinks (1 :: [2, 3, 4])
          (q_insert_tail (ringOf [[97], [98]]) 1 [99] 4 true).1) 1 [4, 3, 2] := r1.swapLinks
      have e : some (swapLinks (1 :: [2, 3, 4])
          (q_insert_tail (ringOf [[97], [98]]) 1 [99] 4 true).1) = some h₂ := by
        rw [← e₂]
        exact (q_reverse_eq _ 1 5 [2, 3, 4] r1 (by decide)).symm
      obtain rfl := Option.some.inj e
      refine ⟨?_, ?_, fun _ _ => trivial⟩
      · have : list_empty (swapLinks (1 :: [2, 3, 4])
            (q_insert_tail (ringOf [[97], [98]]) 1 [99] 4 true).1) 1 = false := by
          cases hle : list_empty (swapLinks (1 :: [2, 3, 4])
              (q_insert_tail (ringOf [[97], [98]]) 1 [99] 4 true).1) 1 with
          | false => rfl
          | true => exact absurd (r2.list_empty_iff.1 hle) (by decide)
        exact this
      · intro l r
        rw [← r2.unique r]
        decide

/-- C18: ring integrity is not preserved by `q_delete_mid` on an empty ring.
The ring made by `q_new` is well formed; `q_delete_mid` returns true on it
and releases the head, after which no traversal makes it a well-formed ring. -/
theorem q_delete_mid_breaks_integrity :
    Ring (q_new Heap.empty 1).1 1 [] ∧
    ∃ h', q_delete_mid 1 (q_new Heap.empty 1).1 1 = some (h', true) ∧
      Op.run 1 1 .deleteMid (q_new Heap.empty 1).1 = some h' ∧
      h'.live 1 = false ∧ ∀ l, ¬ Ring h' 1 l := by
  refine ⟨by decide, _, rfl, rfl, by decide, ?_⟩
  intro l hr
  have := hr.2.2.1 1 (List.mem_cons_self _ _)
  revert this
  decide

end LabQueue
